import Mathlib

/-!
Verification of the kischvidimer diff/merge engine specification against a
shallow embedding of the source (src/kischvidimer).  Each section embeds one
component of the Python source as executable Lean definitions and proves the
claims attached to it.

Components covered:
* `sexp.py` : the s-expression value model, printer (`dump`), parser
  (`parse`) and node mutation (`SExp.add`);
* `kicad_common.py` : the file-version gate and the variable engine
  (`Variables.expand` / `Variables.resolve`);
* `kicad_sch.py` : the schematic loader entry point;
* `netlister.py` : net/bus naming (`NetBus.add_name` / `NetBus.name`) and
  net formatting (`Net.fmt`);
* `diff.py` : the comparable contract, list matcher (`_minmatrix` /
  `matchlists`) and the three-way merger (`threeway`).

Machine integers do not occur (Python ints are unbounded; they are embedded
as `Int`/`Nat`); fallible code is embedded with `Except`/`Option`.
-/

namespace KVD

/-! ## Python `Decimal`

`sexp.parse` stores fixed-precision decimals as `decimal.Decimal` values built
from the matched text; the printer emits `str(Decimal)`.  A `Decimal` built
from `sign? digits (.digits)? ([eE] sign? digits)?` keeps the coefficient
digits with leading zeros stripped and the adjusted exponent; `str` follows
the to-scientific-string algorithm of the decimal specification. -/

structure PyDecimal where
  /-- true when the literal carries a leading minus sign -/
  sign : Bool
  /-- coefficient digits, leading zeros stripped, at least one digit -/
  coeff : List Char
  /-- exponent: written exponent minus the number of fractional digits -/
  exp : Int
deriving Repr, DecidableEq

/-- Strip leading zeros from a digit run but keep at least one digit. -/
def stripZeros : List Char → List Char
  | [] => ['0']
  | ['0'] => ['0']
  | '0' :: (c :: cs) => stripZeros (c :: cs)
  | c :: cs => c :: cs

/-- `str()` of a Python `Decimal` (to-scientific-string). -/
def PyDecimal.toStr (d : PyDecimal) : String :=
  let n : Int := d.coeff.length
  let adjusted : Int := d.exp + n - 1
  let body :=
    if d.exp ≤ 0 ∧ -6 ≤ adjusted then
      if d.exp = 0 then String.mk d.coeff
      else if 0 ≤ adjusted then
        let k := (adjusted + 1).toNat
        String.mk (d.coeff.take k) ++ "." ++ String.mk (d.coeff.drop k)
      else
        "0." ++ String.mk (List.replicate (-adjusted - 1).toNat '0') ++
          String.mk d.coeff
    else
      let head := String.mk (d.coeff.take 1)
      let rest := d.coeff.drop 1
      (if rest.isEmpty then head else head ++ "." ++ String.mk rest) ++
        "E" ++ (if 0 ≤ adjusted then "+" else "") ++ toString adjusted
  (if d.sign then "-" else "") ++ body

/-! ## `sexp.py` : values

A parsed s-expression element is an `Atom` (an unquoted identifier, a `str`
subclass in the source), an `int`, a `Decimal`, a string literal, or a
sub-node (`SExp`, whose `sexp` field is the ordered child list including the
leading type atom). -/

inductive SVal where
  | atom (s : String)
  | int (n : Int)
  | dec (d : PyDecimal)
  | str (s : String)
  | node (sexp : List SVal)
deriving Repr

mutual

/-- Structural (Lean-level) equality test for `SVal`. -/
def SVal.beq : SVal → SVal → Bool
  | .atom a, .atom b => a == b
  | .int a, .int b => a == b
  | .dec a, .dec b => a == b
  | .str a, .str b => a == b
  | .node a, .node b => SVal.beqList a b
  | _, _ => false

def SVal.beqList : List SVal → List SVal → Bool
  | [], [] => true
  | a :: as, b :: bs => SVal.beq a b && SVal.beqList as bs
  | _, _ => false

end

instance : BEq SVal := ⟨SVal.beq⟩

mutual

theorem SVal.beq_refl : ∀ v : SVal, SVal.beq v v = true
  | .atom _ => by simp [SVal.beq]
  | .int _ => by simp [SVal.beq]
  | .dec _ => by simp [SVal.beq]
  | .str _ => by simp [SVal.beq]
  | .node l => by simp [SVal.beq, SVal.beqList_refl l]

theorem SVal.beqList_refl : ∀ l : List SVal, SVal.beqList l l = true
  | [] => by simp [SVal.beqList]
  | v :: vs => by simp [SVal.beqList, SVal.beq_refl v, SVal.beqList_refl vs]

end

mutual

theorem SVal.eq_of_beq : ∀ {a b : SVal}, SVal.beq a b = true → a = b
  | .atom _, .atom _, h => by
    simp only [SVal.beq, beq_iff_eq] at h; rw [h]
  | .int _, .int _, h => by
    simp only [SVal.beq, beq_iff_eq] at h; rw [h]
  | .dec _, .dec _, h => by
    simp only [SVal.beq, beq_iff_eq] at h; rw [h]
  | .str _, .str _, h => by
    simp only [SVal.beq, beq_iff_eq] at h; rw [h]
  | .node a, .node b, h => by
    rw [SVal.eqList_of_beq (a := a) (b := b) h]

theorem SVal.eqList_of_beq : ∀ {a b : List SVal}, SVal.beqList a b = true → a = b
  | [], [], _ => rfl
  | x :: xs, y :: ys, h => by
    simp only [SVal.beqList, Bool.and_eq_true] at h
    rw [SVal.eq_of_beq h.1, SVal.eqList_of_beq h.2]
  | [], _ :: _, h => by simp [SVal.beqList] at h
  | _ :: _, [], h => by simp [SVal.beqList] at h

end

instance : DecidableEq SVal := fun a b =>
  if h : SVal.beq a b = true then
    .isTrue (SVal.eq_of_beq h)
  else
    .isFalse (fun he => h (he ▸ SVal.beq_refl a))

/-! ## `sexp.py` : printer (`dump`)

The printer walks the tree with an explicit stack of child iterators and a
list of output lines, following the prettify rules of the source.  `out` is
kept reversed (head = current line). -/

/-- `indent_char * n` -/
def tabs (n : Nat) : String := String.mk (List.replicate n '\t')

def strLen (s : String) : Nat := s.data.length

def strEndsWith (s suffix : String) : Bool := suffix.data.isSuffixOf s.data

/-- One character of the string-escaping performed by `dump`
(`\` to `\\`, `"` to `\"`, newline to `\n`; the three sequential
`str.replace` calls of the source are equivalent to this single pass). -/
def escapeChar : Char → List Char
  | '\\' => ['\\', '\\']
  | '"' => ['\\', '"']
  | '\n' => ['\\', 'n']
  | c => [c]

def escapeStr (s : String) : String := String.mk (s.data.map escapeChar).flatten

/-- `str(data)` for a non-node element, quoted/escaped when it is neither an
`Atom`, an `int` nor a `Decimal`. -/
def tokenText : SVal → String
  | .atom a => a
  | .int n => toString n
  | .dec d => d.toStr
  | .str s => "\"" ++ escapeStr s ++ "\""
  | .node _ => ""

structure DumpState where
  /-- output lines, reversed: head is `out[-1]` -/
  out : List String
  inMulti : Bool
  inXY : Bool
deriving Repr

/-- End of block: `stack.pop()` has already happened; `depth` is the
remaining stack depth. -/
def endBlock (depth : Nat) (st : DumpState) : DumpState :=
  match st.out with
  | [] => st
  | cur :: rest =>
    if st.inMulti || strEndsWith cur ")" then
      { st with out := (tabs depth ++ ")") :: cur :: rest, inMulti := false }
    else
      { st with out := (cur ++ ")") :: rest, inMulti := false }

/-- Start of block: emit a fresh indented line holding `(`. -/
def startBlock (depth : Nat) (st : DumpState) : DumpState :=
  { st with out := (tabs depth ++ "(") :: st.out }

/-- Append one atomic token: extend the current line while inside an `xy`
run or while the current line is shorter than 72 characters, otherwise wrap
onto a fresh indented line. -/
def placeToken (depth : Nat) (txt : String) (st : DumpState) : DumpState :=
  match st.out with
  | [] => st
  | cur :: rest =>
    if st.inXY || strLen cur < 72 then
      if strEndsWith cur "(" then { st with out := (cur ++ txt) :: rest }
      else { st with out := (cur ++ " " ++ txt) :: rest }
    else
      { st with out := (tabs depth ++ txt) :: cur :: rest, inMulti := true }

/-- The `xy` special case: when the just-read atom continues a run of `xy`
nodes (`isXYRun`) and the previous line is shorter than 99 characters, the
freshly opened `(` line is popped and `" ("` is appended to the previous
line instead. -/
def xyMergeStep (isXYRun : Bool) (st : DumpState) : DumpState :=
  match st.out with
  | cur :: prev :: rest =>
    if isXYRun && strLen prev < 99 then
      { st with out := (prev ++ " (") :: rest }
    else { st with out := cur :: prev :: rest }
  | _ => st

/-- Emit one non-node element.  An `xy` atom that directly follows another
`xy` node merges the freshly opened `(` back onto the previous line when
that line is shorter than 99 characters. -/
def emitToken (depth : Nat) (v : SVal) (st : DumpState) : DumpState :=
  match v with
  | .atom a =>
    let wasXY := st.inXY
    let st := { st with inXY := a == "xy" }
    placeToken depth (tokenText (.atom a)) (xyMergeStep (st.inXY && wasXY) st)
  | v => placeToken depth (tokenText v) st

mutual

/-- Step count / termination weight of the dump loop for one element. -/
def svalWeight : SVal → Nat
  | .node cs => 2 + svalWeightList cs
  | _ => 1

def svalWeightList : List SVal → Nat
  | [] => 0
  | v :: vs => svalWeight v + svalWeightList vs

end

/-- The printer's main loop.  The stack holds the not-yet-printed suffix of
each open node's child list (head = innermost).  `fuel` is structural audit
fuel; `svalWeightList l + 2` steps always suffice. -/
def dumpLoop : Nat → List (List SVal) → DumpState → DumpState
  | 0, _, st => st
  | _ + 1, [], st => st
  | fuel + 1, [] :: stack, st => dumpLoop fuel stack (endBlock stack.length st)
  | fuel + 1, (SVal.node cs :: rest) :: stack, st =>
      dumpLoop fuel (cs :: rest :: stack) (startBlock (stack.length + 1) st)
  | fuel + 1, (v :: rest) :: stack, st =>
      dumpLoop fuel (rest :: stack) (emitToken (stack.length + 1) v st)

def joinNL : List String → String
  | [] => ""
  | [s] => s
  | s :: rest => s ++ "\n" ++ joinNL rest

/-- `sexp.dump` applied to a plain child list (the `data if isinstance(data,
list) else data.sexp` of the source). -/
def dump (vals : List SVal) : String :=
  let st := dumpLoop (svalWeightList vals + 2) [vals]
    { out := ["("], inMulti := false, inXY := false }
  joinNL st.out.reverse

/-- `sexp.dump` applied to an `SExp` (uses its `sexp` child list). -/
def dumpRoot : SVal → String
  | .node cs => dump cs
  | v => dump [v]

/-! ## `sexp.py` : parser (`parse`)

The parser drives a stack of partial child lists.  Errors mirror the
exceptions the source can raise: `unbalanced` for the `stack[-2]`
IndexError on a stray `)`, `badString` for `BadStringError` (the message
carries the byte offset, which is not modeled), and `reNoMatch` for the
AttributeError raised by calling `.group()`/`.end()` on a failed regex
match (unterminated string literal, backslash-newline inside a literal, or
a bare single-quote character). -/

inductive ParseErr where
  | unbalanced
  | badString
  | reNoMatch
deriving Repr, DecidableEq

/-- Python `string.whitespace` membership. -/
def isPyWhitespace (c : Char) : Bool :=
  c == ' ' || c == '\t' || c == '\n' || c == '\r' ||
    c == Char.ofNat 11 || c == Char.ofNat 12

def isDigit (c : Char) : Bool := '0' ≤ c && c ≤ '9'

/-- The content scan of `LITERAL_RE` (`"(?:[^"\\]|\\.)*"`) after the opening
quote: returns the raw content characters (escapes unexpanded) and the
remaining input, or `none` when the regex cannot match (no closing quote,
or a backslash followed by a newline, which `\\.` cannot match). -/
def scanLitAux : List Char → Option (List Char × List Char)
  | [] => none
  | '"' :: rest => some ([], rest)
  | '\\' :: [] => none
  | '\\' :: c :: rest =>
    if c == '\n' then none
    else
      match scanLitAux rest with
      | none => none
      | some (content, r) => some ('\\' :: c :: content, r)
  | c :: rest =>
    match scanLitAux rest with
    | none => none
    | some (content, r) => some (c :: content, r)

/-- `BACKSLASH_RE.sub(backslash_sub, ...)`: each backslash-escape pair is
replaced by the escaped character, with `\n` becoming a newline. -/
def unescapeChars : List Char → List Char
  | [] => []
  | '\\' :: c :: rest => (if c == 'n' then '\n' else c) :: unescapeChars rest
  | c :: rest => c :: unescapeChars rest

/-- Integer value of a digit run with an optional sign character
(Python `int(...)` on the matched group). -/
def pyIntOfDigits (neg : Bool) (ds : List Char) : Int :=
  let n : Nat := ds.foldl (fun acc c => acc * 10 + (c.toNat - '0'.toNat)) 0
  if neg then -(n : Int) else (n : Int)

/-- Characters allowed in the atom branch of `INT_DEC_ATOM_RE`
(`[^()"'\s]+`). -/
def isAtomChar (c : Char) : Bool :=
  !(c == '(' || c == ')' || c == '"' || c == Char.ofNat 39 ||
    isPyWhitespace c)

/-- The lookahead `(?=[)\s]|$)` of the numeric branch. -/
def numLookahead : List Char → Bool
  | [] => true
  | c :: _ => c == ')' || isPyWhitespace c

/-- `INT_DEC_ATOM_RE.match` at the current position: either an integer, a
decimal (with its written components), or an atom.  Returns the parsed
element and the remaining input; `none` models the AttributeError on a
failed match (only possible for a bare single-quote). -/
def scanIntDecAtom (l : List Char) : Option (SVal × List Char) :=
  -- Branch 1: ([+-]?[0-9]+)((?:\.[0-9]+)?(?:[eE][+-]?[0-9]+)?)(?=[)\s]|$)
  let (neg, rest) :=
    match l with
    | '-' :: r => (true, r)
    | '+' :: r => (false, r)
    | r => (false, r)
  let ds := rest.takeWhile isDigit
  let rest1 := rest.drop ds.length
  let numeric : Option (SVal × List Char) :=
    if ds.isEmpty then none
    else
      -- optional fraction `.[0-9]+`
      let (fds, rest2) :=
        match rest1 with
        | '.' :: r2 =>
          let f := r2.takeWhile isDigit
          if f.isEmpty then ([], rest1) else (f, r2.drop f.length)
        | _ => ([], rest1)
      let hasFrac := !fds.isEmpty
      -- optional exponent `[eE][+-]?[0-9]+`
      let expn : Option (Int × List Char) :=
        match rest2 with
        | c :: r3 =>
          if c == 'e' || c == 'E' then
            let (eneg, r4) :=
              match r3 with
              | '-' :: r => (true, r)
              | '+' :: r => (false, r)
              | r => (false, r)
            let eds := r4.takeWhile isDigit
            if eds.isEmpty then none
            else some (pyIntOfDigits eneg eds, r4.drop eds.length)
          else none
        | [] => none
      let (expVal, rest3) :=
        match expn with
        | some (v, r) => (some v, r)
        | none => (none, rest2)
      if numLookahead rest3 then
        if hasFrac || expVal.isSome then
          -- Decimal(a[0] + a[1]): coefficient keeps all written digits with
          -- leading zeros stripped; exponent is adjusted by the fraction
          some (.dec { sign := neg, coeff := stripZeros (ds ++ fds)
                       exp := expVal.getD 0 - fds.length }, rest3)
        else
          some (.int (pyIntOfDigits neg ds), rest3)
      else none
  match numeric with
  | some r => some r
  | none =>
    -- Branch 2: atom run `[^()"'\s]+` (backtracking reduces branch 1 to it)
    let run := l.takeWhile isAtomChar
    if run.isEmpty then none
    else some (.atom (String.mk run), l.drop run.length)

/-- Append a value to the top list of the parse stack (`stack[-1].append`).
The stack is never empty while parsing. -/
def pushVal (stack : List (List SVal)) (v : SVal) : List (List SVal) :=
  match stack with
  | top :: tail => (top ++ [v]) :: tail
  | [] => [[v]]

/-- The main loop of `sexp.parse`.  `fuel` is structural audit fuel; one
unit per input character always suffices since every step consumes at
least one character. -/
def parseLoop : Nat → List Char → List (List SVal) →
    Except ParseErr (List (List SVal))
  | 0, _, stack => .ok stack
  | _ + 1, [], stack => .ok stack
  | fuel + 1, c :: rest, stack =>
    if c == '(' then parseLoop fuel rest ([] :: stack)
    else if c == ')' then
      match stack with
      | top :: next :: tail =>
        parseLoop fuel rest ((next ++ [SVal.node top]) :: tail)
      | _ => .error .unbalanced
    else if isPyWhitespace c then parseLoop fuel rest stack
    else if c == '"' then
      match scanLitAux rest with
      | none => .error .reNoMatch
      | some (content, r) =>
        if content.contains '\n' then .error .badString
        else
          parseLoop fuel r
            (pushVal stack (.str (String.mk (unescapeChars content))))
    else
      match scanIntDecAtom (c :: rest) with
      | none => .error .reNoMatch
      | some (v, r) => parseLoop fuel r (pushVal stack v)

/-- `sexp.parse`: returns `SExp.init(stack[-1])`, i.e. a node wrapping the
top (innermost still-open) child list.  Extra `(`s are not an error in the
source; the innermost list is returned. -/
def parse (s : String) : Except ParseErr SVal :=
  match parseLoop (s.data.length + 1) s.data [[]] with
  | .error e => .error e
  | .ok [] => .error .unbalanced
  | .ok (top :: _) => .ok (.node top)

/-! ## `sexp.py` : Python `==` on elements

`SExp.__eq__` compares the child sequences with Python `==`: `Atom` is a
`str` subclass (an atom equals the same text as a plain string), `int` and
`Decimal` compare numerically across types, and nodes compare by child
sequence.  Cross-kind comparisons are `False`. -/

/-- Signed mantissa of a decimal. -/
def PyDecimal.mant (d : PyDecimal) : Int :=
  let n := pyIntOfDigits false d.coeff
  if d.sign then -n else n

/-- Numeric equality of `m1 * 10^e1` and `m2 * 10^e2`. -/
def decValEq (m1 e1 m2 e2 : Int) : Bool :=
  if e1 ≤ e2 then m1 == m2 * 10 ^ (e2 - e1).toNat
  else m1 * 10 ^ (e1 - e2).toNat == m2

mutual

def pyEq : SVal → SVal → Bool
  | .atom a, .atom b => a == b
  | .atom a, .str b => a == b
  | .str a, .atom b => a == b
  | .str a, .str b => a == b
  | .int a, .int b => a == b
  | .int a, .dec d => decValEq a 0 d.mant d.exp
  | .dec d, .int a => decValEq d.mant d.exp a 0
  | .dec c, .dec d => decValEq c.mant c.exp d.mant d.exp
  | .node a, .node b => pyEqList a b
  | _, _ => false

def pyEqList : List SVal → List SVal → Bool
  | [], [] => true
  | a :: as, b :: bs => pyEq a b && pyEqList as bs
  | _, _ => false

end

/-! ## `sexp.py` : node indexes and `SExp.add`

An `SExp` instance carries the ordered child sequence `sexp` plus two
indexes kept alongside it: `_subs`, a dict mapping a child-node type (the
leading atom, or `None` for untyped sub-nodes) to the list of sub-nodes of
that type, and `_atoms`, a multiset of the atom children. -/

structure SExpFull where
  sexp : List SVal
  subs : List (Option String × List SVal)
  atoms : List (String × Nat)
deriving Repr

/-- `SExp.type`: the leading atom of a node, else `None`. -/
def SVal.typeAtom : SVal → Option String
  | .node (.atom a :: _) => some a
  | _ => none

def subsGet (subs : List (Option String × List SVal)) (k : Option String) :
    Option (List SVal) :=
  match subs with
  | [] => none
  | (k2, v) :: rest => if k2 == k then some v else subsGet rest k

/-- Store a value under a key, replacing the first occurrence or appending
at the end (dict insertion-order semantics of `setdefault` + mutation). -/
def subsStore (subs : List (Option String × List SVal)) (k : Option String)
    (v : List SVal) : List (Option String × List SVal) :=
  match subs with
  | [] => [(k, v)]
  | (k2, v2) :: rest =>
    if k2 == k then (k2, v) :: rest else (k2, v2) :: subsStore rest k v

/-- `self._atoms[item] = self._atoms.get(item, 0) + 1` -/
def atomsBump (atoms : List (String × Nat)) (k : String) :
    List (String × Nat) :=
  match atoms with
  | [] => [(k, 1)]
  | (k2, n) :: rest =>
    if k2 == k then (k2, n + 1) :: rest else (k2, n) :: atomsBump rest k

/-- `self.__init__` builds both indexes from the child sequence. -/
def SExpFull.init (l : List SVal) : SExpFull :=
  l.foldl
    (fun acc item =>
      match item with
      | .node _ =>
        let key := item.typeAtom
        { acc with
          subs := subsStore acc.subs key
            ((subsGet acc.subs key).getD [] ++ [item]) }
      | .atom a => { acc with atoms := atomsBump acc.atoms a }
      | _ => acc)
    { sexp := l, subs := [], atoms := [] }

/-- `list.index(x, start)` with Python `==` element comparison: first index
at or after `start` holding an element equal to `x`, `none` for the
ValueError case. -/
def findIdxFrom (l : List SVal) (start : Nat) (x : SVal) : Option Nat :=
  ((l.drop start).findIdx? (fun y => pyEq y x)).map (· + start)

/-- The downward scan of `SExp.add`: the greatest `j` such that `subs[j]`
does NOT occur in `sexp[i:]` (i.e. `self.sexp.index(subs[j], i)` raises
ValueError); the item is then inserted after position `j`. -/
def lastNoIdx (sexp : List SVal) (i : Nat) (subs : List SVal) : Option Nat :=
  ((List.range subs.length).reverse).find? fun j =>
    (findIdxFrom sexp i (subs.getD j (SVal.node []))).isNone

inductive PyExn where
  | typeError
deriving Repr, DecidableEq

/-! ## `kicad_common.py` `Version` / `kicad_sch.py` loader -/

/-- `SExp.data`: the children after the leading type atom (the whole list
when untyped). -/
def SVal.dataList : SVal → List SVal
  | .node (.atom _ :: rest) => rest
  | .node l => l
  | _ => []

/-- `self._subs[atm]`: the ordered sub-nodes of the given type
(as `__init__` builds the index). -/
def getSubsOf (v : SVal) (atm : String) : List SVal :=
  match v with
  | .node l => l.filter (fun c => c.typeAtom == some atm)
  | _ => []

/-- `SExp.__contains__`: the atom is a sub-node type or a bare atom
child. -/
def containsAtomKey (v : SVal) (atm : String) : Bool :=
  !(getSubsOf v atm).isEmpty ||
    (match v with
     | .node l => l.contains (SVal.atom atm)
     | _ => false)

def Version.MINV : Int := 20220000
def Version.MAXV : Int := 20250114

/-- `Version.is_supported`: `MIN_VERSION <= self.data[0] <= MAX_VERSION`.
`none` models the exceptions of the source on a malformed version node (no
data child, or a child the comparison rejects; an integral `Decimal` child
would compare numerically in Python but does not occur and is mapped to
`none` here). -/
def Version.is_supported (v : SVal) : Option Bool :=
  match v.dataList with
  | .int n :: _ => some (decide (Version.MINV ≤ n ∧ n ≤ Version.MAXV))
  | _ => none

inductive LoadErr where
  | parseFail (e : ParseErr)
  | pyError
deriving Repr, DecidableEq

/-- `kicad_sch.kicad_sch(f)`: parse the file, and return the schematic node
when promotion chose the `KicadSch` handler (leading atom `kicad_sch`) and
the version child is present and supported; otherwise return `None`.
Parse errors propagate; `pyError` models the IndexError/KeyError paths of
a malformed root. -/
def kicad_sch (contents : String) : Except LoadErr (Option SVal) :=
  match parse contents with
  | .error e => .error (.parseFail e)
  | .ok root =>
    match root.dataList with
    | [] => .error .pyError
    | first :: _ =>
      if first.typeAtom == some "kicad_sch" then
        if containsAtomKey first "version" then
          match (getSubsOf first "version").head? with
          | some vnode =>
            match Version.is_supported vnode with
            | some true => .ok (some first)
            | some false => .ok none
            | none => .error .pyError
          | none => .error .pyError
        else .ok none
      else .ok none

/-- `SExp.add(item, i)`.  The sub-node index and atom multiset updates run
first; the final `self.sexp.insert(i)` calls `list.insert` with a single
argument, which raises `TypeError: insert expected 2 arguments, got 1` on
every call, leaving the mutated indexes behind and never touching the
ordered child sequence.  (Note also `i = i or len(self.sexp)`: an explicit
index 0 is falsy and falls back to the length.) -/
def SExpFull.add (self : SExpFull) (item : SVal) (iOpt : Option Nat) :
    SExpFull × PyExn :=
  let i := match iOpt with
    | none => self.sexp.length
    | some 0 => self.sexp.length
    | some j => j
  let self :=
    match item with
    | .node _ =>
      let key := item.typeAtom
      let subs := (subsGet self.subs key).getD []
      let subs :=
        match lastNoIdx self.sexp i subs with
        | some j => subs.take (j + 1) ++ item :: subs.drop (j + 1)
        | none => item :: subs
      { self with subs := subsStore self.subs key subs }
    | .atom a => { self with atoms := atomsBump self.atoms a }
    | _ => self
  (self, PyExn.typeError)

/-! ## `netlister.py` : net/bus naming and net formatting

A resolved `NetBus` (one with `_mergedinto is None`, after union-find
resolution) is modeled by its `_names` set — a list without duplicates of
`(category, depth, sortname, original_name)` tuples — plus its `_ncs` set
of no-connect instance keys.  Names are either plain strings (labels,
power-pin names) or the `(refdes, pinName, pinNumber)` tuples recorded for
symbol pins. -/

def CAT_NETTIE : Nat := 0
def CAT_POWER : Nat := 1
def CAT_LABEL : Nat := 2
def CAT_SYMPIN : Nat := 3
def CAT_SYMPIN_PWR : Nat := 4
def CAT_SHEETPIN : Nat := 5
def CAT_NC : Nat := 6

inductive NetName where
  | str (s : String)
  | pins (l : List String)
deriving Repr, DecidableEq

def pyUpper (s : String) : String := String.mk (s.data.map Char.toUpper)

def pyStartsWith (s pre : String) : Bool := pre.data.isPrefixOf s.data

def NetName.upper : NetName → NetName
  | .str s => .str (pyUpper s)
  | .pins l => .pins (l.map pyUpper)

/-- `name.count("/")`: substring occurrences for a string, element count
for a tuple. -/
def NetName.depth : NetName → Nat
  | .str s => (s.data.filter (· == '/')).length
  | .pins l => (l.filter (· == "/")).length

structure NEntry where
  cat : Nat
  depth : Nat
  sort : NetName
  orig : NetName
deriving Repr, DecidableEq

/-- `name[0].startswith("#")`; `none` is the IndexError on an empty
name. -/
def name0hash : NetName → Option Bool
  | .str s =>
    match s.data with
    | [] => none
    | c :: _ => some (c == '#')
  | .pins [] => none
  | .pins (r :: _) => some (pyStartsWith r "#")

/-- `NetBus.add_name(name, category)`: a symbol pin whose refdes starts
with `#` is recategorised as a power symbol pin; the stored tuple is
`(category, name.count("/"), upper(name), name)`, added to the `_names`
set. -/
def NetBus.add_name (names : List NEntry) (name : NetName) (category : Nat) :
    Option (List NEntry) :=
  match (if category == CAT_SYMPIN then name0hash name else some false) with
  | none => none
  | some h =>
    let category := if category == CAT_SYMPIN && h then CAT_SYMPIN_PWR
      else category
    let e : NEntry :=
      { cat := category, depth := name.depth, sort := name.upper
        orig := name }
    some (if names.contains e then names else names ++ [e])

/-- Python string comparison (code-point lexicographic). -/
def pyCmpChars : List Char → List Char → Ordering
  | [], [] => .eq
  | [], _ :: _ => .lt
  | _ :: _, [] => .gt
  | a :: as, b :: bs =>
    if a < b then .lt else if b < a then .gt else pyCmpChars as bs

def pyCmpStr (a b : String) : Ordering := pyCmpChars a.data b.data

/-- Python tuple-of-strings comparison (lexicographic, prefix smaller). -/
def pyCmpStrList : List String → List String → Ordering
  | [], [] => .eq
  | [], _ :: _ => .lt
  | _ :: _, [] => .gt
  | a :: as, b :: bs =>
    match pyCmpStr a b with
    | .eq => pyCmpStrList as bs
    | o => o

/-- Python comparison of two stored names: strings compare with strings,
tuples with tuples; comparing a string with a tuple raises TypeError
(`none`). -/
def cmpName : NetName → NetName → Option Ordering
  | .str a, .str b => some (pyCmpStr a b)
  | .pins a, .pins b => some (pyCmpStrList a b)
  | _, _ => none

/-- Python comparison of two `_names` tuples
`(category, depth, sortname, name)`. -/
def cmpEntry (a b : NEntry) : Option Ordering :=
  match compare a.cat b.cat with
  | .eq =>
    match compare a.depth b.depth with
    | .eq =>
      match cmpName a.sort b.sort with
      | some .eq => cmpName a.orig b.orig
      | r => r
    | o => some o
  | o => some o

/-- Comparison on the `(category, depth, uppercased-name)` prefix of the
stored tuples — the order the specification describes. -/
def tripleCmp (a b : NEntry) : Option Ordering :=
  match compare a.cat b.cat with
  | .eq =>
    match compare a.depth b.depth with
    | .eq => cmpName a.sort b.sort
    | o => some o
  | o => some o

/-- `min(self._names)`: fold keeping the current minimum (strict `<`
replaces; the set holds no duplicates, so the minimum is unique). -/
def pyminAux (cur : NEntry) : List NEntry → Option NEntry
  | [] => some cur
  | x :: xs =>
    match cmpEntry x cur with
    | none => none
    | some .lt => pyminAux x xs
    | some _ => pyminAux cur xs

inductive NameRes where
  | err
  | nil
  | strv (s : String)
  | tup (l : List String)
deriving Repr, DecidableEq

structure NetM where
  names : List NEntry
  ncs : List String
deriving Repr, DecidableEq

def joinSep (sep : String) : List String → String
  | [] => ""
  | [x] => x
  | x :: rest => x ++ sep ++ joinSep sep rest

/-- `list(name[-1])`: the tuple elements, or the characters of a plain
string. -/
def nameParts : NetName → List String
  | .pins l => l
  | .str s => s.data.map (fun c => String.mk [c])

/-- The value `NetBus.name` returns for a non-symbol-pin minimum:
the stored original name (a plain string, or — for a power symbol pin
minimum — the raw tuple, which the source returns as-is). -/
def nameOfOrig : NetName → NameRes
  | .str s => .strv s
  | .pins l => .tup l

/-- `NetBus.name()` on a resolved net/bus.  `err` models the exceptions
Python would raise (TypeError comparing a string name with a tuple name,
IndexError on an empty name tuple). -/
def NetBus.name (nb : NetM) : NameRes :=
  match nb.names with
  | [] => .nil
  | e :: es =>
    match pyminAux e es with
    | none => .err
    | some m =>
      if m.cat == CAT_SYMPIN then
        let pre :=
          if 1 < (nb.names.filter (fun x => x.cat == CAT_SYMPIN)).length
          then "Net" else "unconnected"
        let parts := nameParts m.orig
        match parts.getLast? with
        | none => .err
        | some last =>
          let parts := parts.dropLast ++ ["Pad" ++ last]
          let pinname := joinSep "-" (parts.filter (fun p => p ≠ "" && p ≠ "~"))
          .strv (pre ++ "-(" ++ pinname ++ ")")
      else nameOfOrig m.orig

/-- `Net.REMOVE_UNIT_RE.sub("", r)`: strip the maximal trailing run of
uppercase letters. -/
def removeUnit (r : String) : String :=
  String.mk ((r.data.reverse.dropWhile (fun c => 'A' ≤ c && c ≤ 'Z')).reverse)

def insertNoDup (x : List String) (acc : List (List String)) :
    List (List String) :=
  if acc.contains x then acc else acc ++ [x]

/-- `Net._get_pins`: the set of `(unit-stripped refdes,) + rest` tuples of
the `CAT_SYMPIN` entries.  `none` models the exceptions on malformed
entries (an empty tuple, or a plain-string symbol-pin name). -/
def getPinsAux : List NEntry → Option (List (List String))
  | [] => some []
  | e :: rest =>
    if e.cat == CAT_SYMPIN then
      match e.orig with
      | .pins (r :: tl) =>
        match getPinsAux rest with
        | none => none
        | some acc => some (insertNoDup (removeUnit r :: tl) acc)
      | .pins [] => none
      | .str _ => none
    else getPinsAux rest

def Net.getPins (net : NetM) : Option (List (List String)) :=
  getPinsAux net.names

/-- The sort key `lambda n: (n[0], n[2], n[1])`; `none` is the IndexError
on a too-short tuple. -/
def pinKey : List String → Option (String × String × String)
  | r :: nm :: num :: _ => some (r, num, nm)
  | _ => none

def pinKeyLT (a b : String × String × String) : Bool :=
  match pyCmpStr a.1 b.1 with
  | .lt => true
  | .gt => false
  | .eq =>
    match pyCmpStr a.2.1 b.2.1 with
    | .lt => true
    | .gt => false
    | .eq => pyCmpStr a.2.2 b.2.2 == .lt

/-- Stable insertion step for the pin sort. -/
def insOnePin (x : List String × (String × String × String)) :
    List (List String × (String × String × String)) →
      List (List String × (String × String × String))
  | [] => [x]
  | y :: ys => if pinKeyLT x.2 y.2 then x :: y :: ys else y :: insOnePin x ys

/-- `sorted(pins, key=...)` (stable; the keys determine the pins for the
length-3 tuples the netlister builds, so the order is unique). -/
def sortPins (pins : List (List String)) : Option (List (List String)) :=
  match pins with
  | [] => some []
  | p :: rest =>
    match pinKey p, sortPins rest with
    | some k, some sorted =>
      some ((insOnePin (p, k) (sorted.filterMap
        (fun q => (pinKey q).map (q, ·)))).map Prod.fst)
    | _, _ => none

def FMT_SHORT : Nat := 0
def FMT_NAMES : Nat := 1
def FMT_TELESIS : Nat := 2

/-- The node list of the short/telesis formats:
`f"{r}.{num}" for r, _, num in pins if r[0] != "#"`.
`none` models the exceptions (unpacking a tuple whose length is not 3,
`r[0]` on an empty refdes). -/
def nodesShort : List (List String) → Option (List String)
  | [] => some []
  | p :: rest =>
    match p with
    | [r, _, num] =>
      match r.data with
      | [] => none
      | c :: _ =>
        match nodesShort rest with
        | none => none
        | some acc =>
          some (if c == '#' then acc else (r ++ "." ++ num) :: acc)
    | _ => none

/-- The node list of the verbose format: the pin name is appended in
parens unless it is empty, `~`, or equal to the pin number. -/
def nodesNames : List (List String) → Option (List String)
  | [] => some []
  | p :: rest =>
    match p with
    | [r, nm, num] =>
      match r.data with
      | [] => none
      | c :: _ =>
        match nodesNames rest with
        | none => none
        | some acc =>
          let disp := if nm = "" then "~" else nm
          let txt := r ++ "." ++ num ++
            (if disp ≠ num ∧ disp ≠ "~" then "(" ++ nm ++ ")" else "")
          some (if c == '#' then acc else txt :: acc)
    | _ => none

/-- The single-quote character (telesis quoting). -/
def sq : String := String.mk [Char.ofNat 39]

/-- `str()` of a Python tuple of strings (the f-strings of `Net.fmt`
format a tuple-valued name this way). -/
def pyReprTuple (l : List String) : String :=
  match l with
  | [] => "()"
  | [x] => "(" ++ sq ++ x ++ sq ++ ",)"
  | _ => "(" ++ joinSep ", " (l.map (fun x => sq ++ x ++ sq)) ++ ")"

/-- `Net.TEL_QUOTE_RE.search(name)`: any character outside
`[a-zA-Z0-9_/]`. -/
def telQuote (name : String) : Bool :=
  name.data.any fun c =>
    !(('a' ≤ c && c ≤ 'z') || ('A' ≤ c && c ≤ 'Z') ||
      ('0' ≤ c && c ≤ '9') || c == '_' || c == '/')

/-- `Net.fmt(fmt)`.  Empty output for a nameless net, a net with no symbol
pins, or a single-pin net carrying a no-connect marker; otherwise one of
the three formats (an unknown format code yields `""`).  `none` models the
exceptions of malformed data. -/
def Net.fmt (net : NetM) (fmt : Nat) : Option String :=
  match NetBus.name net with
  | .err => none
  | .nil => some ""
  | nres =>
    let nameDisp : Option String :=
      match nres with
      | .strv s => some s
      | .tup l => some (pyReprTuple l)
      | _ => none
    match nameDisp with
    | none => none
    | some nd =>
      match Net.getPins net with
      | none => none
      | some pins0 =>
        match sortPins pins0 with
        | none => none
        | some pins =>
          if pins.isEmpty then some ""
          else if pins.length == 1 && !net.ncs.isEmpty then some ""
          else if fmt == FMT_SHORT then
            (nodesShort pins).map fun nodes => nd ++ ": " ++ joinSep " " nodes
          else if fmt == FMT_NAMES then
            (nodesNames pins).map fun nodes => nd ++ ": " ++ joinSep " " nodes
          else if fmt == FMT_TELESIS then
            match nres with
            | .strv s =>
              let s := if telQuote s then sq ++ s ++ sq else s
              (nodesShort pins).map fun nodes =>
                pyUpper s ++ ";,\n\t" ++ joinSep ",\n\t" nodes
            | _ => none
          else some ""

/-- `str.lstrip("'")` (the sort key of `generate_netlist`). -/
def lstripQuote (s : String) : String :=
  String.mk (s.data.dropWhile (· == Char.ofNat 39))

def insOneLine (x : String) : List String → List String
  | [] => [x]
  | y :: ys =>
    if pyCmpStr (lstripQuote x) (lstripQuote y) == .lt then x :: y :: ys
    else y :: insOneLine x ys

/-- The format-and-collect loop of `generate_netlist`: `if formatted:
netlist.append(formatted)` (a Python empty string is falsy). -/
def netlistLines (fmt : Nat) : List NetM → Option (List String)
  | [] => some []
  | n :: rest =>
    match Net.fmt n fmt, netlistLines fmt rest with
    | some s, some acc => some (if s == "" then acc else s :: acc)
    | _, _ => none

/-- `Netlister.generate_netlist(fmt)` over the resolved `Net`s: format
every net, keep the non-empty strings, sort them by the quote-stripped
key, and join (with the `$NETS` prefix for telesis). -/
def generate_netlist (nets : List NetM) (fmt : Nat) : Option String :=
  match netlistLines fmt nets with
  | none => none
  | some ls =>
    some ((if fmt == FMT_TELESIS then "$NETS\n" else "") ++
      joinNL (ls.foldl (fun acc x => insOneLine x acc) []))

/-- Well-formedness of a stored name entry, exactly as `add_name` builds
them at the three call sites of the netlister: the sort name is the
uppercased original, the depth is the slash count, symbol-pin categories
store `(refdes, pinName, pinNumber)` tuples with a non-empty refdes, and
all other categories store plain strings. -/
def NEntryWFb (e : NEntry) : Bool :=
  e.sort == e.orig.upper && e.depth == e.orig.depth &&
    (if e.cat == CAT_SYMPIN || e.cat == CAT_SYMPIN_PWR then
      match e.orig with
      | .pins [r, _, _] => r != ""
      | _ => false
    else
      match e.orig with
      | .str _ => true
      | _ => false)

/-! ## `diff.py` : the list matcher (`_minmatrix` / `matchlists`)

The matcher is generic over the comparables; it only calls
`distance(other, fast, data)`, embedded as a function
`dist : α → α → Bool → Option Nat` (`none` = disparate).  The distance
matrix holds `Option Nat` cells (`none` = blanked, skipped, or disparate —
indistinguishable in the source as well). -/

/-- One comparison step of `_minmatrix`'s scan: keep the current best
unless the new cell is strictly smaller (ties keep the earlier cell). -/
def mmStep (best : Option (Nat × Nat × Nat)) (c : Nat × Nat × Nat) :
    Option (Nat × Nat × Nat) :=
  match best with
  | none => some c
  | some (bi, bj, bv) => if c.2.2 < bv then some c else some (bi, bj, bv)

def minCellRow (i : Nat) : Nat → List (Option Nat) →
    Option (Nat × Nat × Nat) → Option (Nat × Nat × Nat)
  | _, [], best => best
  | j0, none :: rest, best => minCellRow i (j0 + 1) rest best
  | j0, some v :: rest, best =>
    minCellRow i (j0 + 1) rest (mmStep best (i, j0, v))

def minRows : Nat → List (Option (List (Option Nat))) →
    Option (Nat × Nat × Nat) → Option (Nat × Nat × Nat)
  | _, [], best => best
  | i0, none :: rest, best => minRows (i0 + 1) rest best
  | i0, some row :: rest, best =>
    minRows (i0 + 1) rest (minCellRow i0 0 row best)

/-- `diff._minmatrix`: the x,y of the smallest non-None cell, scanning in
row-major order and keeping the first strict minimum. -/
def minmatrix (mx : List (Option (List (Option Nat)))) :
    Option (Nat × Nat) :=
  (minRows 0 mx none).map fun t => (t.1, t.2.1)

/-- A live (non-blanked) cell of the matrix. -/
def liveCell (mx : List (Option (List (Option Nat)))) (i j v : Nat) :
    Prop :=
  ∃ row, mx.get? i = some (some row) ∧ row.get? j = some (some v)

/-- The live cells of one row in scan order (specification helper). -/
def rowCells (i : Nat) : Nat → List (Option Nat) →
    List (Nat × Nat × Nat)
  | _, [] => []
  | j0, none :: rest => rowCells i (j0 + 1) rest
  | j0, some v :: rest => (i, j0, v) :: rowCells i (j0 + 1) rest

/-- The live cells of the matrix in row-major scan order (specification
helper). -/
def allCells : Nat → List (Option (List (Option Nat))) →
    List (Nat × Nat × Nat)
  | _, [] => []
  | i0, none :: rest => allCells (i0 + 1) rest
  | i0, some row :: rest => rowCells i0 0 row ++ allCells (i0 + 1) rest

/-- Row-major scan order on cells: earlier row, or same row and earlier
column. -/
def cellLex (a b : Nat × Nat × Nat) : Prop :=
  a.1 < b.1 ∨ (a.1 = b.1 ∧ a.2.1 < b.2.1)

/-- The matcher's mutable state: `base_matches`, `other_matched` (a set of
column indices) and the distance matrix. -/
structure MLState where
  bm : List (Option Nat)
  om : List Nat
  mx : List (Option (List (Option Nat)))
deriving Repr

/-- Blank column `j` of every remaining row (`matrix[k][j] = None`). -/
def blankColAll (j : Nat) (mx : List (Option (List (Option Nat)))) :
    List (Option (List (Option Nat))) :=
  mx.map fun r => r.map fun row => row.set j none

/-- The inner loop of the fast pass over one row: skip already-matched
columns, store the fast distance, and break out at the first exact (0)
match (the remaining cells stay None). -/
def fillRowFast (dist : α → α → Bool → Option Nat) (bi : α) :
    List α → List Nat → Nat → List (Option Nat) × Option Nat
  | [], _, _ => ([], none)
  | o :: rest, om, j =>
    if om.contains j then
      let (row, mj) := fillRowFast dist bi rest om (j + 1)
      (none :: row, mj)
    else
      let d := dist bi o true
      if d = some 0 then (d :: List.replicate rest.length none, some j)
      else
        let (row, mj) := fillRowFast dist bi rest om (j + 1)
        (d :: row, mj)

/-- Pass 1 of `matchlists`: build the fast-distance matrix row by row,
recording exact matches, blanking their row and column. -/
def phase1 (dist : α → α → Bool → Option Nat) (other : List α) :
    List α → MLState → MLState
  | [], st => st
  | b :: rest, st =>
    let (row, mj) := fillRowFast dist b other st.om 0
    match mj with
    | some j =>
      phase1 dist other rest
        { bm := st.bm ++ [some j], om := st.om ++ [j]
          mx := blankColAll j st.mx ++ [none] }
    | none =>
      phase1 dist other rest
        { bm := st.bm ++ [none], om := st.om, mx := st.mx ++ [some row] }

/-- The inner loop of the slow pass over one surviving row: recompute the
still-live cells with the slow distance and break out at the first exact
match. -/
def slowRow (dist : α → α → Bool → Option Nat) (bi : α) :
    List α → List (Option Nat) → Nat → List (Option Nat) × Option Nat
  | o :: orest, c :: crest, j =>
    let c2 := if c.isSome then dist bi o false else c
    if c2 = some 0 then (c2 :: crest, some j)
    else
      let (r, mj) := slowRow dist bi orest crest (j + 1)
      (c2 :: r, mj)
  | _, _, _ => ([], none)

/-- Pass 2 of `matchlists`: recompute surviving cells with the slow
distance; an exact match blanks its row and column (in all rows). -/
def phase2 (dist : α → α → Bool → Option Nat) (other : List α) :
    List α → List (Option (List (Option Nat))) →
      List (Option (List (Option Nat))) → List (Option Nat) → Nat →
      List Nat → MLState
  | [], _, pre, bm, _, om => { bm := bm, om := om, mx := pre }
  | _ :: _, [], pre, bm, _, om => { bm := bm, om := om, mx := pre }
  | b :: brest, r :: mrest, pre, bm, i, om =>
    match r with
    | none => phase2 dist other brest mrest (pre ++ [none]) bm (i + 1) om
    | some row =>
      let (row2, mj) := slowRow dist b other row 0
      match mj with
      | some j =>
        phase2 dist other brest (blankColAll j mrest)
          (blankColAll j pre ++ [none]) (bm.set i (some j)) (i + 1)
          (om ++ [j])
      | none =>
        phase2 dist other brest mrest (pre ++ [some row2]) bm (i + 1) om

/-- Pass 3 of `matchlists`: repeatedly take the smallest live cell and
blank its row and column.  Each step blanks one live row, so
`mx.length + 1` fuel always completes the loop. -/
def phase3 : Nat → List (Option (List (Option Nat))) →
    List (Option Nat) → List Nat → List (Option Nat) × List Nat
  | 0, _, bm, om => (bm, om)
  | fuel + 1, mx, bm, om =>
    match minmatrix mx with
    | none => (bm, om)
    | some (i, j) =>
      phase3 fuel (blankColAll j (mx.set i none)) (bm.set i (some j))
        (om ++ [j])

/-- `diff.matchlists(base, other)`: the list aligned with `base` (each
entry the matched `other` element or `None`), with the unmatched `other`
elements appended as additions in ascending index order (CPython iterates
a set of small ints in ascending order, which the source relies on). -/
def matchlists (dist : α → α → Bool → Option Nat)
    (base other : List α) : List (Option α) :=
  let st1 := phase1 dist other base { bm := [], om := [], mx := [] }
  let st2 := phase2 dist other base st1.mx [] st1.bm 0 st1.om
  let (bm3, om3) := phase3 (st2.mx.length + 1) st2.mx st2.bm st2.om
  bm3.map (fun o => o.bind other.get?) ++
    (((List.range other.length).filter fun j => !(om3.contains j)).filterMap
      fun j => other.get? j).map some

/-- Well-formedness of the matcher state: the matched-column set is exactly
the set of columns recorded in `base_matches`, matched columns index into
`other`, a live (non-None) matrix row marks a still-unmatched base
position, and every live row has one cell per `other` element. -/
def mlWF (n : Nat) (mx : List (Option (List (Option Nat))))
    (bm : List (Option Nat)) (om : List Nat) : Prop :=
  (∀ j, j ∈ om ↔ some j ∈ bm) ∧
  (∀ j, j ∈ om → j < n) ∧
  (∀ k row, mx.get? k = some (some row) → bm.get? k = some none) ∧
  (∀ k row, mx.get? k = some (some row) → row.length = n)

/-! ## Three-way merge (`diff.py`)

The `Comparable`/`Diff`/`threeway` machinery is embedded at its default
instantiation: a comparable object of some class with a `KEYWORD` and a
`PROPS` tuple, whose `__dict__` holds one (possibly `None`) value per
property.  Every diff produced by `Comparable.diff` is then a leaf diff
(`_data` a tuple, never a list of child diffs) whose target is the single
shared record, so `_flatten` never recurses and the flat diff lists are
the diff lists themselves.  Python compares `Diff` objects by identity;
the embedding gives each diff a creation-index `tag` and models identity
by tag equality (tags are unique within each diff list).  `deepcopy` is
the identity on immutable Lean values, which is exactly its effect on the
Python object graph (a fresh graph whose mutations do not leak back). -/

/-- A default-`Comparable` instance: `KEYWORD` plus the `__dict__` values
of its `PROPS`, in `PROPS` order. -/
structure Rec (α : Type _) where
  keyword : String
  props : List (String × Option α)
deriving Repr

/-- `other.__dict__[k]`: a missing key raises `KeyError`. -/
def dictGet (props : List (String × Option α)) (k : String) :
    Except String (Option α) :=
  match props.lookup k with
  | some v => Except.ok v
  | none => Except.error "KeyError"

/-- `self.__dict__[key] = v` (dict keys are unique). -/
def setProp (props : List (String × Option α)) (k : String) (v : Option α) :
    List (String × Option α) :=
  props.map fun p => if p.1 = k then (p.1, v) else p

/-- The generator inside `Comparable.__eq__`:
`all(self.__dict__[v] == other.__dict__[v] for v in self.PROPS)`. -/
def eqProps [DecidableEq α] (other : Rec α) :
    List (String × Option α) → Except String Bool
  | [] => Except.ok true
  | (k, v) :: rest => do
    let w ← dictGet other.props k
    if v = w then eqProps other rest else Except.ok false

/-- `Comparable.__eq__` for a class with `PROPS`: same `KEYWORD` and all
properties equal (`and` short-circuits on a keyword mismatch). -/
def Comparable.eqb [DecidableEq α] (self other : Rec α) :
    Except String Bool :=
  if self.keyword = other.keyword then eqProps other self.props
  else Except.ok false

/-- A leaf `Diff`: positional creation tag (object identity), the `_key`,
the `_data` tuple `(old, new)` and the `_unimportant`/`_redundant`
flags. -/
structure DiffL (α : Type _) where
  tag : Nat
  key : String
  old : Option α
  new : Option α
  unimportant : Bool
  redundant : Bool
deriving Repr

/-- The property loop of `Comparable.diff`: one leaf diff per property
whose values differ, in `PROPS` order, tagged by creation index. -/
def diffProps [DecidableEq α] (other : Rec α) :
    List (String × Option α) → Nat →
    Except String (List (DiffL α) × Nat)
  | [], t => Except.ok ([], t)
  | (k, v) :: rest, t => do
    let w ← dictGet other.props k
    if v = w then diffProps other rest t
    else do
      let (ds, t2) ← diffProps other rest (t + 1)
      Except.ok (⟨t, k, v, w, false, false⟩ :: ds, t2)

/-- `Comparable.diff` for a class with `PROPS`: `None` (here `none`) when
the keywords are disparate, otherwise the list of property diffs. -/
def Comparable.diff [DecidableEq α] (self other : Rec α) :
    Except String (Option (List (DiffL α))) :=
  if self.keyword ≠ other.keyword then Except.ok none
  else do
    let (ds, _) ← diffProps other self.props 0
    Except.ok (some ds)

/-- The result of `Comparable.apply`: a conflict key, `True` (redundant)
or `None` (applied). -/
inductive ApplyRet where
  | conflictK : String → ApplyRet
  | redundantA : ApplyRet
  | okA : ApplyRet
deriving Repr

/-- `Comparable.apply` for a class with `PROPS`: conflict when the current
value is in neither slot of the data tuple, redundant when it already
equals the new value, otherwise assign the new value. -/
def Comparable.apply [DecidableEq α] (r : Rec α) (key : String)
    (data : Option α × Option α) : Except String (Rec α × ApplyRet) :=
  if (r.props.map Prod.fst).contains key then
    match r.props.lookup key with
    | none => Except.error "KeyError"
    | some cur =>
      if cur ≠ data.1 ∧ cur ≠ data.2 then
        Except.ok (r, ApplyRet.conflictK key)
      else if cur = data.2 then Except.ok (r, ApplyRet.redundantA)
      else
        Except.ok ({ r with props := setProp r.props key data.2 },
          ApplyRet.okA)
  else Except.error "unhandled diff"

/-- `Diff.is_unimportant` for a leaf diff (the `_data`-is-a-list branch
never triggers). -/
def DiffL.is_unimportant (d : DiffL α) (applymode : Nat) : Bool :=
  if applymode.land 4 != 0 then false else d.unimportant

/-- `Diff.should_be_applied`. -/
def DiffL.should_be_applied (d : DiffL α) (mode : Nat) : Bool :=
  if d.is_unimportant 0 then mode.land 2 != 0 else mode.land 1 != 0

/-- `Diff._flatten` for a leaf diff: `[self] * should_be_applied`. -/
def DiffL.flattenD (d : DiffL α) (applymode : Nat) : List (DiffL α) :=
  if d.should_be_applied applymode then [d] else []

/-- `Diff.is_redundant` for a leaf diff. -/
def DiffL.is_redundant (d : DiffL α) : Bool := d.redundant

/-- `Diff.redundant_with` for leaf diffs on the single shared target (the
`_target is not other._target` test always passes). -/
def DiffL.redundant_with [DecidableEq α] (d o : DiffL α) : Bool :=
  d.key == o.key &&
    (d.old.isNone == o.old.isNone) && (d.new.isNone == o.new.isNone) &&
    (decide (d.old = o.old) && decide (d.new = o.new))

/-- `Diff.apply` for a leaf diff: returns the (possibly) mutated record,
the diff with its updated `_redundant` flag, and whether `[self]` was
returned as a conflict. -/
def DiffL.applyD [DecidableEq α] (d : DiffL α) (mode : Nat) (r : Rec α) :
    Except String (Rec α × DiffL α × Bool) :=
  if d.should_be_applied mode then do
    let (r2, ret) ← Comparable.apply r d.key (d.old, d.new)
    match ret with
    | ApplyRet.okA => Except.ok (r2, d, false)
    | ApplyRet.redundantA => Except.ok (r2, { d with redundant := true },
        false)
    | ApplyRet.conflictK _ =>
      if d.is_unimportant mode then
        Except.ok (r2, { d with redundant := true }, false)
      else Except.ok (r2, d, true)
  else Except.ok (r, d, false)

/-- `_applylist`: apply each diff in order and collect the conflicts (the
post-apply diff objects, in application order). -/
def applylist [DecidableEq α] (mode : Nat) :
    List (DiffL α) → Rec α →
    Except String (Rec α × List (DiffL α) × List (DiffL α))
  | [], r => Except.ok (r, [], [])
  | d :: rest, r => do
    let (r1, d1, cf) ← d.applyD mode r
    let (r2, rest1, cfs) ← applylist mode rest r1
    Except.ok (r2, d1 :: rest1, if cf then d1 :: cfs else cfs)

/-- `applylists` at `threeway`'s call site: the first argument is a
generator, so the second (unimportant) pass over it sees it already
exhausted and applies nothing from it. -/
def applylists3 [DecidableEq α]
    (safeFlat doursSafe dtheirsSafe : List (DiffL α)) (r : Rec α) :
    Except String (Rec α × List (DiffL α)) := do
  let (r1, _, cA) ← applylist 1 safeFlat r
  let (r2, do1, cB) ← applylist 1 doursSafe r1
  let (r3, dt1, cC) ← applylist 1 dtheirsSafe r2
  let (r4, _, cD) ← applylist 2 do1 r3
  let _ ← (if cD.isEmpty then Except.ok ()
    else Except.error "unimportant diffs should not conflict")
  let (r5, _, cE) ← applylist 2 dt1 r4
  let _ ← (if cE.isEmpty then Except.ok ()
    else Except.error "unimportant diffs should not conflict")
  Except.ok (r5, cA ++ cB ++ cC)

/-- The `state` dict of `threeway` (the flat lists coincide with the diff
lists for leaf diffs). -/
structure TWState (α : Type _) where
  base : Rec α
  dours : List (DiffL α)
  dtheirs : List (DiffL α)

/-- Insert into a CPython small-int set (iteration order ascending). -/
def insSorted (x : Nat) : List Nat → List Nat
  | [] => [x]
  | y :: rest =>
    if x < y then x :: y :: rest
    else if x = y then y :: rest
    else y :: insSorted x rest

/-- `set.update`. -/
def setUpdate (s : List Nat) (xs : List Nat) : List Nat :=
  xs.foldl (fun acc x => insSorted x acc) s

/-- `set.isdisjoint`. -/
def disjointL (a b : List Nat) : Bool :=
  a.all fun x => !(b.contains x)

/-- The `for prev_ours_indices, prev_theirs_indices in pairs` scan of
`_determine_association`: merge the current indices into the first pair
with a non-disjoint ours set, or fail (the `for`-`else` raise). -/
def prevScan (oursX : List Nat) (tIdx : Nat) :
    Nat → Nat → List (List Nat × List Nat) →
    Option (List (List Nat × List Nat))
  | 0, _, _ => none
  | fuel + 1, m, pairs =>
    match pairs.get? m with
    | none => none
    | some (po, pt) =>
      if disjointL po oursX then prevScan oursX tIdx fuel (m + 1) pairs
      else some (pairs.set m (setUpdate po oursX, insSorted tIdx pt))

/-- The main loop of `_determine_association`, iterating the pairs list in
place by index (`n`); one fuel unit per pair. -/
def detLoop [DecidableEq α] (st : TWState α) (assocRed : Bool) :
    Nat → Nat → List (List Nat × List Nat) →
    Except String (List (List Nat × List Nat))
  | 0, _, pairs => Except.ok pairs
  | fuel + 1, n, pairs =>
    match pairs.get? n with
    | none => Except.ok pairs
    | some (oursI, theirsI) => do
      let (tIdx, theirsRest) ← match theirsI with
        | [] => Except.error "KeyError: pop from an empty set"
        | t :: ts => Except.ok (t, ts)
      let dtT ← match st.dtheirs.get? tIdx with
        | some d => Except.ok d
        | none => Except.error "IndexError"
      let ours1 := if assocRed then
          setUpdate oursI
            ((st.dours.enum.filter fun p => dtT.redundant_with p.2).map
              (·.1))
        else oursI
      if ours1.isEmpty then do
        let (rA, _, cfT) ← dtT.applyD 3 st.base
        let _ ← (if cfT then
            Except.error "unexpected: failed to apply theirs diff"
          else Except.ok ())
        let (_, doursU, conflicts) ← applylist 7 st.dours rA
        if assocRed then
          let ours2 := setUpdate ours1
            ((doursU.enum.filter fun p => p.2.is_redundant).map (·.1))
          if ours2.isEmpty && conflicts.isEmpty then
            detLoop st assocRed fuel (n + 1)
              (pairs.set n (oursI, insSorted tIdx theirsRest))
          else do
            let pairsW := pairs.set n (ours2, theirsRest)
            match prevScan ours2 tIdx (pairsW.length + 1) 0 pairsW with
            | none =>
              Except.error "unexpected: failed to find ours_indices in the list"
            | some pairs2 => detLoop st assocRed fuel (n + 1) pairs2
        else
          if conflicts.isEmpty then
            Except.error "unexpected: failed to find ours conflicts for diff"
          else do
            let ours2 := setUpdate ours1 (conflicts.map fun d =>
              st.dours.findIdx fun x => x.tag == d.tag)
            let pairsW := pairs.set n (ours2, theirsRest)
            match prevScan ours2 tIdx (pairsW.length + 1) 0 pairsW with
            | none =>
              Except.error "unexpected: failed to find ours_indices in the list"
            | some pairs2 => detLoop st assocRed fuel (n + 1) pairs2
      else do
        let pairsW := pairs.set n (ours1, theirsRest)
        match prevScan ours1 tIdx (pairsW.length + 1) 0 pairsW with
        | none =>
          Except.error "unexpected: failed to find ours_indices in the list"
        | some pairs2 => detLoop st assocRed fuel (n + 1) pairs2

/-- `[lst[d] for d in indices]` with `IndexError` on out-of-range. -/
def idxSelect (l : List (DiffL α)) :
    List Nat → Except String (List (DiffL α))
  | [] => Except.ok []
  | i :: rest => do
    let d ← match l.get? i with
      | some d => Except.ok d
      | none => Except.error "IndexError"
    let ds ← idxSelect l rest
    Except.ok (d :: ds)

/-- The final comprehension of `_determine_association`: convert index
pairs back to diff references, dropping pairs with an empty theirs set. -/
def pairsToDiffs (dours dtheirs : List (DiffL α)) :
    List (List Nat × List Nat) →
    Except String (List (List (DiffL α) × List (DiffL α)))
  | [] => Except.ok []
  | (po, pt) :: rest =>
    if pt.isEmpty then pairsToDiffs dours dtheirs rest
    else do
      let os ← idxSelect dours po
      let ts ← idxSelect dtheirs pt
      let rs ← pairsToDiffs dours dtheirs rest
      Except.ok ((os, ts) :: rs)

/-- `_determine_association`. -/
def detAssoc [DecidableEq α] (st : TWState α)
    (pairs : List (List Nat × List Nat)) (assocRed : Bool) :
    Except String (List (List (DiffL α) × List (DiffL α))) := do
  let pairs1 ← detLoop st assocRed pairs.length 0 pairs
  pairsToDiffs st.dours st.dtheirs pairs1

/-- Python `p not in safe_pairs`: tuple equality compares the diff lists
element-wise by identity. -/
def pairEqTags (p q : List (DiffL α) × List (DiffL α)) : Bool :=
  p.1.map (fun d => d.tag) == q.1.map (fun d => d.tag) &&
    p.2.map (fun d => d.tag) == q.2.map (fun d => d.tag)

/-- `threeway(base, ours, theirs)` with `return_safe=None`: the returned
conflict pairs together with the final, mutated base record. -/
def threeway [DecidableEq α] (base ours theirs : Rec α) :
    Except String (List (List (DiffL α) × List (DiffL α)) × Rec α) := do
  let doursO ← Comparable.diff base ours
  let dtheirsO ← Comparable.diff base theirs
  let dours ← match doursO with
    | some l => Except.ok l
    | none => Except.error "TypeError: NoneType is not iterable"
  let dtheirs ← match dtheirsO with
    | some l => Except.ok l
    | none => Except.error "TypeError: NoneType is not iterable"
  let doursFlat := dours.flatMap fun d => d.flattenD 3
  let dtheirsFlat := dtheirs.flatMap fun d => d.flattenD 3
  let (r1, dours1, c1) ← applylist 1 dours base
  let _ ← (if c1.isEmpty then Except.ok ()
    else Except.error "unexpected: failed to apply ours diff")
  let (r2, dtheirs1, c2) ← applylist 1 dtheirs r1
  let (r3, _, c3) ← applylist 2 dours1 r2
  let _ ← (if c3.isEmpty then Except.ok ()
    else Except.error "unexpected: unimportant diffs should not conflict")
  let (_, _, c4) ← applylist 6 dtheirs1 r3
  let conflicts := c2 ++ c4
  let pairs0 := conflicts.map fun d =>
    (([] : List Nat), [dtheirsFlat.findIdx fun x => x.tag == d.tag])
  let pairsF ← detAssoc ⟨base, doursFlat, dtheirsFlat⟩ pairs0 false
  let doursSafe := doursFlat.filter fun d =>
    pairsF.all fun p => p.1.all fun x => x.tag != d.tag
  let dtheirsSafe := dtheirsFlat.filter fun d =>
    pairsF.all fun p => p.2.all fun x => x.tag != d.tag
  let safePairs := pairsF.filter fun p =>
    (p.1.all fun d => d.is_unimportant 0) ||
      (p.2.all fun d => d.is_unimportant 0)
  let pairsR := pairsF.filter fun p =>
    !(safePairs.any fun q => pairEqTags p q)
  let safeFlat := safePairs.flatMap fun p =>
    (p.1.flatMap fun d => d.flattenD 3) ++
      (p.2.flatMap fun d => d.flattenD 3)
  let (r5, cS) ← applylists3 safeFlat doursSafe dtheirsSafe base
  let _ ← (if cS.isEmpty then Except.ok ()
    else Except.error "unexpected: failed to apply safe diffs")
  Except.ok (pairsR, r5)

/-- Specification helper: the record after assigning every diff's new
value in order. -/
def applyAll (r : Rec α) (dl : List (DiffL α)) : Rec α :=
  dl.foldl (fun acc d => { acc with props := setProp acc.props d.key d.new })
    r

/-! ## Variable expansion (`kicad_common.Variables`)

`Variables._contexts` is a dict from context UUID-path to a dict of
variable values (with `define` also storing an upper-cased alias);
both dicts are embedded as association lists.  `expand`/`resolve` are
mutually recursive through `RE_VAR.sub`; the embedding gives every
function an explicit fuel argument that each call decrements, so a large
enough fuel reproduces the Python run exactly and fuel exhaustion is a
distinguished error.  Python's mutable history set is threaded
explicitly: `hist or set()` makes a fresh set per match when the incoming
set is empty or None, and shares (and mutates) the set otherwise. -/

/-- The `_contexts` table. -/
abbrev VTable := List (String × List (String × String))

/-- Errors: fuel exhaustion (embedding-only), the `ValueError` from
`min()` over an empty sequence in `_resolve_context`, and the `TypeError`
from `re.sub` receiving None (unreachable for match objects). -/
inductive VErr where
  | fuelOut : VErr
  | valueError : VErr
  | typeError : VErr
deriving Repr, DecidableEq

/-- The opening brace character. -/
def lbrace : Char := Char.ofNat 123

/-- The closing brace character. -/
def rbrace : Char := Char.ofNat 125

/-- `vardict.get(variable, vardict.get(variable.upper()))`. -/
def vardictGet (vd : List (String × String)) (v : String) : Option String :=
  match vd.lookup v with
  | some x => some x
  | none => vd.lookup (pyUpper v)

/-- `context.rpartition("/")[0]`: everything before the last slash, or
`""` when there is none. -/
def rpartitionSlash (s : String) : String :=
  match s.data.reverse.dropWhile (fun c => c != '/') with
  | [] => ""
  | _ :: rest => String.mk rest.reverse

/-- `Variables._resolve_context` on a string (or empty) context: empty
stays empty, a 36-character string selects the smallest context UUID-path
ending with it (`min` raises `ValueError` when nothing matches), anything
else passes through. -/
def resolveContext (tbl : VTable) (context : String) :
    Except VErr String :=
  if context = "" then Except.ok ""
  else if context.length = 36 then
    match (tbl.map Prod.fst).filter (fun c => strEndsWith c context) with
    | [] => Except.error VErr.valueError
    | c :: cs =>
      Except.ok (cs.foldl
        (fun best x => if pyCmpStr x best = Ordering.lt then x else best) c)
  else Except.ok context

/-- The `variable` argument of `resolve`: a plain string or a `RE_VAR`
match object (`m[0]`, the optional scope `m[1]` without its colon, and
the name `m[2]`). -/
inductive VarIn where
  | strV : String → VarIn
  | matchV : String → Option String → String → VarIn

/-- Matching `RE_VAR` (`\$\x7b([^\x7d:]+:)?([^\x7d]+)\x7d`) right after
the `$\x7b` prefix: try the greedy scope group first, fall back to a
scopeless match; returns the scope, the name and the remaining input. -/
def matchVarAt (cs : List Char) :
    Option (Option String × String × List Char) :=
  let fallback :=
    let r2 := cs.takeWhile fun c => c != rbrace
    match cs.drop r2.length with
    | c :: after =>
      if r2.isEmpty then none
      else if c = rbrace then some (none, String.mk r2, after) else none
    | [] => none
  let r1 := cs.takeWhile fun c => c != rbrace && c != ':'
  match cs.drop r1.length with
  | ':' :: rest1 =>
    if r1.isEmpty then fallback
    else
      let r2 := rest1.takeWhile fun c => c != rbrace
      match rest1.drop r2.length with
      | c :: after =>
        if r2.isEmpty then fallback
        else if c = rbrace then
          some (some (String.mk r1), String.mk r2, after)
        else fallback
      | [] => fallback
  | _ => fallback

/-- The matched text `m[0]` rebuilt from its pieces. -/
def matchText (scope : Option String) (name : String) : String :=
  String.mk ('$' :: lbrace ::
    ((match scope with
      | some s => s.data ++ [':']
      | none => []) ++ name.data ++ [rbrace]))

/-- `int(s)` (underscore separators are not modelled). -/
def pyIntParse (s : String) : Option Int :=
  let t := ((s.data.dropWhile isPyWhitespace).reverse.dropWhile
    isPyWhitespace).reverse
  match t with
  | '-' :: ds =>
    if !ds.isEmpty && ds.all isDigit then some (pyIntOfDigits true ds)
    else none
  | '+' :: ds =>
    if !ds.isEmpty && ds.all isDigit then some (pyIntOfDigits false ds)
    else none
  | ds =>
    if !ds.isEmpty && ds.all isDigit then some (pyIntOfDigits false ds)
    else none

/-- `s.split(",")`. -/
def splitCommaAux : List Char → List Char → List String
  | [], acc => [String.mk acc.reverse]
  | c :: rest, acc =>
    if c = ',' then String.mk acc.reverse :: splitCommaAux rest []
    else splitCommaAux rest (c :: acc)

/-- Stable insertion by integer key (Python `sorted(..., key=int)`). -/
def insertLeInt (x : String × Int) :
    List (String × Int) → List (String × Int)
  | [] => [x]
  | y :: rest =>
    if x.2 ≤ y.2 then x :: y :: rest else y :: insertLeInt x rest

/-- The `INTERSHEET_REFS` post-processing:
`",".join(sorted(set(expanded.split(",")), key=int))` with `ValueError`
mapped to `""`.  The set is modelled as first-occurrence dedup; ties
between distinct strings with equal integer value follow CPython's
unspecified set order and are not modelled further. -/
def intersheetFmt (s : String) : String :=
  let parts := splitCommaAux s.data []
  let uniq := parts.foldl
    (fun acc x => if acc.contains x then acc else acc ++ [x]) []
  if uniq.all fun p => (pyIntParse p).isSome then
    let keyed := uniq.map fun p => (p, (pyIntParse p).getD 0)
    let sorted := keyed.foldl (fun acc x => insertLeInt x acc) [] |>.reverse
    String.intercalate "," (sorted.map Prod.fst)
  else ""

mutual

/-- `Variables.resolve` up to the context walk: unpack the match object
or split a `scope:name` string, resolve the context, then walk. -/
def resolveF (tbl : VTable) : Nat → String → VarIn →
    List (String × String) →
    Except VErr (Option String × List (String × String))
  | 0, _, _, _ => Except.error VErr.fuelOut
  | fuel + 1, context, varIn, hist =>
    match varIn with
    | VarIn.matchV orig scope name =>
      let context1 := match scope with
        | some s => s
        | none => context
      match resolveContext tbl context1 with
      | Except.error e => Except.error e
      | Except.ok context2 => loopF tbl fuel context2 name (some orig) hist
    | VarIn.strV s =>
      if s.data.contains ':' then
        let pre := s.data.takeWhile fun c => c != ':'
        let post := s.data.drop (pre.length + 1)
        match resolveContext tbl (String.mk pre) with
        | Except.error e => Except.error e
        | Except.ok context2 =>
          loopF tbl fuel context2 (String.mk post) none hist
      else
        match resolveContext tbl context with
        | Except.error e => Except.error e
        | Except.ok context2 => loopF tbl fuel context2 s none hist

/-- The `while True` walk of `resolve`: a revisited `(context, variable)`
pair drops to the parent context; a resolved value is recursively
expanded (sharing the history); an exhausted walk returns
`orig_variable`. -/
def loopF (tbl : VTable) : Nat → String → String → Option String →
    List (String × String) →
    Except VErr (Option String × List (String × String))
  | 0, _, _, _, _ => Except.error VErr.fuelOut
  | fuel + 1, context, vname, orig, hist =>
    if (context, vname) ∈ hist then
      if context = "" then Except.ok (orig, hist)
      else loopF tbl fuel (rpartitionSlash context) vname orig hist
    else
      let hist1 := (context, vname) :: hist
      let vardict := (tbl.lookup context).getD []
      match vardictGet vardict vname with
      | some res =>
        match expandF tbl fuel context res hist1 with
        | Except.error e => Except.error e
        | Except.ok (expanded, hist2) =>
          if vname = "INTERSHEET_REFS" then
            Except.ok (some (intersheetFmt expanded), hist2)
          else Except.ok (some expanded, hist2)
      | none =>
        if context = "" then Except.ok (orig, hist1)
        else loopF tbl fuel (rpartitionSlash context) vname orig hist1

/-- `Variables.expand`: `RE_VAR.sub(lambda m: resolve(context, m,
hist or set()), text)`. -/
def expandF (tbl : VTable) : Nat → String → String →
    List (String × String) →
    Except VErr (String × List (String × String))
  | 0, _, _, _ => Except.error VErr.fuelOut
  | fuel + 1, context, text, hist =>
    subF tbl fuel context text.data [] hist !hist.isEmpty

/-- The scan of `re.sub`: replace each non-overlapping `RE_VAR` match by
its resolution.  When `shared` is false (empty incoming history), every
match gets a fresh set and the caller's history is untouched. -/
def subF (tbl : VTable) : Nat → String → List Char → List Char →
    List (String × String) → Bool →
    Except VErr (String × List (String × String))
  | 0, _, _, _, _, _ => Except.error VErr.fuelOut
  | fuel + 1, context, cs, acc, hist, shared =>
    match cs with
    | [] => Except.ok (String.mk acc.reverse, hist)
    | c :: rest =>
      if c = '$' then
        match rest with
        | b :: rest2 =>
          if b = lbrace then
            match matchVarAt rest2 with
            | some (scope, name, after) =>
              let m0 := matchText scope name
              let histIn := if shared then hist else []
              match resolveF tbl fuel context
                  (VarIn.matchV m0 scope name) histIn with
              | Except.error e => Except.error e
              | Except.ok (res, histOut) =>
                match res with
                | some s =>
                  subF tbl fuel context after (s.data.reverse ++ acc)
                    (if shared then histOut else hist) shared
                | none => Except.error VErr.typeError
            | none => subF tbl fuel context rest ('$' :: acc) hist shared
          else subF tbl fuel context rest ('$' :: acc) hist shared
        | [] => subF tbl fuel context rest ('$' :: acc) hist shared
      else subF tbl fuel context rest (c :: acc) hist shared

end

/-- Top-level `Variables.expand(context, text)` (no history). -/
def varExpand (tbl : VTable) (fuel : Nat) (context text : String) :
    Except VErr (String × List (String × String)) :=
  expandF tbl fuel context text []

/-- Top-level `Variables.resolve(context, variable)` with a plain string
variable (no history). -/
def varResolve (tbl : VTable) (fuel : Nat) (context vname : String) :
    Except VErr (Option String × List (String × String)) :=
  resolveF tbl fuel context (VarIn.strV vname) []

/-- The ancestor chain of a context, fuelled by its length. -/
def ctxChainF : Nat → String → List String
  | 0, c => [c]
  | n + 1, c => if c = "" then [""] else c :: ctxChainF n (rpartitionSlash c)

/-- The ancestor chain of a context: itself, then each `rpartition`
parent, down to `""`. -/
def ctxChain (c : String) : List String := ctxChainF c.length c

/-- A global-context table defining `A = "$\x7bA\x7d"` (as `define`
stores it; the upper-case alias coincides). -/
def tblSelfA : VTable := [("", [("A", "$\x7bA\x7d")])]

/-- A global-context table with `A = "$\x7bB\x7d"` and
`B = "$\x7bA\x7d"`. -/
def tblAB : VTable := [("", [("A", "$\x7bB\x7d"), ("B", "$\x7bA\x7d")])]

/-- A reference with a 36-character scope. -/
def badScopeText : String :=
  "$\x7bxxxxxxxx-xxxx-xxxx-xxxx-xxxxxxxxxxxx:A\x7d"

/-- A concrete base record for the three-way witness. -/
def twBase : Rec String :=
  ⟨"kicad_sch",
    [("uuid", some "u1"), ("page", none), ("title", some "Old")]⟩

/-- A concrete ours record: one added and one modified property. -/
def twOurs : Rec String :=
  ⟨"kicad_sch",
    [("uuid", some "u1"), ("page", some "2"), ("title", some "New")]⟩

/-! ## Concrete inputs used by the scenario theorems -/

/-- The parse tree of the round-trip scenario input
`(a 1 2.50 "x\n")\n`: a node of type `a` with children integer `1`,
decimal `2.50` (written precision kept) and the string `x` + newline. -/
def scenarioTree : SVal :=
  .node [.atom "a", .int 1,
    .dec { sign := false, coeff := ['2', '5', '0'], exp := -2 }, .str "x\n"]

/-- A schematic page node with an unsupported (too small) version. -/
def schLow : SVal :=
  .node [.atom "kicad_sch", .node [.atom "version", .int 100]]

/-- A schematic page node with a version inside the supported range. -/
def schOk : SVal :=
  .node [.atom "kicad_sch", .node [.atom "version", .int 20230121]]

/-- The `_names` entry of symbol pin `R1` pad `1` (scenario S7). -/
def entR1 : NEntry :=
  { cat := CAT_SYMPIN, depth := 0, sort := .pins ["R1", "~", "1"]
    orig := .pins ["R1", "~", "1"] }

/-- The `_names` entry of symbol pin `U2` pad `3` (scenario S7). -/
def entU2 : NEntry :=
  { cat := CAT_SYMPIN, depth := 0, sort := .pins ["U2", "~", "3"]
    orig := .pins ["U2", "~", "3"] }

/-- The S7 scenario name set: two symbol pins wired together, no label. -/
def s7names : List NEntry := [entR1, entU2]

/-- A label-only `_names` entry (`/A/SIG` at depth 2). -/
def entLbl : NEntry :=
  { cat := CAT_LABEL, depth := 2, sort := .str "/A/SIG"
    orig := .str "/A/SIG" }

end KVD

/-! ********************************************************************
  ## Theorems
  Definitions end here; everything below settles the claims.
********************************************************************* -/

namespace KVD

/-- C2, counterexample.  For the input `(a 1 2.50 "x\n")\n` the printed
output of the parsed tree is NOT identical to the input: `parse` wraps the
file contents in a root list node, and `dump` of that root prints the `a`
node on its own tab-indented line inside an outer pair of parens (and even
`dump` of the inner `a` node alone would drop the trailing newline), so the
round trip is not byte-for-byte. -/
theorem parse_dump_not_byte_identical :
    (parse "(a 1 2.50 \"x\\n\")\n").map dumpRoot =
      .ok "(\n\t(a 1 2.50 \"x\\n\")\n)" ∧
    ("(\n\t(a 1 2.50 \"x\\n\")\n)" : String) ≠ "(a 1 2.50 \"x\\n\")\n" := by
  exact ⟨rfl, by decide⟩

/-- C2, amended.  For the input `(a 1 2.50 "x\n")\n`, the parse tree is the
root wrapper around a node of type `a` with children integer 1, decimal
2.50 (written precision preserved by the stored `Decimal`) and the string
`"x"` followed by a newline; printing the top-level node (rather than the
root wrapper) reproduces the input up to the trailing newline, which the
printer never emits. -/
theorem parse_print_scenario_amended :
    parse "(a 1 2.50 \"x\\n\")\n" = .ok (.node [scenarioTree]) ∧
    PyDecimal.toStr { sign := false, coeff := ['2', '5', '0'], exp := -2 } =
      "2.50" ∧
    dumpRoot scenarioTree ++ "\n" = "(a 1 2.50 \"x\\n\")\n" := by
  refine ⟨rfl, rfl, rfl⟩

/-- C7, counterexample.  For the tree `(x (a 1))` nothing wraps (every line
stays far below 72 characters), so by the claim the closing paren of `x`
should sit on the same line as its last child, producing `(x\n\t(a 1))`.
The printer instead puts it on its own line, because the closing-paren rule
also fires whenever the current output line already ends with `)` (i.e. the
last child was a sub-node), wrapping or not. -/
theorem dump_close_paren_own_line_counterexample :
    dump [SVal.atom "x", SVal.node [.atom "a", .int 1]] = "(x\n\t(a 1)\n)" ∧
    ("(x\n\t(a 1)\n)" : String) ≠ "(x\n\t(a 1))" := by
  exact ⟨rfl, by decide⟩

/-- C7, amended.  The printer's layout policy, as implemented:
1. a token wraps to a fresh tab-indented line exactly when the printer is
   not inside an `xy` run and the current line is already at least 72
   characters long — the decision ignores the token's own length, so a line
   may grow past 72 characters (conjunct 4 shows a 95-character line);
2. a consecutive `xy` child node is merged onto the previous output line
   exactly when that line is shorter than 99 characters;
3. the closing paren shares the line of the last child exactly when no
   wrapping occurred inside the node AND the line does not already end with
   `)` (that is, the last child was atomic); otherwise it goes on its own
   line at the parent's indent. -/
theorem dump_layout_amended :
    (∀ (depth : Nat) (txt cur : String) (rest : List String) (m x : Bool),
      (placeToken depth txt ⟨cur :: rest, m, x⟩).out.length =
          rest.length + 2 ↔ x = false ∧ 72 ≤ strLen cur) ∧
    (∀ (b : Bool) (cur prev : String) (rest : List String) (m x : Bool),
      (xyMergeStep b ⟨cur :: prev :: rest, m, x⟩).out.length =
          rest.length + 1 ↔ b = true ∧ strLen prev < 99) ∧
    (∀ (depth : Nat) (cur : String) (rest : List String) (m x : Bool),
      (endBlock depth ⟨cur :: rest, m, x⟩).out.length = rest.length + 2 ↔
        (m = true ∨ strEndsWith cur ")" = true)) ∧
    dump [SVal.atom "x",
        SVal.atom "aaaaaaaaaaaaaaaaaaaaaaaaaaaaaaaaaaaaaaaaaaaaaaaaaaaaaaaaaaaa",
        SVal.atom "bbbbbbbbbbbbbbbbbbbbbbbbbbbbbb"] =
      "(x aaaaaaaaaaaaaaaaaaaaaaaaaaaaaaaaaaaaaaaaaaaaaaaaaaaaaaaaaaaa bbbbbbbbbbbbbbbbbbbbbbbbbbbbbb)" := by
  refine ⟨?_, ?_, ?_, rfl⟩
  · intro depth txt cur rest m x
    simp only [placeToken]
    rcases x with _ | _
    · by_cases hlen : strLen cur < 72
      · rw [if_pos (by simpa using hlen)]
        constructor
        · intro h; split at h <;> simp at h
        · rintro ⟨-, h⟩; omega
      · rw [if_neg (by simpa using hlen)]
        simp
        omega
    · rw [if_pos (by simp)]
      constructor
      · intro h; split at h <;> simp at h
      · rintro ⟨h, -⟩; simp at h
  · intro b cur prev rest m x
    simp only [xyMergeStep]
    rcases b with _ | _
    · rw [if_neg (by simp)]
      simp
    · by_cases hlen : strLen prev < 99
      · rw [if_pos (by simpa using hlen)]
        simp [hlen]
      · rw [if_neg (by simpa using hlen)]
        simp
        omega
  · intro depth cur rest m x
    simp only [endBlock]
    rcases m with _ | _
    · by_cases he : strEndsWith cur ")"
      · rw [if_pos (by simp [he])]
        simp [he]
      · rw [if_neg (by simp [he])]
        simp [he]
    · rw [if_pos (by simp)]
      simp

/-- C5, code bug.  `SExp.add(item, index)` is specified to insert the item
into the ordered child sequence with the indexes kept consistent.  The
implementation ends with `self.sexp.insert(i)` — `list.insert` called with
a single argument — which raises TypeError on every call (triggered in the
source from `kicad_pro.KicadPro.fillnetlist`, which calls
`context[0].add(ba)` for every bus alias).  No call ever inserts the item:
the ordered sequence is left unchanged while `_subs`/`_atoms` have already
been mutated, so the sequence/index consistency invariant is also
violated. -/
theorem sexp_add_always_raises (self : SExpFull) (item : SVal)
    (iOpt : Option Nat) :
    (SExpFull.add self item iOpt).2 = PyExn.typeError ∧
    (SExpFull.add self item iOpt).1.sexp = self.sexp := by
  refine ⟨rfl, ?_⟩
  simp only [SExpFull.add]
  cases item <;> rfl

theorem SVal.typeAtom_inv {v : SVal} {a : String}
    (h : v.typeAtom = some a) : ∃ l, v = .node (.atom a :: l) := by
  match v with
  | .node (.atom s :: rest) =>
    simp only [SVal.typeAtom, Option.some.injEq] at h
    exact ⟨rest, by rw [h]⟩
  | .node [] => simp [SVal.typeAtom] at h
  | .node (.int _ :: _) => simp [SVal.typeAtom] at h
  | .node (.dec _ :: _) => simp [SVal.typeAtom] at h
  | .node (.str _ :: _) => simp [SVal.typeAtom] at h
  | .node (.node _ :: _) => simp [SVal.typeAtom] at h
  | .atom _ => simp [SVal.typeAtom] at h
  | .int _ => simp [SVal.typeAtom] at h
  | .dec _ => simp [SVal.typeAtom] at h
  | .str _ => simp [SVal.typeAtom] at h

/-- C8.  Loading schematic file contents whose root node is typed
`kicad_sch`: when the first `version` sub-node carries an integer outside
the inclusive supported range `[20220000, 20250114]`, or when there is no
`version` child at all, the loader returns `None` (a null tree) to the
caller instead of raising; when the integer lies within the inclusive
bounds, the parsed schematic node itself is returned. -/
theorem kicad_sch_version_gate (contents : String) (sch : SVal)
    (rest : List SVal) (n : Int)
    (hp : parse contents = .ok (.node (sch :: rest)))
    (ht : sch.typeAtom = some "kicad_sch") :
    ((getSubsOf sch "version").head? =
        some (.node [.atom "version", .int n]) →
      ((n < Version.MINV ∨ Version.MAXV < n) →
          kicad_sch contents = .ok none) ∧
      (Version.MINV ≤ n → n ≤ Version.MAXV →
          kicad_sch contents = .ok (some sch))) ∧
    (containsAtomKey sch "version" = false →
      kicad_sch contents = .ok none) := by
  obtain ⟨l, rfl⟩ := SVal.typeAtom_inv ht
  constructor
  · intro hv
    have hcontains :
        containsAtomKey (SVal.node (.atom "kicad_sch" :: l)) "version" =
          true := by
      simp only [containsAtomKey, Bool.or_eq_true, Bool.not_eq_true']
      left
      cases hgs : getSubsOf (SVal.node (.atom "kicad_sch" :: l)) "version"
      · rw [hgs] at hv; simp at hv
      · simp [List.isEmpty]
    constructor
    · intro hrange
      have hdec : decide (Version.MINV ≤ n ∧ n ≤ Version.MAXV) = false := by
        simp only [decide_eq_false_iff_not, not_and]
        intro h1 h2
        rcases hrange with h | h <;> omega
      simp [kicad_sch, hp, SVal.dataList, SVal.typeAtom, hcontains, hv,
        Version.is_supported, hdec]
    · intro h1 h2
      have hdec : decide (Version.MINV ≤ n ∧ n ≤ Version.MAXV) = true := by
        simp [h1, h2]
      simp [kicad_sch, hp, SVal.dataList, SVal.typeAtom, hcontains, hv,
        Version.is_supported, hdec]
  · intro hnone
    simp [kicad_sch, hp, SVal.dataList, SVal.typeAtom, hnone]

/-- C8, witness: the theorem applied to a file with version 100 (rejected
as a null tree) and to a file with version 20230121 (returned as the
parsed tree). -/
theorem kicad_sch_version_gate_witness :
    kicad_sch "(kicad_sch (version 100))" = .ok none ∧
    kicad_sch "(kicad_sch (version 20230121))" = .ok (some schOk) := by
  constructor
  · exact ((kicad_sch_version_gate "(kicad_sch (version 100))" schLow [] 100
      (by rfl) (by rfl)).1 (by rfl)).1 (by decide)
  · exact ((kicad_sch_version_gate "(kicad_sch (version 20230121))" schOk []
      20230121 (by rfl) (by rfl)).1 (by rfl)).2 (by decide) (by decide)

/-! ### Order lemmas for the Python tuple comparison of `_names` entries -/

theorem pyCmpChars_self : ∀ a, pyCmpChars a a = .eq
  | [] => rfl
  | c :: rest => by
    simp [pyCmpChars, lt_irrefl, pyCmpChars_self rest]

theorem pyCmpChars_eq : ∀ {a b : List Char}, pyCmpChars a b = .eq → a = b
  | [], [], _ => rfl
  | [], _ :: _, h => by simp [pyCmpChars] at h
  | _ :: _, [], h => by simp [pyCmpChars] at h
  | a :: as, b :: bs, h => by
    simp only [pyCmpChars] at h
    split at h
    · exact absurd h (by simp)
    · split at h
      · exact absurd h (by simp)
      · have hab : a = b :=
          le_antisymm (not_lt.1 (by assumption)) (not_lt.1 (by assumption))
        rw [hab, pyCmpChars_eq h]

theorem pyCmpChars_swap : ∀ a b, pyCmpChars b a = (pyCmpChars a b).swap
  | [], [] => rfl
  | [], _ :: _ => rfl
  | _ :: _, [] => rfl
  | a :: as, b :: bs => by
    simp only [pyCmpChars]
    rcases lt_trichotomy a b with h | h | h
    · rw [if_neg (not_lt.2 h.le), if_pos h, if_pos h]; rfl
    · subst h
      rw [if_neg (lt_irrefl a), if_neg (lt_irrefl a), if_neg (lt_irrefl a),
        if_neg (lt_irrefl a)]
      exact pyCmpChars_swap as bs
    · rw [if_pos h, if_pos h, if_neg (not_lt.2 h.le)]; rfl

theorem pyCmpChars_lt_trans :
    ∀ {a b c : List Char}, pyCmpChars a b = .lt → pyCmpChars b c = .lt →
      pyCmpChars a c = .lt
  | [], [], _, h1, _ => by simp [pyCmpChars] at h1
  | [], _ :: _, [], _, h2 => by simp [pyCmpChars] at h2
  | [], _ :: _, _ :: _, _, _ => rfl
  | _ :: _, [], _, h1, _ => by simp [pyCmpChars] at h1
  | _ :: _, _ :: _, [], _, h2 => by simp [pyCmpChars] at h2
  | a :: as, b :: bs, c :: cs, h1, h2 => by
    simp only [pyCmpChars] at h1 h2 ⊢
    rcases lt_trichotomy a b with hab | hab | hab
    · rcases lt_trichotomy b c with hbc | hbc | hbc
      · rw [if_pos (hab.trans hbc)]
      · subst hbc; rw [if_pos hab]
      · rw [if_neg (not_lt.2 hbc.le), if_pos hbc] at h2
        exact absurd h2 (by simp)
    · subst hab
      rw [if_neg (lt_irrefl a), if_neg (lt_irrefl a)] at h1
      rcases lt_trichotomy a c with hac | hac | hac
      · rw [if_pos hac]
      · subst hac
        rw [if_neg (lt_irrefl a), if_neg (lt_irrefl a)] at h2 ⊢
        exact pyCmpChars_lt_trans h1 h2
      · rw [if_neg (not_lt.2 hac.le), if_pos hac] at h2
        exact absurd h2 (by simp)
    · rw [if_neg (not_lt.2 hab.le), if_pos hab] at h1
      exact absurd h1 (by simp)

theorem pyCmpStr_self (a : String) : pyCmpStr a a = .eq :=
  pyCmpChars_self a.data

theorem pyCmpStr_eq {a b : String} (h : pyCmpStr a b = .eq) : a = b := by
  have hd := pyCmpChars_eq h
  cases a; cases b
  exact congrArg String.mk hd

theorem pyCmpStr_swap (a b : String) : pyCmpStr b a = (pyCmpStr a b).swap :=
  pyCmpChars_swap a.data b.data

theorem pyCmpStr_lt_trans {a b c : String} (h1 : pyCmpStr a b = .lt)
    (h2 : pyCmpStr b c = .lt) : pyCmpStr a c = .lt :=
  pyCmpChars_lt_trans h1 h2

theorem pyCmpStrList_self : ∀ a, pyCmpStrList a a = .eq
  | [] => rfl
  | s :: rest => by
    show (match pyCmpStr s s with
          | .eq => pyCmpStrList rest rest
          | o => o) = .eq
    rw [pyCmpStr_self s]
    exact pyCmpStrList_self rest

theorem pyCmpStrList_eq : ∀ {a b : List String},
    pyCmpStrList a b = .eq → a = b
  | [], [], _ => rfl
  | [], _ :: _, h => by simp [pyCmpStrList] at h
  | _ :: _, [], h => by simp [pyCmpStrList] at h
  | a :: as, b :: bs, h => by
    have h' : (match pyCmpStr a b with
        | .eq => pyCmpStrList as bs
        | o => o) = .eq := h
    cases hab : pyCmpStr a b <;> rw [hab] at h'
    · exact absurd h' (by simp)
    · rw [pyCmpStr_eq hab, pyCmpStrList_eq h']
    · exact absurd h' (by simp)

theorem pyCmpStrList_swap : ∀ a b,
    pyCmpStrList b a = (pyCmpStrList a b).swap
  | [], [] => rfl
  | [], _ :: _ => rfl
  | _ :: _, [] => rfl
  | a :: as, b :: bs => by
    show (match pyCmpStr b a with
          | .eq => pyCmpStrList bs as
          | o => o) =
        (match pyCmpStr a b with
          | .eq => pyCmpStrList as bs
          | o => o).swap
    rw [pyCmpStr_swap a b]
    cases pyCmpStr a b
    · rfl
    · exact pyCmpStrList_swap as bs
    · rfl

theorem ordCaseLt {o x : Ordering}
    (h : (match o with | .eq => x | o2 => o2) = .lt) :
    o = .lt ∨ (o = .eq ∧ x = .lt) := by
  cases o <;> simp_all

theorem ordCaseLt2 {o x : Ordering}
    (h : o = .lt ∨ (o = .eq ∧ x = .lt)) :
    (match o with | .eq => x | o2 => o2) = .lt := by
  rcases h with h | ⟨h, hx⟩ <;> subst h
  · rfl
  · exact hx

theorem pyCmpStrList_lt_trans : ∀ {a b c : List String},
    pyCmpStrList a b = .lt → pyCmpStrList b c = .lt → pyCmpStrList a c = .lt
  | [], [], _, h1, _ => by simp [pyCmpStrList] at h1
  | [], _ :: _, [], _, h2 => by simp [pyCmpStrList] at h2
  | [], _ :: _, _ :: _, _, _ => rfl
  | _ :: _, [], _, h1, _ => by simp [pyCmpStrList] at h1
  | _ :: _, _ :: _, [], _, h2 => by simp [pyCmpStrList] at h2
  | a :: as, b :: bs, c :: cs, h1, h2 => by
    have h1' := ordCaseLt (o := pyCmpStr a b) (x := pyCmpStrList as bs) h1
    have h2' := ordCaseLt (o := pyCmpStr b c) (x := pyCmpStrList bs cs) h2
    refine ordCaseLt2 (o := pyCmpStr a c) (x := pyCmpStrList as cs) ?_
    rcases h1' with hab | ⟨hab, h1r⟩
    · rcases h2' with hbc | ⟨hbc, h2r⟩
      · exact Or.inl (pyCmpStr_lt_trans hab hbc)
      · exact Or.inl (pyCmpStr_eq hbc ▸ hab)
    · rcases h2' with hbc | ⟨hbc, h2r⟩
      · exact Or.inl (pyCmpStr_eq hab ▸ hbc)
      · refine Or.inr ⟨?_, pyCmpStrList_lt_trans h1r h2r⟩
        rw [pyCmpStr_eq hab, hbc]

theorem cmpName_self : ∀ n, cmpName n n = some .eq
  | .str s => by
    show some (pyCmpStr s s) = some .eq
    rw [pyCmpStr_self]
  | .pins l => by
    show some (pyCmpStrList l l) = some .eq
    rw [pyCmpStrList_self]

theorem cmpName_eq : ∀ {x y : NetName}, cmpName x y = some .eq → x = y
  | .str a, .str b, h => by
    simp only [cmpName, Option.some.injEq] at h
    rw [pyCmpStr_eq h]
  | .pins a, .pins b, h => by
    simp only [cmpName, Option.some.injEq] at h
    rw [pyCmpStrList_eq h]
  | .str _, .pins _, h => by simp [cmpName] at h
  | .pins _, .str _, h => by simp [cmpName] at h

theorem cmpName_swap : ∀ x y, cmpName y x = (cmpName x y).map Ordering.swap
  | .str a, .str b => by
    show some (pyCmpStr b a) = (some (pyCmpStr a b)).map Ordering.swap
    rw [pyCmpStr_swap]; rfl
  | .pins a, .pins b => by
    show some (pyCmpStrList b a) =
      (some (pyCmpStrList a b)).map Ordering.swap
    rw [pyCmpStrList_swap]; rfl
  | .str _, .pins _ => rfl
  | .pins _, .str _ => rfl

theorem cmpName_lt_trans : ∀ {x y z : NetName}, cmpName x y = some .lt →
    cmpName y z = some .lt → cmpName x z = some .lt
  | .str a, .str b, .str c, h1, h2 => by
    simp only [cmpName, Option.some.injEq] at h1 h2 ⊢
    exact pyCmpStr_lt_trans h1 h2
  | .pins a, .pins b, .pins c, h1, h2 => by
    simp only [cmpName, Option.some.injEq] at h1 h2 ⊢
    exact pyCmpStrList_lt_trans h1 h2
  | .str _, .pins _, _, h1, _ => by simp [cmpName] at h1
  | .pins _, .str _, _, h1, _ => by simp [cmpName] at h1
  | .str _, .str _, .pins _, _, h2 => by simp [cmpName] at h2
  | .pins _, .pins _, .str _, _, h2 => by simp [cmpName] at h2

theorem natCompare_swap (a b : Nat) : compare b a = (compare a b).swap := by
  rcases Nat.lt_trichotomy a b with h | h | h
  · rw [Nat.compare_eq_gt.2 h, Nat.compare_eq_lt.2 h]; rfl
  · subst h; rw [Nat.compare_eq_eq.2 rfl]; rfl
  · rw [Nat.compare_eq_lt.2 h, Nat.compare_eq_gt.2 h]; rfl

/-- Characterisation of a strict `<` between two stored `_names` tuples. -/
theorem cmpEntry_lt_iff {a b : NEntry} : cmpEntry a b = some .lt ↔
    (a.cat < b.cat ∨ (a.cat = b.cat ∧
      (a.depth < b.depth ∨ (a.depth = b.depth ∧
        (cmpName a.sort b.sort = some .lt ∨ (a.sort = b.sort ∧
          cmpName a.orig b.orig = some .lt)))))) := by
  unfold cmpEntry
  rcases Nat.lt_trichotomy a.cat b.cat with hc | hc | hc
  · rw [Nat.compare_eq_lt.2 hc]
    exact ⟨fun _ => Or.inl hc, fun _ => rfl⟩
  · have hclt : ¬ a.cat < b.cat := by omega
    rw [Nat.compare_eq_eq.2 hc]
    rcases Nat.lt_trichotomy a.depth b.depth with hd | hd | hd
    · rw [Nat.compare_eq_lt.2 hd]
      exact ⟨fun _ => Or.inr ⟨hc, Or.inl hd⟩, fun _ => rfl⟩
    · have hdlt : ¬ a.depth < b.depth := by omega
      rw [Nat.compare_eq_eq.2 hd]
      cases hs : cmpName a.sort b.sort with
      | none =>
        constructor
        · intro h; exact absurd h (by simp)
        · rintro (h | ⟨-, h | ⟨-, h | ⟨hseq, -⟩⟩⟩)
          · exact absurd h hclt
          · exact absurd h hdlt
          · exact absurd h (by simp)
          · rw [hseq, cmpName_self] at hs; exact absurd hs (by simp)
      | some o =>
        cases o
        · constructor
          · intro _; exact Or.inr ⟨hc, Or.inr ⟨hd, Or.inl rfl⟩⟩
          · intro _; rfl
        · have hseq := cmpName_eq hs
          constructor
          · intro h; exact Or.inr ⟨hc, Or.inr ⟨hd, Or.inr ⟨hseq, h⟩⟩⟩
          · rintro (h | ⟨-, h | ⟨-, h | ⟨-, h⟩⟩⟩)
            · exact absurd h hclt
            · exact absurd h hdlt
            · exact absurd h (by simp)
            · exact h
        · have hne : ¬ a.sort = b.sort := fun hh => by
            rw [hh, cmpName_self] at hs; exact absurd hs (by simp)
          constructor
          · intro h; exact absurd h (by simp)
          · rintro (h | ⟨-, h | ⟨-, h | ⟨hseq, -⟩⟩⟩)
            · exact absurd h hclt
            · exact absurd h hdlt
            · exact absurd h (by simp)
            · exact absurd hseq hne
    · have hdlt : ¬ a.depth < b.depth := by omega
      have hdne : ¬ a.depth = b.depth := by omega
      rw [Nat.compare_eq_gt.2 hd]
      constructor
      · intro h; exact absurd h (by simp)
      · rintro (h | ⟨-, h | ⟨h, -⟩⟩)
        · exact absurd h hclt
        · exact absurd h hdlt
        · exact absurd h hdne
  · rw [Nat.compare_eq_gt.2 hc]
    have h1 : ¬ a.cat < b.cat := by omega
    have h2 : ¬ a.cat = b.cat := by omega
    constructor
    · intro h; exact absurd h (by simp)
    · rintro (h | ⟨h, -⟩)
      · exact absurd h h1
      · exact absurd h h2

theorem cmpEntry_self (a : NEntry) : cmpEntry a a = some .eq := by
  unfold cmpEntry
  rw [Nat.compare_eq_eq.2 rfl, Nat.compare_eq_eq.2 rfl, cmpName_self,
    cmpName_self]

theorem cmpEntry_eq {a b : NEntry} (h : cmpEntry a b = some .eq) : a = b := by
  unfold cmpEntry at h
  cases hc : compare a.cat b.cat <;> rw [hc] at h
  · exact absurd h (by simp)
  · cases hd : compare a.depth b.depth <;> rw [hd] at h
    · exact absurd h (by simp)
    · cases hs : cmpName a.sort b.sort with
      | none => rw [hs] at h; exact absurd h (by simp)
      | some o =>
        rw [hs] at h
        cases o
        · exact absurd h (by simp)
        · have h1 := Nat.compare_eq_eq.1 hc
          have h2 := Nat.compare_eq_eq.1 hd
          have h3 := cmpName_eq hs
          have h4 := cmpName_eq h
          cases a; cases b
          simp_all
        · exact absurd h (by simp)
    · exact absurd h (by simp)
  · exact absurd h (by simp)

theorem cmpEntry_swap (a b : NEntry) :
    cmpEntry b a = (cmpEntry a b).map Ordering.swap := by
  unfold cmpEntry
  rw [natCompare_swap a.cat b.cat]
  cases compare a.cat b.cat
  · rfl
  · rw [natCompare_swap a.depth b.depth]
    cases compare a.depth b.depth
    · rfl
    · rw [cmpName_swap a.sort b.sort]
      cases cmpName a.sort b.sort with
      | none => rfl
      | some o =>
        cases o
        · rfl
        · rw [cmpName_swap a.orig b.orig]
          cases cmpName a.orig b.orig with
          | none => rfl
          | some o2 => cases o2 <;> rfl
        · rfl
    · rfl
  · rfl

theorem cmpEntry_lt_trans {a b c : NEntry} (h1 : cmpEntry a b = some .lt)
    (h2 : cmpEntry b c = some .lt) : cmpEntry a c = some .lt := by
  rw [cmpEntry_lt_iff] at h1 h2 ⊢
  rcases h1 with h1 | ⟨hc1, h1⟩
  · rcases h2 with h2 | ⟨hc2, h2⟩
    · exact Or.inl (h1.trans h2)
    · exact Or.inl (hc2 ▸ h1)
  · rcases h2 with h2 | ⟨hc2, h2⟩
    · exact Or.inl (hc1 ▸ h2)
    · refine Or.inr ⟨hc1.trans hc2, ?_⟩
      rcases h1 with h1 | ⟨hd1, h1⟩
      · rcases h2 with h2 | ⟨hd2, h2⟩
        · exact Or.inl (h1.trans h2)
        · exact Or.inl (hd2 ▸ h1)
      · rcases h2 with h2 | ⟨hd2, h2⟩
        · exact Or.inl (hd1 ▸ h2)
        · refine Or.inr ⟨hd1.trans hd2, ?_⟩
          rcases h1 with h1 | ⟨hs1, h1⟩
          · rcases h2 with h2 | ⟨hs2, h2⟩
            · exact Or.inl (cmpName_lt_trans h1 h2)
            · exact Or.inl (hs2 ▸ h1)
          · rcases h2 with h2 | ⟨hs2, h2⟩
            · exact Or.inl (hs1 ▸ h2)
            · exact Or.inr ⟨hs1.trans hs2, cmpName_lt_trans h1 h2⟩

/-- Decomposition of the entry well-formedness flag. -/
theorem wf_dest {e : NEntry} (h : NEntryWFb e = true) :
    e.sort = e.orig.upper ∧ e.depth = e.orig.depth ∧
      ((e.cat = CAT_SYMPIN ∨ e.cat = CAT_SYMPIN_PWR) →
        ∃ r nm num, e.orig = .pins [r, nm, num] ∧ r ≠ "") ∧
      (¬(e.cat = CAT_SYMPIN ∨ e.cat = CAT_SYMPIN_PWR) →
        ∃ s, e.orig = .str s) := by
  simp only [NEntryWFb, Bool.and_eq_true, beq_iff_eq] at h
  obtain ⟨⟨h1, h2⟩, h3⟩ := h
  refine ⟨h1, h2, ?_, ?_⟩
  · intro hcat
    rw [if_pos (by simpa using hcat)] at h3
    match horig : e.orig with
    | .pins [r, nm, num] =>
      rw [horig] at h3
      exact ⟨r, nm, num, rfl, by simpa using h3⟩
    | .pins [] => rw [horig] at h3; simp at h3
    | .pins [_] => rw [horig] at h3; simp at h3
    | .pins [_, _] => rw [horig] at h3; simp at h3
    | .pins (_ :: _ :: _ :: _ :: _) => rw [horig] at h3; simp at h3
    | .str _ => rw [horig] at h3; simp at h3
  · intro hcat
    rw [if_neg (by simpa using hcat)] at h3
    match horig : e.orig with
    | .str s => exact ⟨s, rfl⟩
    | .pins l => rw [horig] at h3; simp at h3

/-- Two well-formed entries always compare without a TypeError. -/
theorem cmpEntry_wf_isSome {a b : NEntry} (ha : NEntryWFb a = true)
    (hb : NEntryWFb b = true) : ∃ o, cmpEntry a b = some o := by
  obtain ⟨has, -, hap, hasr⟩ := wf_dest ha
  obtain ⟨hbs, -, hbp, hbsr⟩ := wf_dest hb
  unfold cmpEntry
  cases hc : compare a.cat b.cat
  · exact ⟨.lt, rfl⟩
  · have hcat : a.cat = b.cat := Nat.compare_eq_eq.1 hc
    cases compare a.depth b.depth
    · exact ⟨.lt, rfl⟩
    · have hk : (∃ o, cmpName a.sort b.sort = some o) ∧
          (∃ o, cmpName a.orig b.orig = some o) := by
        by_cases hpin : a.cat = CAT_SYMPIN ∨ a.cat = CAT_SYMPIN_PWR
        · obtain ⟨r1, n1, m1, ho1, -⟩ := hap hpin
          obtain ⟨r2, n2, m2, ho2, -⟩ := hbp (hcat ▸ hpin)
          rw [has, hbs, ho1, ho2]
          exact ⟨⟨_, rfl⟩, ⟨_, rfl⟩⟩
        · obtain ⟨s1, ho1⟩ := hasr hpin
          obtain ⟨s2, ho2⟩ := hbsr (fun hh => hpin (hcat ▸ hh))
          rw [has, hbs, ho1, ho2]
          exact ⟨⟨_, rfl⟩, ⟨_, rfl⟩⟩
      obtain ⟨⟨o1, ho1⟩, ⟨o2, ho2⟩⟩ := hk
      rw [ho1]
      cases o1
      · exact ⟨.lt, rfl⟩
      · rw [ho2]
        exact ⟨o2, rfl⟩
      · exact ⟨.gt, rfl⟩
    · exact ⟨.gt, rfl⟩
  · exact ⟨.gt, rfl⟩

/-- `≤` shorthand used by the minimum lemma. -/
def entryLE (a b : NEntry) : Prop :=
  cmpEntry a b = some .lt ∨ cmpEntry a b = some .eq

theorem entryLE_trans {a b c : NEntry} (h1 : entryLE a b) (h2 : entryLE b c) :
    entryLE a c := by
  rcases h1 with h1 | h1
  · rcases h2 with h2 | h2
    · exact Or.inl (cmpEntry_lt_trans h1 h2)
    · exact Or.inl ((cmpEntry_eq h2) ▸ h1)
  · rcases h2 with h2 | h2 <;> rw [cmpEntry_eq h1]
    · exact Or.inl h2
    · exact Or.inr h2

/-- `min(self._names)` over a set of well-formed entries: the fold returns
an element less-than-or-equal to every element. -/
theorem pymin_go : ∀ (xs : List NEntry) (cur : NEntry),
    NEntryWFb cur = true → (∀ e ∈ xs, NEntryWFb e = true) →
    ∃ m, pyminAux cur xs = some m ∧ (m = cur ∨ m ∈ xs) ∧
      NEntryWFb m = true ∧ entryLE m cur ∧ ∀ e ∈ xs, entryLE m e
  | [], cur, hcur, _ =>
    ⟨cur, rfl, Or.inl rfl, hcur, Or.inr (cmpEntry_self cur), by simp⟩
  | x :: xs, cur, hcur, hxs => by
    have hx : NEntryWFb x = true := hxs x (by simp)
    have hxs' : ∀ e ∈ xs, NEntryWFb e = true := fun e he =>
      hxs e (List.mem_cons_of_mem _ he)
    obtain ⟨o, ho⟩ := cmpEntry_wf_isSome hx hcur
    show ∃ m, (match cmpEntry x cur with
        | none => none
        | some .lt => pyminAux x xs
        | some _ => pyminAux cur xs) = some m ∧ _
    rw [ho]
    cases o
    · -- x < cur : continue with x
      obtain ⟨m, hm, hmem, hmwf, hle, hall⟩ := pymin_go xs x hx hxs'
      refine ⟨m, hm, ?_, hmwf, ?_, ?_⟩
      · rcases hmem with h | h
        · exact Or.inr (by simp [h])
        · exact Or.inr (List.mem_cons_of_mem _ h)
      · exact entryLE_trans hle (Or.inl ho)
      · intro e he
        rcases List.mem_cons.1 he with rfl | he
        · exact hle
        · exact hall e he
    · -- x == cur : they are the same entry
      obtain ⟨m, hm, hmem, hmwf, hle, hall⟩ := pymin_go xs cur hcur hxs'
      refine ⟨m, hm, ?_, hmwf, hle, ?_⟩
      · rcases hmem with h | h
        · exact Or.inl h
        · exact Or.inr (List.mem_cons_of_mem _ h)
      · intro e he
        rcases List.mem_cons.1 he with rfl | he
        · exact entryLE_trans hle (Or.inr ((cmpEntry_eq ho) ▸ cmpEntry_self cur))
        · exact hall e he
    · -- x > cur : keep cur
      obtain ⟨m, hm, hmem, hmwf, hle, hall⟩ := pymin_go xs cur hcur hxs'
      refine ⟨m, hm, ?_, hmwf, hle, ?_⟩
      · rcases hmem with h | h
        · exact Or.inl h
        · exact Or.inr (List.mem_cons_of_mem _ h)
      · intro e he
        rcases List.mem_cons.1 he with rfl | he
        · refine entryLE_trans hle (Or.inl ?_)
          have := cmpEntry_swap e cur
          rw [ho] at this
          exact this
        · exact hall e he

/-- A strict `>` on the specification's `(category, depth, uppercased)`
triple forces a strict `>` of the full stored tuples. -/
theorem cmpEntry_gt_of_tripleCmp_gt {a b : NEntry}
    (h : tripleCmp a b = some .gt) : cmpEntry a b = some .gt := by
  unfold tripleCmp at h
  unfold cmpEntry
  cases hc : compare a.cat b.cat <;> rw [hc] at h
  · exact absurd h (by simp)
  · cases hd : compare a.depth b.depth <;> rw [hd] at h
    · exact absurd h (by simp)
    · have h2 : cmpName a.sort b.sort = some .gt := h
      rw [h2]

/-- Core lemma for `NetBus.name` on a resolved component with well-formed
entries: the minimum entry exists and determines the emitted name. -/
theorem name_min (names : List NEntry) (ncs : List String)
    (hwf : ∀ e ∈ names, NEntryWFb e = true) (hne : names ≠ []) :
    ∃ m ∈ names, NEntryWFb m = true ∧ (∀ e ∈ names, entryLE m e) ∧
      (m.cat ≠ CAT_SYMPIN →
        NetBus.name ⟨names, ncs⟩ = nameOfOrig m.orig) ∧
      (m.cat = CAT_SYMPIN → ∃ r nm num, m.orig = .pins [r, nm, num] ∧
        NetBus.name ⟨names, ncs⟩ = .strv
          ((if 1 < (names.filter fun x => x.cat == CAT_SYMPIN).length
              then "Net" else "unconnected") ++ "-(" ++
            joinSep "-" ([r, nm, "Pad" ++ num].filter
              fun p => p ≠ "" && p ≠ "~") ++ ")")) := by
  match names, hne with
  | e :: es, _ =>
    have hwfe := hwf e (by simp)
    have hwfes : ∀ x ∈ es, NEntryWFb x = true :=
      fun x hx => hwf x (by simp [hx])
    obtain ⟨m, hm, hmem, hmwf, hle, hall⟩ := pymin_go es e hwfe hwfes
    have hmm : m ∈ e :: es := by
      rcases hmem with rfl | h
      · exact List.mem_cons_self _ _
      · exact List.mem_cons_of_mem _ h
    have hminle : ∀ x ∈ e :: es, entryLE m x := by
      intro x hx
      rcases List.mem_cons.1 hx with rfl | hx
      · exact hle
      · exact hall x hx
    refine ⟨m, hmm, hmwf, hminle, ?_, ?_⟩
    · intro hcat
      have hbeq : (m.cat == CAT_SYMPIN) = false := by simpa using hcat
      simp only [NetBus.name, hm, hbeq, Bool.false_eq_true, if_false]
    · intro hcat
      obtain ⟨r, nm, num, horig, -⟩ := (wf_dest hmwf).2.2.1 (Or.inl hcat)
      have hbeq : (m.cat == CAT_SYMPIN) = true := by simpa using hcat
      refine ⟨r, nm, num, horig, ?_⟩
      simp only [NetBus.name, hm, hbeq, if_true, horig, nameParts]
      simp [List.getLast?, List.dropLast]

/-- C3.  For a resolved net/bus component with well-formed stored names,
`NetBus.name` picks a stored entry whose `(category, depth,
uppercased-name)` triple is minimum under the category order net-tie <
power < label < symbol-pin < power-symbol-pin < sheet-pin < no-connect
(then lower hierarchy depth, then uppercase lexicographic); when the
minimum is not a symbol-pin entry the stored name itself is emitted, and
when it is a symbol-pin entry the emitted name is
`unconnected-(refdes-pinName-PadPinNumber)` if the component holds exactly
one symbol-pin entry and `Net-(...)` if more than one, with empty and `~`
parts omitted from the template. -/
theorem netbus_name_canonical (names : List NEntry) (ncs : List String)
    (hwf : ∀ e ∈ names, NEntryWFb e = true) (hne : names ≠ []) :
    ∃ m ∈ names,
      (∀ e ∈ names, tripleCmp m e ≠ some .gt) ∧
      (m.cat ≠ CAT_SYMPIN →
        NetBus.name ⟨names, ncs⟩ = nameOfOrig m.orig) ∧
      (m.cat = CAT_SYMPIN → ∃ r nm num, m.orig = .pins [r, nm, num] ∧
        NetBus.name ⟨names, ncs⟩ = .strv
          ((if 1 < (names.filter fun x => x.cat == CAT_SYMPIN).length
              then "Net" else "unconnected") ++ "-(" ++
            joinSep "-" ([r, nm, "Pad" ++ num].filter
              fun p => p ≠ "" && p ≠ "~") ++ ")")) := by
  obtain ⟨m, hmm, hmwf, hminle, hrest⟩ := name_min names ncs hwf hne
  refine ⟨m, hmm, ?_, hrest⟩
  intro e he hgt
  rcases hminle e he with h | h <;>
    rw [cmpEntry_gt_of_tripleCmp_gt hgt] at h <;> exact absurd h (by simp)

/-- C3, witness: the theorem applied to the S7 scenario (pins `R1.1` and
`U2.3`, no label). -/
theorem netbus_name_canonical_witness :
    ∃ m ∈ s7names,
      (∀ e ∈ s7names, tripleCmp m e ≠ some .gt) ∧
      (m.cat ≠ CAT_SYMPIN →
        NetBus.name ⟨s7names, []⟩ = nameOfOrig m.orig) ∧
      (m.cat = CAT_SYMPIN → ∃ r nm num, m.orig = .pins [r, nm, num] ∧
        NetBus.name ⟨s7names, []⟩ = .strv
          ((if 1 < (s7names.filter fun x => x.cat == CAT_SYMPIN).length
              then "Net" else "unconnected") ++ "-(" ++
            joinSep "-" ([r, nm, "Pad" ++ num].filter
              fun p => p ≠ "" && p ≠ "~") ++ ")")) :=
  netbus_name_canonical s7names [] (by decide) (by decide)

/-- Under well-formed entries `NetBus.name` never raises. -/
theorem name_ne_err (names : List NEntry) (ncs : List String)
    (hwf : ∀ e ∈ names, NEntryWFb e = true) :
    NetBus.name ⟨names, ncs⟩ ≠ .err := by
  match names with
  | [] => simp [NetBus.name]
  | e :: es =>
    obtain ⟨m, hmm, hmwf, -, hnot, hsym⟩ :=
      name_min (e :: es) ncs hwf (by simp)
    by_cases hcat : m.cat = CAT_SYMPIN
    · obtain ⟨r, nm, num, -, hname⟩ := hsym hcat
      rw [hname]
      simp
    · rw [hnot hcat]
      obtain ⟨-, -, -, hstr⟩ := wf_dest hmwf
      cases m.orig <;> simp [nameOfOrig]

/-- A net without symbol-pin entries yields an empty pin set. -/
theorem getPinsAux_nosym : ∀ {l : List NEntry},
    (∀ e ∈ l, e.cat ≠ CAT_SYMPIN) → getPinsAux l = some []
  | [], _ => rfl
  | e :: rest, h => by
    have hbeq : (e.cat == CAT_SYMPIN) = false := by
      simpa using h e (by simp)
    simp only [getPinsAux, hbeq, Bool.false_eq_true, if_false]
    exact getPinsAux_nosym fun x hx => h x (by simp [hx])

/-- A net with exactly one symbol-pin entry yields exactly one pin. -/
theorem getPinsAux_onesym : ∀ {l : List NEntry},
    (∀ e ∈ l, NEntryWFb e = true) →
    (l.filter fun x => x.cat == CAT_SYMPIN).length = 1 →
    ∃ a b c, getPinsAux l = some [[a, b, c]]
  | [], _, h1 => by simp at h1
  | e :: rest, hwf, h1 => by
    by_cases hcat : e.cat = CAT_SYMPIN
    · have hbeq : (e.cat == CAT_SYMPIN) = true := by simpa using hcat
      rw [List.filter_cons, if_pos hbeq] at h1
      have hrest0 : (rest.filter fun x => x.cat == CAT_SYMPIN) = [] := by
        have : (rest.filter fun x => x.cat == CAT_SYMPIN).length = 0 := by
          simpa using h1
        exact List.length_eq_zero.1 this
      have hnos : ∀ x ∈ rest, x.cat ≠ CAT_SYMPIN := by
        intro x hx hc
        have hxf : x ∈ rest.filter fun y => y.cat == CAT_SYMPIN :=
          List.mem_filter.2 ⟨hx, by simpa using hc⟩
        rw [hrest0] at hxf
        simp at hxf
      obtain ⟨r, nm, num, horig, -⟩ :=
        (wf_dest (hwf e (by simp))).2.2.1 (Or.inl hcat)
      refine ⟨removeUnit r, nm, num, ?_⟩
      simp only [getPinsAux, hbeq, if_true, horig,
        getPinsAux_nosym hnos]
      rfl
    · have hbeq : (e.cat == CAT_SYMPIN) = false := by simpa using hcat
      rw [List.filter_cons, if_neg (by simp [hbeq])] at h1
      obtain ⟨a, b, c, hp⟩ :=
        getPinsAux_onesym (fun x hx => hwf x (by simp [hx])) h1
      refine ⟨a, b, c, ?_⟩
      simp only [getPinsAux, hbeq, Bool.false_eq_true, if_false]
      exact hp

/-- The two emptiness paths of `Net.fmt`. -/
theorem fmt_empty_cases (names : List NEntry) (ncs : List String) (f : Nat)
    (hwf : ∀ e ∈ names, NEntryWFb e = true) :
    (getPinsAux names = some [] → Net.fmt ⟨names, ncs⟩ f = some "") ∧
    (∀ a b c, getPinsAux names = some [[a, b, c]] → ncs ≠ [] →
      Net.fmt ⟨names, ncs⟩ f = some "") := by
  cases hn : NetBus.name ⟨names, ncs⟩ with
  | err => exact absurd hn (name_ne_err names ncs hwf)
  | nil =>
    constructor
    · intro hg; simp [Net.fmt, hn]
    · intro a b c hg hncs; simp [Net.fmt, hn]
  | strv s =>
    constructor
    · intro hg
      simp [Net.fmt, hn, Net.getPins, hg, sortPins]
    · intro a b c hg hncs
      have hempty : ncs.isEmpty = false := by
        cases ncs
        · exact absurd rfl hncs
        · rfl
      simp [Net.fmt, hn, Net.getPins, hg, sortPins, pinKey, insOnePin,
        hempty]
  | tup l =>
    constructor
    · intro hg
      simp [Net.fmt, hn, Net.getPins, hg, sortPins]
    · intro a b c hg hncs
      have hempty : ncs.isEmpty = false := by
        cases ncs
        · exact absurd rfl hncs
        · rfl
      simp [Net.fmt, hn, Net.getPins, hg, sortPins, pinKey, insOnePin,
        hempty]

/-- No node string emitted by the short/telesis node list starts with
`#`. -/
theorem nodesShort_no_hash : ∀ (pins : List (List String))
    (nodes : List String), nodesShort pins = some nodes →
    ∀ s ∈ nodes, pyStartsWith s "#" = false := by
  intro pins
  induction pins with
  | nil =>
    intro nodes h s hs
    simp only [nodesShort, Option.some.injEq] at h
    subst h
    simp at hs
  | cons p rest ih =>
    intro nodes h s hs
    match p, h with
    | [r, nm, num], h =>
      revert h
      show (match r.data with
        | [] => none
        | c :: _ =>
          match nodesShort rest with
          | none => none
          | some acc =>
            some (if c == '#' then acc else (r ++ "." ++ num) :: acc)) =
          some nodes → _
      cases hr : r.data with
      | nil => intro h; exact absurd h (by simp)
      | cons c cs =>
        cases hns : nodesShort rest with
        | none => intro h; exact absurd h (by simp)
        | some acc =>
          intro h
          simp only [Option.some.injEq] at h
          subst h
          by_cases hc : (c == '#') = true
          · rw [if_pos hc] at hs
            exact ih acc hns s hs
          · rw [if_neg hc] at hs
            rcases List.mem_cons.1 hs with rfl | hs
            · show (("#".data).isPrefixOf (r ++ "." ++ num).data) = false
              have : (r ++ "." ++ num).data = r.data ++ ("." ++ num).data := by
                rw [String.append_assoc]
                exact congrArg String.data rfl |>.trans (String.data_append r ("." ++ num))
              rw [this, hr]
              show ('#' == c && _) = false
              have hcc : c ≠ '#' := by simpa using hc
              have hcf : ('#' == c) = false :=
                beq_eq_false_iff_ne.2 fun hh => hcc hh.symm
              simp [hcf]
            · exact ih acc hns s hs

/-- No node string emitted by the verbose node list starts with `#`. -/
theorem nodesNames_no_hash : ∀ (pins : List (List String))
    (nodes : List String), nodesNames pins = some nodes →
    ∀ s ∈ nodes, pyStartsWith s "#" = false := by
  intro pins
  induction pins with
  | nil =>
    intro nodes h s hs
    simp only [nodesNames, Option.some.injEq] at h
    subst h
    simp at hs
  | cons p rest ih =>
    intro nodes h s hs
    match p, h with
    | [r, nm, num], h =>
      revert h
      show (match r.data with
        | [] => none
        | c :: _ =>
          match nodesNames rest with
          | none => none
          | some acc =>
            let disp := if nm = "" then "~" else nm
            let txt := r ++ "." ++ num ++
              (if disp ≠ num ∧ disp ≠ "~" then "(" ++ nm ++ ")" else "")
            some (if c == '#' then acc else txt :: acc)) =
          some nodes → _
      cases hr : r.data with
      | nil => intro h; exact absurd h (by simp)
      | cons c cs =>
        cases hns : nodesNames rest with
        | none => intro h; exact absurd h (by simp)
        | some acc =>
          intro h
          simp only [Option.some.injEq] at h
          subst h
          by_cases hc : (c == '#') = true
          · rw [if_pos hc] at hs
            exact ih acc hns s hs
          · rw [if_neg hc] at hs
            rcases List.mem_cons.1 hs with rfl | hs
            · show (("#".data).isPrefixOf
                (r ++ "." ++ num ++ _).data) = false
              rw [String.data_append, String.data_append,
                String.data_append, hr]
              show ('#' == c && _) = false
              have hcc : c ≠ '#' := by simpa using hc
              have hcf : ('#' == c) = false :=
                beq_eq_false_iff_ne.2 fun hh => hcc hh.symm
              simp [hcf]
            · exact ih acc hns s hs

/-- A net whose formatted output is empty contributes nothing to the
line list of the generated netlist. -/
theorem netlistLines_skip (f : Nat) (net : NetM)
    (hfmt : Net.fmt net f = some "") :
    ∀ (pre post : List NetM),
      netlistLines f (pre ++ net :: post) = netlistLines f (pre ++ post)
  | [], post => by
    show (match Net.fmt net f, netlistLines f post with
      | some s, some acc => some (if s == "" then acc else s :: acc)
      | _, _ => none) = netlistLines f post
    rw [hfmt]
    cases netlistLines f post <;> rfl
  | q :: pre, post => by
    show (match Net.fmt q f, netlistLines f (pre ++ net :: post) with
      | some s, some acc => some (if s == "" then acc else s :: acc)
      | _, _ => none) =
      (match Net.fmt q f, netlistLines f (pre ++ post) with
      | some s, some acc => some (if s == "" then acc else s :: acc)
      | _, _ => none)
    rw [netlistLines_skip f net hfmt pre post]

/-- C10.  A resolved net formats to the empty string — and is therefore
omitted from every generated netlist — whenever it has no symbol-pin
entries, or exactly one symbol-pin entry together with at least one
recorded no-connect marker; and pins whose refdes begins with `#` are
excluded from the listed nodes in every output format (no emitted node
string starts with `#`; `#`-refdes pins are additionally recategorised as
`CAT_SYMPIN_PWR` by `add_name` and never reach the pin set at all). -/
theorem net_fmt_empty_and_hash_excluded :
    (∀ (names : List NEntry) (ncs : List String) (f : Nat),
      (∀ e ∈ names, NEntryWFb e = true) →
      ((∀ e ∈ names, e.cat ≠ CAT_SYMPIN) →
        Net.fmt ⟨names, ncs⟩ f = some "") ∧
      ((names.filter fun x => x.cat == CAT_SYMPIN).length = 1 → ncs ≠ [] →
        Net.fmt ⟨names, ncs⟩ f = some "") ∧
      (∀ (pre post : List NetM),
        ((∀ e ∈ names, e.cat ≠ CAT_SYMPIN) ∨
          ((names.filter fun x => x.cat == CAT_SYMPIN).length = 1 ∧
            ncs ≠ [])) →
        generate_netlist (pre ++ ⟨names, ncs⟩ :: post) f =
          generate_netlist (pre ++ post) f)) ∧
    (∀ pins nodes, nodesShort pins = some nodes →
      ∀ s ∈ nodes, pyStartsWith s "#" = false) ∧
    (∀ pins nodes, nodesNames pins = some nodes →
      ∀ s ∈ nodes, pyStartsWith s "#" = false) := by
  refine ⟨?_, nodesShort_no_hash, nodesNames_no_hash⟩
  intro names ncs f hwf
  obtain ⟨h1, h2⟩ := fmt_empty_cases names ncs f hwf
  have hcase1 : (∀ e ∈ names, e.cat ≠ CAT_SYMPIN) →
      Net.fmt ⟨names, ncs⟩ f = some "" := fun hno =>
    h1 (getPinsAux_nosym hno)
  have hcase2 : (names.filter fun x => x.cat == CAT_SYMPIN).length = 1 →
      ncs ≠ [] → Net.fmt ⟨names, ncs⟩ f = some "" := by
    intro hone hncs
    obtain ⟨a, b, c, hg⟩ := getPinsAux_onesym hwf hone
    exact h2 a b c hg hncs
  refine ⟨hcase1, hcase2, ?_⟩
  intro pre post hcond
  have hfmt : Net.fmt ⟨names, ncs⟩ f = some "" := by
    rcases hcond with h | ⟨ha, hb⟩
    · exact hcase1 h
    · exact hcase2 ha hb
  unfold generate_netlist
  rw [netlistLines_skip f _ hfmt pre post]

/-! ### List matcher: `minmatrix` selection spec -/

theorem minCellRow_eq_fold (i : Nat) : ∀ (row : List (Option Nat))
    (j0 : Nat) (best : Option (Nat × Nat × Nat)),
    minCellRow i j0 row best = (rowCells i j0 row).foldl mmStep best
  | [], _, _ => rfl
  | none :: rest, j0, best => by
    simp only [minCellRow, rowCells]
    exact minCellRow_eq_fold i rest (j0 + 1) best
  | some v :: rest, j0, best => by
    simp only [minCellRow, rowCells, List.foldl_cons]
    exact minCellRow_eq_fold i rest (j0 + 1) (mmStep best (i, j0, v))

theorem minRows_eq_fold : ∀ (mx : List (Option (List (Option Nat))))
    (i0 : Nat) (best : Option (Nat × Nat × Nat)),
    minRows i0 mx best = (allCells i0 mx).foldl mmStep best
  | [], _, _ => rfl
  | none :: rest, i0, best => by
    simp only [minRows, allCells]
    exact minRows_eq_fold rest (i0 + 1) best
  | some row :: rest, i0, best => by
    simp only [minRows, allCells, List.foldl_append]
    rw [minRows_eq_fold rest (i0 + 1) (minCellRow i0 0 row best),
      minCellRow_eq_fold i0 row 0 best]

/-- The first-minimum characterisation of the `mmStep` fold. -/
theorem foldMin_spec : ∀ (cells : List (Nat × Nat × Nat))
    (b : Option (Nat × Nat × Nat)),
    (cells.foldl mmStep b = none ↔ (b = none ∧ cells = [])) ∧
    (∀ t, cells.foldl mmStep b = some t →
      ∃ pre post, b.toList ++ cells = pre ++ t :: post ∧
        (∀ c ∈ pre, t.2.2 < c.2.2) ∧ (∀ c ∈ post, t.2.2 ≤ c.2.2))
  | [], b => by
    constructor
    · cases b <;> simp
    · intro t ht
      cases b <;> simp at ht
      subst ht
      exact ⟨[], [], rfl, by simp, by simp⟩
  | c :: cells, b => by
    have ih := foldMin_spec cells (mmStep b c)
    constructor
    · simp only [List.foldl_cons]
      rw [ih.1]
      constructor
      · rintro ⟨h1, -⟩
        cases b with
        | none => simp [mmStep] at h1
        | some bb =>
          obtain ⟨bi, bj, bv⟩ := bb
          simp only [mmStep] at h1
          split at h1 <;> simp at h1
      · rintro ⟨-, h⟩
        simp at h
    · intro t ht
      simp only [List.foldl_cons] at ht
      obtain ⟨pre, post, hlist, hpre, hpost⟩ := ih.2 t ht
      cases b with
      | none =>
        refine ⟨pre, post, ?_, hpre, hpost⟩
        simpa [mmStep] using hlist
      | some bb =>
        obtain ⟨bi, bj, bv⟩ := bb
        by_cases hlt : c.2.2 < bv
        · -- the new cell replaced the best; IH list is c :: cells
          have hlist' : c :: cells = pre ++ t :: post := by
            simpa [mmStep, hlt] using hlist
          have htc : t.2.2 ≤ c.2.2 := by
            rcases pre with _ | ⟨p0, pre'⟩
            · simp only [List.nil_append, List.cons.injEq] at hlist'
              exact le_of_eq (by rw [hlist'.1])
            · rw [List.cons_append, List.cons.injEq] at hlist'
              have h := hpre p0 (List.mem_cons_self _ _)
              rw [← hlist'.1] at h
              exact le_of_lt h
          refine ⟨(bi, bj, bv) :: pre, post, ?_, ?_, hpost⟩
          · simpa using congrArg (List.cons (bi, bj, bv)) hlist'
          · intro x hx
            rcases List.mem_cons.1 hx with rfl | hx
            · exact lt_of_le_of_lt htc hlt
            · exact hpre x hx
        · -- the best survived; IH list is (bi,bj,bv) :: cells
          have hble : bv ≤ c.2.2 := not_lt.1 hlt
          have hlist' : (bi, bj, bv) :: cells = pre ++ t :: post := by
            simpa [mmStep, hlt] using hlist
          rcases pre with _ | ⟨p0, pre'⟩
          · -- t is the old best itself
            simp only [List.nil_append, List.cons.injEq] at hlist'
            obtain ⟨ht0, hcells⟩ := hlist'
            have htb : t.2.2 ≤ bv := le_of_eq (by rw [← ht0])
            refine ⟨[], c :: post, ?_, by simp, ?_⟩
            · simp [hcells, ← ht0]
            · intro x hx
              rcases List.mem_cons.1 hx with rfl | hx
              · exact le_trans htb hble
              · exact hpost x hx
          · -- the old best sits in front of t
            rw [List.cons_append, List.cons.injEq] at hlist'
            obtain ⟨hp0, hcells⟩ := hlist'
            have htbv : t.2.2 < bv := by
              have h := hpre p0 (List.mem_cons_self _ _)
              rw [← hp0] at h
              exact h
            refine ⟨(bi, bj, bv) :: c :: pre', post, ?_, ?_, hpost⟩
            · simp [hcells]
            · intro x hx
              rcases List.mem_cons.1 hx with rfl | hx
              · exact htbv
              · rcases List.mem_cons.1 hx with rfl | hx
                · exact lt_of_lt_of_le htbv hble
                · exact hpre x (List.mem_cons_of_mem _ hx)

theorem rowCells_mem (i : Nat) : ∀ (row : List (Option Nat)) (j0 : Nat)
    (c : Nat × Nat × Nat),
    c ∈ rowCells i j0 row ↔
      c.1 = i ∧ ∃ k, c.2.1 = j0 + k ∧ row.get? k = some (some c.2.2)
  | [], j0, c => by
    constructor
    · intro h
      exact absurd (show c ∈ ([] : List (Nat × Nat × Nat)) from h)
        (List.not_mem_nil c)
    · rintro ⟨-, k, -, hg⟩
      simp at hg
  | none :: rest, j0, c => by
    constructor
    · intro h
      obtain ⟨h1, k, hk, hg⟩ := (rowCells_mem i rest (j0 + 1) c).1 h
      exact ⟨h1, k + 1, by omega, by simpa using hg⟩
    · rintro ⟨h1, k, hk, hg⟩
      cases k with
      | zero => simp at hg
      | succ k =>
        exact (rowCells_mem i rest (j0 + 1) c).2
          ⟨h1, k, by omega, by simpa using hg⟩
  | some w :: rest, j0, c => by
    constructor
    · intro h
      rcases List.mem_cons.1
          (show c ∈ (i, j0, w) :: rowCells i (j0 + 1) rest from h) with
        rfl | h
      · exact ⟨rfl, 0, rfl, rfl⟩
      · obtain ⟨h1, k, hk, hg⟩ := (rowCells_mem i rest (j0 + 1) c).1 h
        exact ⟨h1, k + 1, by omega, by simpa using hg⟩
    · rintro ⟨h1, k, hk, hg⟩
      cases k with
      | zero =>
        obtain ⟨c1, c2, c3⟩ := c
        have hw : w = c3 := by simpa using hg
        have hk2 : c2 = j0 + 0 := hk
        have hthis : (c1, c2, c3) = ((i, j0, w) : Nat × Nat × Nat) := by
          simp only [Prod.mk.injEq]
          exact ⟨h1, by omega, hw.symm⟩
        rw [hthis]
        exact show ((i, j0, w) : Nat × Nat × Nat) ∈
            (i, j0, w) :: rowCells i (j0 + 1) rest from
          List.mem_cons_self _ _
      | succ k =>
        exact show c ∈ (i, j0, w) :: rowCells i (j0 + 1) rest from
          List.mem_cons_of_mem _
            ((rowCells_mem i rest (j0 + 1) c).2
              ⟨h1, k, by omega, by simpa using hg⟩)

theorem allCells_mem : ∀ (mx : List (Option (List (Option Nat))))
    (i0 : Nat) (c : Nat × Nat × Nat),
    c ∈ allCells i0 mx ↔
      ∃ k row, c.1 = i0 + k ∧ mx.get? k = some (some row) ∧
        row.get? c.2.1 = some (some c.2.2)
  | [], i0, c => by
    constructor
    · intro h
      exact absurd (show c ∈ ([] : List (Nat × Nat × Nat)) from h)
        (List.not_mem_nil c)
    · rintro ⟨k, row, -, hg, -⟩
      simp at hg
  | none :: rest, i0, c => by
    constructor
    · intro h
      obtain ⟨k, row, h1, hg, hg2⟩ := (allCells_mem rest (i0 + 1) c).1 h
      exact ⟨k + 1, row, by omega, by simpa using hg, hg2⟩
    · rintro ⟨k, row, h1, hg, hg2⟩
      cases k with
      | zero => simp at hg
      | succ k =>
        exact (allCells_mem rest (i0 + 1) c).2
          ⟨k, row, by omega, by simpa using hg, hg2⟩
  | some row0 :: rest, i0, c => by
    constructor
    · intro h
      rcases List.mem_append.1
          (show c ∈ rowCells i0 0 row0 ++ allCells (i0 + 1) rest from h) with
        h | h
      · obtain ⟨h1, k, hk, hg⟩ := (rowCells_mem i0 row0 0 c).1 h
        refine ⟨0, row0, by omega, by simp, ?_⟩
        have hkc : k = c.2.1 := by omega
        rwa [hkc] at hg
      · obtain ⟨k, row, h1, hg, hg2⟩ := (allCells_mem rest (i0 + 1) c).1 h
        exact ⟨k + 1, row, by omega, by simpa using hg, hg2⟩
    · rintro ⟨k, row, h1, hg, hg2⟩
      cases k with
      | zero =>
        have hrow : row = row0 := by simpa using hg.symm
        subst hrow
        exact show c ∈ rowCells i0 0 row ++ allCells (i0 + 1) rest from
          List.mem_append_left _
            ((rowCells_mem i0 row 0 c).2 ⟨by omega, c.2.1, by omega, hg2⟩)
      | succ k =>
        exact show c ∈ rowCells i0 0 row0 ++ allCells (i0 + 1) rest from
          List.mem_append_right _
            ((allCells_mem rest (i0 + 1) c).2
              ⟨k, row, by omega, by simpa using hg, hg2⟩)

/-- Membership in the scan-order cell list is exactly liveness. -/
theorem allCells_live (mx : List (Option (List (Option Nat))))
    (c : Nat × Nat × Nat) :
    c ∈ allCells 0 mx ↔ liveCell mx c.1 c.2.1 c.2.2 := by
  rw [allCells_mem mx 0 c, liveCell]
  constructor
  · rintro ⟨k, row, h1, hg, hg2⟩
    refine ⟨row, ?_, hg2⟩
    have : k = c.1 := by omega
    rwa [this] at hg
  · rintro ⟨row, hg, hg2⟩
    exact ⟨c.1, row, by omega, hg, hg2⟩

theorem rowCells_pairwise (i : Nat) : ∀ (row : List (Option Nat))
    (j0 : Nat), (rowCells i j0 row).Pairwise cellLex
  | [], _ => List.Pairwise.nil
  | none :: rest, j0 => rowCells_pairwise i rest (j0 + 1)
  | some w :: rest, j0 => by
    refine show ((i, j0, w) :: rowCells i (j0 + 1) rest).Pairwise cellLex from
      List.Pairwise.cons ?_ (rowCells_pairwise i rest (j0 + 1))
    intro c hc
    obtain ⟨h1, k, hk, -⟩ := (rowCells_mem i rest (j0 + 1) c).1 hc
    exact Or.inr ⟨h1.symm, show j0 < c.2.1 by omega⟩

theorem allCells_pairwise : ∀ (mx : List (Option (List (Option Nat))))
    (i0 : Nat), (allCells i0 mx).Pairwise cellLex
  | [], _ => List.Pairwise.nil
  | none :: rest, i0 => allCells_pairwise rest (i0 + 1)
  | some row :: rest, i0 => by
    refine show (rowCells i0 0 row ++ allCells (i0 + 1) rest).Pairwise
        cellLex from
      List.pairwise_append.2
        ⟨rowCells_pairwise i0 row 0, allCells_pairwise rest (i0 + 1), ?_⟩
    intro a ha b hb
    obtain ⟨ha1, -⟩ := (rowCells_mem i0 row 0 a).1 ha
    obtain ⟨k, r, hb1, -, -⟩ := (allCells_mem rest (i0 + 1) b).1 hb
    exact Or.inl (show a.1 < b.1 by omega)

theorem pairwise_split {R : (Nat × Nat × Nat) → (Nat × Nat × Nat) → Prop}
    {L pre post : List (Nat × Nat × Nat)} {t : Nat × Nat × Nat}
    (hL : L.Pairwise R) (h : L = pre ++ t :: post) :
    ∀ c ∈ post, R t c := by
  subst h
  exact (List.pairwise_cons.1 (List.pairwise_append.1 hL).2.1).1

/-- `_minmatrix` returns None exactly when the matrix has no live cell. -/
theorem minmatrix_spec_none (mx : List (Option (List (Option Nat)))) :
    minmatrix mx = none ↔ ∀ i j v, ¬ liveCell mx i j v := by
  rw [minmatrix, minRows_eq_fold]
  constructor
  · intro h i j v hv
    rcases hfold : (allCells 0 mx).foldl mmStep none with _ | t
    · have hnil := ((foldMin_spec (allCells 0 mx) none).1.1 hfold).2
      have hmem := (allCells_live mx (i, j, v)).2 hv
      rw [hnil] at hmem
      exact absurd hmem (List.not_mem_nil _)
    · rw [hfold] at h
      simp at h
  · intro h
    have hnil : allCells 0 mx = [] := by
      cases hA : allCells 0 mx with
      | nil => rfl
      | cons a as =>
        have ha : a ∈ allCells 0 mx := by
          rw [hA]; exact List.mem_cons_self _ _
        exact absurd ((allCells_live mx a).1 ha) (h a.1 a.2.1 a.2.2)
    rw [(foldMin_spec (allCells 0 mx) none).1.2 ⟨rfl, hnil⟩]
    rfl

/-- `_minmatrix` returns the coordinates of a live cell of minimum value,
breaking ties by the lowest row and then the lowest column. -/
theorem minmatrix_spec_some (mx : List (Option (List (Option Nat))))
    (i j : Nat) (h : minmatrix mx = some (i, j)) :
    ∃ v, liveCell mx i j v ∧ ∀ i' j' v', liveCell mx i' j' v' →
      v < v' ∨ (v = v' ∧ (i < i' ∨ (i = i' ∧ j ≤ j'))) := by
  rw [minmatrix, minRows_eq_fold] at h
  rcases hfold : (allCells 0 mx).foldl mmStep none with _ | t
  · rw [hfold] at h; simp at h
  · rw [hfold] at h
    obtain ⟨t1, t2, t3⟩ := t
    have hij : t1 = i ∧ t2 = j := by
      have h2 : ((t1, t2, t3).1, (t1, t2, t3).2.1) = (i, j) := by
        simpa using h
      simpa using h2
    obtain ⟨hi1, hj1⟩ := hij
    subst hi1; subst hj1
    obtain ⟨pre, post, hlist, hpre, hpost⟩ :=
      (foldMin_spec (allCells 0 mx) none).2 _ hfold
    have hlist2 : allCells 0 mx = pre ++ (t1, t2, t3) :: post := by
      simpa using hlist
    have htmem : (t1, t2, t3) ∈ allCells 0 mx := by
      rw [hlist2]
      exact List.mem_append_right _ (List.mem_cons_self _ _)
    refine ⟨t3, (allCells_live mx (t1, t2, t3)).1 htmem, ?_⟩
    intro i' j' v' hv'
    have hmem := (allCells_live mx (i', j', v')).2 hv'
    rw [hlist2] at hmem
    rcases List.mem_append.1 hmem with hm | hm
    · exact Or.inl (hpre _ hm)
    · rcases List.mem_cons.1 hm with heq | hm
      · obtain ⟨e1, e2, e3⟩ : i' = t1 ∧ j' = t2 ∧ v' = t3 := by
          simpa using heq
        subst e1; subst e2; subst e3
        exact Or.inr ⟨rfl, Or.inr ⟨rfl, le_refl _⟩⟩
      · have hle : t3 ≤ v' := hpost _ hm
        rcases lt_or_eq_of_le hle with hlt | heq
        · exact Or.inl hlt
        · have hlex := pairwise_split (allCells_pairwise mx 0) hlist2 _ hm
          rcases hlex with h1 | ⟨h1, h2⟩
          · exact Or.inr ⟨heq, Or.inl h1⟩
          · exact Or.inr ⟨heq, Or.inr ⟨h1, le_of_lt h2⟩⟩

/-! ### List matcher: invariants of the three passes -/

theorem get?_set_self {β : Type _} : ∀ (l : List β) (i : Nat) (a : β),
    i < l.length → (l.set i a).get? i = some a
  | [], _, _, h => absurd h (by simp)
  | _ :: _, 0, _, _ => rfl
  | _ :: l, i + 1, a, h =>
    get?_set_self l i a (by simp only [List.length_cons] at h; omega)

theorem get?_set_other {β : Type _} : ∀ (l : List β) (i k : Nat) (a : β),
    i ≠ k → (l.set i a).get? k = l.get? k
  | [], _, _, _, _ => rfl
  | _ :: _, 0, 0, _, h => absurd rfl h
  | _ :: _, 0, _ + 1, _, _ => rfl
  | _ :: _, _ + 1, 0, _, _ => rfl
  | _ :: l, i + 1, k + 1, a, h =>
    get?_set_other l i k a fun hh => h (by rw [hh])

theorem get?_some_lt {β : Type _} : ∀ (l : List β) (i : Nat) (a : β),
    l.get? i = some a → i < l.length
  | [], _, _, h => by simp at h
  | _ :: _, 0, _, _ => Nat.succ_pos _
  | _ :: l, i + 1, a, h => Nat.succ_lt_succ (get?_some_lt l i a h)

theorem get?_append_cons {β : Type _} : ∀ (xs : List β) (y : β)
    (zs : List β) (k : Nat),
    (xs ++ y :: zs).get? k =
      if k < xs.length then xs.get? k
      else if k = xs.length then some y
      else zs.get? (k - xs.length - 1)
  | [], y, zs, 0 => by simp
  | [], y, zs, k + 1 => by simp
  | x :: xs, y, zs, 0 => by simp
  | x :: xs, y, zs, k + 1 => by
    have ih := get?_append_cons xs y zs k
    show (xs ++ y :: zs).get? k = _
    rw [ih]
    by_cases h1 : k < xs.length
    · rw [if_pos h1,
        if_pos (show k + 1 < (x :: xs).length by
          simpa using Nat.succ_lt_succ h1)]
      rfl
    · rw [if_neg h1,
        if_neg (show ¬k + 1 < (x :: xs).length by
          simp only [List.length_cons]; omega)]
      by_cases h2 : k = xs.length
      · rw [if_pos h2,
          if_pos (show k + 1 = (x :: xs).length by
            simp only [List.length_cons]; omega)]
      · rw [if_neg h2,
          if_neg (show ¬k + 1 = (x :: xs).length by
            simp only [List.length_cons]; omega)]
        congr 1
        simp only [List.length_cons]
        omega

theorem blankColAll_length (j : Nat)
    (mx : List (Option (List (Option Nat)))) :
    (blankColAll j mx).length = mx.length := by
  simp [blankColAll]

theorem blankColAll_get? (j : Nat) (mx : List (Option (List (Option Nat))))
    (k : Nat) :
    (blankColAll j mx).get? k =
      (mx.get? k).map (Option.map fun row => row.set j none) := by
  simp [blankColAll, List.get?_map]

theorem fillRowFast_len (dist : α → α → Bool → Option Nat) (bi : α) :
    ∀ (os : List α) (om : List Nat) (j : Nat),
      (fillRowFast dist bi os om j).1.length = os.length
  | [], _, _ => rfl
  | o :: rest, om, j => by
    simp only [fillRowFast]
    by_cases hc : om.contains j = true
    · rw [if_pos hc]
      show (none :: (fillRowFast dist bi rest om (j + 1)).1).length = _
      simp [fillRowFast_len dist bi rest om (j + 1)]
    · rw [if_neg hc]
      by_cases hd : dist bi o true = some 0
      · rw [if_pos hd]
        simp
      · rw [if_neg hd]
        show (dist bi o true :: (fillRowFast dist bi rest om (j + 1)).1).length
          = _
        simp [fillRowFast_len dist bi rest om (j + 1)]

theorem fillRowFast_bound (dist : α → α → Bool → Option Nat) (bi : α) :
    ∀ (os : List α) (om : List Nat) (j0 j : Nat),
      (fillRowFast dist bi os om j0).2 = some j →
      j0 ≤ j ∧ j < j0 + os.length
  | [], _, _, _ => by
    intro h
    simp [fillRowFast] at h
  | o :: rest, om, j0, j => by
    intro h
    simp only [fillRowFast] at h
    by_cases hc : om.contains j0 = true
    · rw [if_pos hc] at h
      have h2 : (fillRowFast dist bi rest om (j0 + 1)).2 = some j := h
      have ih := fillRowFast_bound dist bi rest om (j0 + 1) j h2
      refine ⟨by omega, ?_⟩
      simp only [List.length_cons]
      omega
    · rw [if_neg hc] at h
      by_cases hd : dist bi o true = some 0
      · rw [if_pos hd] at h
        have hj : j0 = j := by simpa using h
        refine ⟨by omega, ?_⟩
        simp only [List.length_cons]
        omega
      · rw [if_neg hd] at h
        have h2 : (fillRowFast dist bi rest om (j0 + 1)).2 = some j := h
        have ih := fillRowFast_bound dist bi rest om (j0 + 1) j h2
        refine ⟨by omega, ?_⟩
        simp only [List.length_cons]
        omega

theorem slowRow_len (dist : α → α → Bool → Option Nat) (bi : α) :
    ∀ (os : List α) (cs : List (Option Nat)) (j : Nat),
      cs.length = os.length → (slowRow dist bi os cs j).1.length = os.length
  | o :: orest, c :: crest, j => by
    intro hlen
    simp only [slowRow]
    by_cases h2 : (if c.isSome then dist bi o false else c) = some 0
    · rw [if_pos h2]
      show ((if c.isSome then dist bi o false else c) :: crest).length = _
      simp only [List.length_cons] at hlen ⊢
      omega
    · rw [if_neg h2]
      show ((if c.isSome then dist bi o false else c) ::
        (slowRow dist bi orest crest (j + 1)).1).length = _
      simp only [List.length_cons] at hlen ⊢
      rw [slowRow_len dist bi orest crest (j + 1) (by omega)]
  | [], cs, j => by
    intro _
    cases cs <;> rfl
  | o :: orest, [], j => by
    intro hlen
    simp at hlen

theorem slowRow_bound (dist : α → α → Bool → Option Nat) (bi : α) :
    ∀ (os : List α) (cs : List (Option Nat)) (j0 j : Nat),
      (slowRow dist bi os cs j0).2 = some j → j0 ≤ j ∧ j < j0 + os.length
  | o :: orest, c :: crest, j0, j => by
    intro h
    simp only [slowRow] at h
    by_cases h2 : (if c.isSome then dist bi o false else c) = some 0
    · rw [if_pos h2] at h
      have hj : j0 = j := by simpa using h
      refine ⟨by omega, ?_⟩
      simp only [List.length_cons]
      omega
    · rw [if_neg h2] at h
      have h3 : (slowRow dist bi orest crest (j0 + 1)).2 = some j := h
      have ih := slowRow_bound dist bi orest crest (j0 + 1) j h3
      refine ⟨by omega, ?_⟩
      simp only [List.length_cons]
      omega
  | [], cs, j0, j => by
    intro h
    have hz : slowRow dist bi ([] : List α) cs j0 = ([], none) := by
      cases cs <;> rfl
    rw [hz] at h
    simp at h
  | o :: orest, [], j0, j => by
    intro h
    have hz : slowRow dist bi (o :: orest) ([] : List (Option Nat)) j0 =
        ([], none) := rfl
    rw [hz] at h
    simp at h

theorem mlWF_restrict (n : Nat) (pre rows : List (Option (List (Option Nat))))
    (bm : List (Option Nat)) (om : List Nat)
    (h : mlWF n (pre ++ rows) bm om) : mlWF n pre bm om := by
  obtain ⟨hA, hB, hC, hE⟩ := h
  refine ⟨hA, hB, ?_, ?_⟩
  · intro k row hk
    have hlt : k < pre.length := get?_some_lt _ _ _ hk
    exact hC k row (by rw [List.get?_append hlt]; exact hk)
  · intro k row hk
    have hlt : k < pre.length := get?_some_lt _ _ _ hk
    exact hE k row (by rw [List.get?_append hlt]; exact hk)

/-- Pass 1 preserves the matcher invariant, keeps `base_matches` aligned
with the matrix, and appends one entry per base element. -/
theorem phase1_wf (dist : α → α → Bool → Option Nat) (other : List α) :
    ∀ (bs : List α) (st : MLState),
      mlWF other.length st.mx st.bm st.om → st.bm.length = st.mx.length →
      mlWF other.length (phase1 dist other bs st).mx
          (phase1 dist other bs st).bm (phase1 dist other bs st).om ∧
        (phase1 dist other bs st).bm.length =
          (phase1 dist other bs st).mx.length ∧
        (phase1 dist other bs st).bm.length = st.bm.length + bs.length
  | [], st => by
    intro hwf hlen
    exact ⟨hwf, hlen, by simp [phase1]⟩
  | b :: rest, st => by
    intro hwf hlen
    obtain ⟨hA, hB, hC, hE⟩ := hwf
    rcases hfr : fillRowFast dist b other st.om 0 with ⟨row, mj⟩
    have hrowlen : row.length = other.length := by
      have h := fillRowFast_len dist b other st.om 0
      rw [hfr] at h
      exact h
    rcases mj with _ | j
    · -- no fast exact match: record the row
      have hstep : phase1 dist other (b :: rest) st =
          phase1 dist other rest
            { bm := st.bm ++ [none], om := st.om
              mx := st.mx ++ [some row] } := by
        simp only [phase1, hfr]
      rw [hstep]
      have hwf' : mlWF other.length (st.mx ++ [some row]) (st.bm ++ [none])
          st.om := by
        refine ⟨?_, hB, ?_, ?_⟩
        · intro j'
          rw [hA j', List.mem_append]
          simp
        · intro k row' hk
          rw [get?_append_cons] at hk
          split_ifs at hk with h1 h2
          · have h3 := hC k row' hk
            have h4 : k < st.bm.length := get?_some_lt _ _ _ h3
            rw [List.get?_append h4]
            exact h3
          · rw [get?_append_cons, if_neg (by omega),
              if_pos (by omega : k = st.bm.length)]
          · simp at hk
        · intro k row' hk
          rw [get?_append_cons] at hk
          split_ifs at hk with h1 h2
          · exact hE k row' hk
          · have : row = row' := by simpa using hk
            rw [← this]
            exact hrowlen
          · simp at hk
      have hlen' : (st.bm ++ [none]).length = (st.mx ++ [some row]).length :=
        by simp [hlen]
      have ih := phase1_wf dist other rest
        { bm := st.bm ++ [none], om := st.om, mx := st.mx ++ [some row] }
        hwf' hlen'
      refine ⟨ih.1, ih.2.1, ?_⟩
      rw [ih.2.2]
      simp only [List.length_append, List.length_cons, List.length_nil]
      omega
    · -- fast exact match at column j (phase 1)
      have hstep : phase1 dist other (b :: rest) st =
          phase1 dist other rest
            { bm := st.bm ++ [some j], om := st.om ++ [j]
              mx := blankColAll j st.mx ++ [none] } := by
        simp only [phase1, hfr]
      rw [hstep]
      have hjlt : j < other.length := by
        have h := fillRowFast_bound dist b other st.om 0 j
          (by rw [hfr])
        omega
      have hwf' : mlWF other.length (blankColAll j st.mx ++ [none])
          (st.bm ++ [some j]) (st.om ++ [j]) := by
        refine ⟨?_, ?_, ?_, ?_⟩
        · intro j'
          rw [List.mem_append, List.mem_append, hA j']
          simp
        · intro j' hj'
          rcases List.mem_append.1 hj' with h | h
          · exact hB j' h
          · have : j' = j := by simpa using h
            rw [this]
            exact hjlt
        · intro k row' hk
          rw [show blankColAll j st.mx ++ [none] =
              blankColAll j st.mx ++ none :: [] from rfl,
            get?_append_cons, blankColAll_length] at hk
          split_ifs at hk with h1 h2
          · rw [blankColAll_get?] at hk
            rcases hmk : st.mx.get? k with _ | orow
            · rw [hmk] at hk; simp at hk
            · rw [hmk] at hk
              rcases orow with _ | row0
              · simp at hk
              · have h3 := hC k row0 hmk
                have h4 : k < st.bm.length := get?_some_lt _ _ _ h3
                rw [List.get?_append h4]
                exact h3
          · simp at hk
          · simp at hk
        · intro k row' hk
          rw [show blankColAll j st.mx ++ [none] =
              blankColAll j st.mx ++ none :: [] from rfl,
            get?_append_cons, blankColAll_length] at hk
          split_ifs at hk with h1 h2
          · rw [blankColAll_get?] at hk
            rcases hmk : st.mx.get? k with _ | orow
            · rw [hmk] at hk; simp at hk
            · rw [hmk] at hk
              rcases orow with _ | row0
              · simp at hk
              · have h3 : row0.set j none = row' := by simpa using hk
                rw [← h3, List.length_set]
                exact hE k row0 hmk
          · simp at hk
          · simp at hk
      have hlen' : (st.bm ++ [some j]).length =
          (blankColAll j st.mx ++ [none]).length := by
        simp [hlen, blankColAll_length]
      have ih := phase1_wf dist other rest
        { bm := st.bm ++ [some j], om := st.om ++ [j]
          mx := blankColAll j st.mx ++ [none] } hwf' hlen'
      refine ⟨ih.1, ih.2.1, ?_⟩
      rw [ih.2.2]
      simp only [List.length_append, List.length_cons, List.length_nil]
      omega

/-- Pass 2 preserves the matcher invariant and the length of
`base_matches`. -/
theorem phase2_wf (dist : α → α → Bool → Option Nat) (other : List α) :
    ∀ (bs : List α) (rows pre : List (Option (List (Option Nat))))
      (bm : List (Option Nat)) (i : Nat) (om : List Nat),
      i = pre.length → mlWF other.length (pre ++ rows) bm om →
      mlWF other.length (phase2 dist other bs rows pre bm i om).mx
          (phase2 dist other bs rows pre bm i om).bm
          (phase2 dist other bs rows pre bm i om).om ∧
        (phase2 dist other bs rows pre bm i om).bm.length = bm.length
  | [], rows, pre, bm, i, om => by
    intro hi hwf
    exact ⟨mlWF_restrict _ pre rows bm om hwf, rfl⟩
  | b :: brest, rows, pre, bm, i, om => by
    intro hi hwf
    subst hi
    rcases rows with _ | ⟨r, mrest⟩
    · exact ⟨mlWF_restrict _ pre [] bm om hwf, rfl⟩
    · obtain ⟨hA, hB, hC, hE⟩ := hwf
      rcases r with _ | row
      · -- already-blanked row: skip
        have hstep : phase2 dist other (b :: brest) (none :: mrest) pre bm
            pre.length om =
            phase2 dist other brest mrest (pre ++ [none]) bm
              (pre.length + 1) om := rfl
        rw [hstep]
        have hwf2 : mlWF other.length ((pre ++ [none]) ++ mrest) bm om := by
          rw [List.append_assoc]
          exact ⟨hA, hB, hC, hE⟩
        have hi2 : pre.length + 1 = (pre ++ [none]).length := by simp
        have ih := phase2_wf dist other brest mrest (pre ++ [none]) bm
          (pre.length + 1) om hi2 hwf2
        exact ih
      · -- live row: recompute with the slow distance
        have hMi : (pre ++ some row :: mrest).get? pre.length =
            some (some row) := by
          rw [get?_append_cons, if_neg (lt_irrefl _), if_pos rfl]
        have hrowlen : row.length = other.length := hE pre.length row hMi
        rcases hsr : slowRow dist b other row 0 with ⟨row2, mj⟩
        have hrow2len : row2.length = other.length := by
          have h5 := slowRow_len dist b other row 0 (by rw [hrowlen])
          rw [hsr] at h5
          exact h5
        rcases mj with _ | j
        · -- no slow exact match: keep the recomputed row
          have hstep : phase2 dist other (b :: brest) (some row :: mrest) pre
              bm pre.length om =
              phase2 dist other brest mrest (pre ++ [some row2]) bm
                (pre.length + 1) om := by
            simp only [phase2, hsr]
          rw [hstep]
          have hwfX : mlWF other.length (pre ++ some row2 :: mrest) bm om := by
            refine ⟨hA, hB, ?_, ?_⟩
            · intro k row' hk
              rw [get?_append_cons] at hk
              split_ifs at hk with h1 h2
              · exact hC k row' (by rw [get?_append_cons, if_pos h1]; exact hk)
              · exact hC k row
                  (by rw [get?_append_cons, if_neg h1, if_pos h2])
              · exact hC k row'
                  (by rw [get?_append_cons, if_neg h1, if_neg h2]; exact hk)
            · intro k row' hk
              rw [get?_append_cons] at hk
              split_ifs at hk with h1 h2
              · exact hE k row' (by rw [get?_append_cons, if_pos h1]; exact hk)
              · have h6 : row2 = row' := by simpa using hk
                rw [← h6]
                exact hrow2len
              · exact hE k row'
                  (by rw [get?_append_cons, if_neg h1, if_neg h2]; exact hk)
          have hwf2 : mlWF other.length ((pre ++ [some row2]) ++ mrest) bm
              om := by
            rw [List.append_assoc]
            exact hwfX
          have hi2 : pre.length + 1 = (pre ++ [some row2]).length := by simp
          have ih := phase2_wf dist other brest mrest (pre ++ [some row2]) bm
            (pre.length + 1) om hi2 hwf2
          exact ih
        · -- slow exact match at column j: blank row and column
          have hstep : phase2 dist other (b :: brest) (some row :: mrest) pre
              bm pre.length om =
              phase2 dist other brest (blankColAll j mrest)
                (blankColAll j pre ++ [none]) (bm.set pre.length (some j))
                (pre.length + 1) (om ++ [j]) := by
            simp only [phase2, hsr]
          rw [hstep]
          have hbmi : bm.get? pre.length = some none := hC pre.length row hMi
          have hilt : pre.length < bm.length := get?_some_lt _ _ _ hbmi
          have hjlt : j < other.length := by
            have h6 := slowRow_bound dist b other row 0 j (by rw [hsr])
            omega
          have hwfX : mlWF other.length
              (blankColAll j pre ++ none :: blankColAll j mrest)
              (bm.set pre.length (some j)) (om ++ [j]) := by
            refine ⟨?_, ?_, ?_, ?_⟩
            · intro j'
              constructor
              · intro hj'
                rcases List.mem_append.1 hj' with h | h
                · have hbm := (hA j').1 h
                  obtain ⟨k, hk⟩ := List.mem_iff_get?.1 hbm
                  have hki : k ≠ pre.length := by
                    intro hkk
                    rw [hkk, hbmi] at hk
                    simp at hk
                  exact List.mem_iff_get?.2 ⟨k, by
                    rw [get?_set_other bm pre.length k (some j)
                      fun hh => hki hh.symm]
                    exact hk⟩
                · have hjj : j' = j := by simpa using h
                  subst hjj
                  exact List.mem_iff_get?.2 ⟨pre.length,
                    get?_set_self bm pre.length (some j') hilt⟩
              · intro hj'
                obtain ⟨k, hk⟩ := List.mem_iff_get?.1 hj'
                by_cases hki : k = pre.length
                · rw [hki, get?_set_self bm pre.length (some j) hilt] at hk
                  have hjj : j = j' := by simpa using hk
                  exact List.mem_append.2 (Or.inr (List.mem_singleton.2
                    hjj.symm))
                · rw [get?_set_other bm pre.length k (some j)
                    fun hh => hki hh.symm] at hk
                  exact List.mem_append.2
                    (Or.inl ((hA j').2 (List.mem_iff_get?.2 ⟨k, hk⟩)))
            · intro j' hj'
              rcases List.mem_append.1 hj' with h | h
              · exact hB j' h
              · have hjj : j' = j := by simpa using h
                rw [hjj]
                exact hjlt
            · intro k row' hk
              rw [get?_append_cons, blankColAll_length] at hk
              split_ifs at hk with h1 h2
              · rw [blankColAll_get?] at hk
                rcases hmk : pre.get? k with _ | orow
                · rw [hmk] at hk; simp at hk
                · rw [hmk] at hk
                  rcases orow with _ | row0
                  · simp at hk
                  · have h3 := hC k row0
                      (by rw [get?_append_cons, if_pos h1]; exact hmk)
                    rw [get?_set_other bm pre.length k (some j) (by omega)]
                    exact h3
              · simp at hk
              · rw [blankColAll_get?] at hk
                rcases hmk : mrest.get? (k - pre.length - 1) with _ | orow
                · rw [hmk] at hk; simp at hk
                · rw [hmk] at hk
                  rcases orow with _ | row0
                  · simp at hk
                  · have h3 := hC k row0
                      (by rw [get?_append_cons, if_neg h1, if_neg h2]
                          exact hmk)
                    rw [get?_set_other bm pre.length k (some j) (by omega)]
                    exact h3
            · intro k row' hk
              rw [get?_append_cons, blankColAll_length] at hk
              split_ifs at hk with h1 h2
              · rw [blankColAll_get?] at hk
                rcases hmk : pre.get? k with _ | orow
                · rw [hmk] at hk; simp at hk
                · rw [hmk] at hk
                  rcases orow with _ | row0
                  · simp at hk
                  · have h3 : row0.set j none = row' := by simpa using hk
                    rw [← h3, List.length_set]
                    exact hE k row0
                      (by rw [get?_append_cons, if_pos h1]; exact hmk)
              · simp at hk
              · rw [blankColAll_get?] at hk
                rcases hmk : mrest.get? (k - pre.length - 1) with _ | orow
                · rw [hmk] at hk; simp at hk
                · rw [hmk] at hk
                  rcases orow with _ | row0
                  · simp at hk
                  · have h3 : row0.set j none = row' := by simpa using hk
                    rw [← h3, List.length_set]
                    exact hE k row0
                      (by rw [get?_append_cons, if_neg h1, if_neg h2]
                          exact hmk)
          have hwf2 : mlWF other.length
              ((blankColAll j pre ++ [none]) ++ blankColAll j mrest)
              (bm.set pre.length (some j)) (om ++ [j]) := by
            rw [List.append_assoc]
            exact hwfX
          have hi2 : pre.length + 1 =
              (blankColAll j pre ++ [none]).length := by
            simp [blankColAll_length]
          have ih := phase2_wf dist other brest (blankColAll j mrest)
            (blankColAll j pre ++ [none]) (bm.set pre.length (some j))
            (pre.length + 1) (om ++ [j]) hi2 hwf2
          exact ⟨ih.1, by rw [ih.2, List.length_set]⟩

/-- Pass 3 (the greedy loop) preserves the column/`base_matches`
correspondence, the column bound, and the length of `base_matches`,
whatever the fuel. -/
theorem phase3_wf : ∀ (fuel : Nat) (mx : List (Option (List (Option Nat))))
    (bm : List (Option Nat)) (om : List Nat) (n : Nat),
    mlWF n mx bm om →
    (∀ j, j ∈ (phase3 fuel mx bm om).2 ↔ some j ∈ (phase3 fuel mx bm om).1) ∧
      (∀ j, j ∈ (phase3 fuel mx bm om).2 → j < n) ∧
      (phase3 fuel mx bm om).1.length = bm.length
  | 0, mx, bm, om, n => fun hwf => ⟨hwf.1, hwf.2.1, rfl⟩
  | fuel + 1, mx, bm, om, n => by
    intro hwf
    obtain ⟨hA, hB, hC, hE⟩ := hwf
    rcases hmm : minmatrix mx with _ | ⟨i, j⟩
    · have hstep : phase3 (fuel + 1) mx bm om = (bm, om) := by
        simp only [phase3, hmm]
      rw [hstep]
      exact ⟨hA, hB, rfl⟩
    · have hstep : phase3 (fuel + 1) mx bm om =
          phase3 fuel (blankColAll j (mx.set i none)) (bm.set i (some j))
            (om ++ [j]) := by
        simp only [phase3, hmm]
      rw [hstep]
      obtain ⟨v, hlive, -⟩ := minmatrix_spec_some mx i j hmm
      obtain ⟨row, hMi, hrj⟩ := hlive
      have hbmi : bm.get? i = some none := hC i row hMi
      have hilt : i < bm.length := get?_some_lt _ _ _ hbmi
      have hiM : i < mx.length := get?_some_lt _ _ _ hMi
      have hjn : j < n := by
        have hjr : j < row.length := get?_some_lt _ _ _ hrj
        have h6 := hE i row hMi
        omega
      have hwf2 : mlWF n (blankColAll j (mx.set i none)) (bm.set i (some j))
          (om ++ [j]) := by
        refine ⟨?_, ?_, ?_, ?_⟩
        · intro j'
          constructor
          · intro hj'
            rcases List.mem_append.1 hj' with h | h
            · have hbm := (hA j').1 h
              obtain ⟨k, hk⟩ := List.mem_iff_get?.1 hbm
              have hki : k ≠ i := by
                intro hkk
                rw [hkk, hbmi] at hk
                simp at hk
              exact List.mem_iff_get?.2 ⟨k, by
                rw [get?_set_other bm i k (some j) fun hh => hki hh.symm]
                exact hk⟩
            · have hjj : j' = j := by simpa using h
              subst hjj
              exact List.mem_iff_get?.2 ⟨i, get?_set_self bm i (some j') hilt⟩
          · intro hj'
            obtain ⟨k, hk⟩ := List.mem_iff_get?.1 hj'
            by_cases hki : k = i
            · rw [hki, get?_set_self bm i (some j) hilt] at hk
              have hjj : j = j' := by simpa using hk
              exact List.mem_append.2 (Or.inr (List.mem_singleton.2 hjj.symm))
            · rw [get?_set_other bm i k (some j) fun hh => hki hh.symm] at hk
              exact List.mem_append.2
                (Or.inl ((hA j').2 (List.mem_iff_get?.2 ⟨k, hk⟩)))
        · intro j' hj'
          rcases List.mem_append.1 hj' with h | h
          · exact hB j' h
          · have hjj : j' = j := by simpa using h
            rw [hjj]
            exact hjn
        · intro k row' hk
          rw [blankColAll_get?] at hk
          by_cases hki : i = k
          · rw [← hki, get?_set_self mx i none hiM] at hk
            simp at hk
          · rw [get?_set_other mx i k none hki] at hk
            rcases hmk : mx.get? k with _ | orow
            · rw [hmk] at hk; simp at hk
            · rw [hmk] at hk
              rcases orow with _ | row0
              · simp at hk
              · have h3 := hC k row0 hmk
                rw [get?_set_other bm i k (some j) hki]
                exact h3
        · intro k row' hk
          rw [blankColAll_get?] at hk
          by_cases hki : i = k
          · rw [← hki, get?_set_self mx i none hiM] at hk
            simp at hk
          · rw [get?_set_other mx i k none hki] at hk
            rcases hmk : mx.get? k with _ | orow
            · rw [hmk] at hk; simp at hk
            · rw [hmk] at hk
              rcases orow with _ | row0
              · simp at hk
              · have h3 : row0.set j none = row' := by simpa using hk
                rw [← h3, List.length_set]
                exact hE k row0 hmk
      have ih := phase3_wf fuel (blankColAll j (mx.set i none))
        (bm.set i (some j)) (om ++ [j]) n hwf2
      exact ⟨ih.1, ih.2.1, by rw [ih.2.2, List.length_set]⟩

/-- C6: in the greedy phase, `_minmatrix` selects, among the live cells of
the distance matrix, one of minimum value, breaking ties by lowest row and
then lowest column (and returns None exactly when no live cell remains);
`matchlists` is a function whose result is the base-aligned match list —
unmatched base positions come back as None (removals) — followed by the
unmatched `other` elements, in ascending index order, as additions: the
appended columns are exactly those recorded in no base match entry, and
every match column indexes into `other`. -/
theorem matchlists_greedy_min :
    (∀ (mx : List (Option (List (Option Nat)))),
      minmatrix mx = none ↔ ∀ i j v, ¬liveCell mx i j v) ∧
    (∀ (mx : List (Option (List (Option Nat)))) (i j : Nat),
      minmatrix mx = some (i, j) →
      ∃ v, liveCell mx i j v ∧ ∀ i' j' v', liveCell mx i' j' v' →
        v < v' ∨ (v = v' ∧ (i < i' ∨ (i = i' ∧ j ≤ j')))) ∧
    (∀ (α : Type) (dist : α → α → Bool → Option Nat) (base other : List α),
      ∃ (bm : List (Option Nat)) (om : List Nat),
        bm.length = base.length ∧
        (∀ j, j ∈ om ↔ some j ∈ bm) ∧
        (∀ j, j ∈ om → j < other.length) ∧
        matchlists dist base other =
          bm.map (fun o => o.bind other.get?) ++
            (((List.range other.length).filter
                fun j => !(om.contains j)).filterMap
              fun j => other.get? j).map some) := by
  refine ⟨minmatrix_spec_none, minmatrix_spec_some, ?_⟩
  intro α dist base other
  have h0 : mlWF other.length ([] : List (Option (List (Option Nat))))
      ([] : List (Option Nat)) ([] : List Nat) := by
    refine ⟨?_, ?_, ?_, ?_⟩ <;> simp
  obtain ⟨hwf1, hlen1, hcnt1⟩ :=
    phase1_wf dist other base ⟨[], [], []⟩ h0 rfl
  obtain ⟨hwf2, hlen2⟩ :=
    phase2_wf dist other base (phase1 dist other base ⟨[], [], []⟩).mx []
      (phase1 dist other base ⟨[], [], []⟩).bm 0
      (phase1 dist other base ⟨[], [], []⟩).om rfl hwf1
  obtain ⟨hA3, hB3, hlen3⟩ :=
    phase3_wf
      ((phase2 dist other base (phase1 dist other base ⟨[], [], []⟩).mx []
          (phase1 dist other base ⟨[], [], []⟩).bm 0
          (phase1 dist other base ⟨[], [], []⟩).om).mx.length + 1)
      (phase2 dist other base (phase1 dist other base ⟨[], [], []⟩).mx []
        (phase1 dist other base ⟨[], [], []⟩).bm 0
        (phase1 dist other base ⟨[], [], []⟩).om).mx
      (phase2 dist other base (phase1 dist other base ⟨[], [], []⟩).mx []
        (phase1 dist other base ⟨[], [], []⟩).bm 0
        (phase1 dist other base ⟨[], [], []⟩).om).bm
      (phase2 dist other base (phase1 dist other base ⟨[], [], []⟩).mx []
        (phase1 dist other base ⟨[], [], []⟩).bm 0
        (phase1 dist other base ⟨[], [], []⟩).om).om
      other.length hwf2
  refine ⟨_, _, ?_, hA3, hB3, rfl⟩
  rw [hlen3, hlen2, hcnt1]
  simp

/-- C6, witness: on the matrix `[[5, 3], [3, 9]]` the greedy selector picks
the live cell of value 3, and of the two cells holding 3 it prefers the one
in the lower row (row 0, column 1). -/
theorem matchlists_greedy_min_witness :
    ∃ v, liveCell [some [some 5, some 3], some [some 3, some 9]] 0 1 v ∧
      ∀ i' j' v',
        liveCell [some [some 5, some 3], some [some 3, some 9]] i' j' v' →
        v < v' ∨ (v = v' ∧ (0 < i' ∨ (0 = i' ∧ 1 ≤ j'))) :=
  matchlists_greedy_min.2.1 [some [some 5, some 3], some [some 3, some 9]]
    0 1 rfl

/-! ### Three-way merge: dictionary lemmas -/

theorem lookup_some_mem {α : Type _} :
    ∀ (props : List (String × Option α)) (k : String) (v : Option α),
      props.lookup k = some v → (k, v) ∈ props
  | [], k, v => by simp [List.lookup]
  | (a, b) :: rest, k, v => by
    intro h
    rw [List.lookup_cons] at h
    by_cases hk : k = a
    · rw [show (k == a) = true from beq_iff_eq.2 hk] at h
      have h2 : some b = some v := h
      simp only [Option.some.injEq] at h2
      rw [hk, ← h2]
      exact List.mem_cons_self _ _
    · rw [show (k == a) = false from beq_eq_false_iff_ne.2 hk] at h
      exact List.mem_cons_of_mem _ (lookup_some_mem rest k v h)

theorem lookup_some_contains {α : Type _} :
    ∀ (props : List (String × Option α)) (k : String) (v : Option α),
      props.lookup k = some v → (props.map Prod.fst).contains k
  | [], k, v => by simp [List.lookup]
  | (a, b) :: rest, k, v => by
    intro h
    rw [List.lookup_cons] at h
    by_cases hk : k = a
    · simp [hk]
    · rw [show (k == a) = false from beq_eq_false_iff_ne.2 hk] at h
      have h2 : List.lookup k rest = some v := h
      simp only [List.map_cons, List.contains_cons]
      rw [lookup_some_contains rest k v h2]
      simp

theorem keys_mem_lookup_isSome {α : Type _} :
    ∀ (props : List (String × Option α)) (k : String),
      k ∈ props.map Prod.fst → (props.lookup k).isSome
  | [], k => by simp
  | (a, b) :: rest, k => by
    intro h
    rw [List.lookup_cons]
    by_cases hk : k = a
    · rw [show (k == a) = true from beq_iff_eq.2 hk]
      rfl
    · rw [show (k == a) = false from beq_eq_false_iff_ne.2 hk]
      refine keys_mem_lookup_isSome rest k ?_
      simp only [List.map_cons, List.mem_cons] at h
      exact h.resolve_left hk

theorem mem_lookup_nodup {α : Type _} :
    ∀ (props : List (String × Option α)) (k : String) (v : Option α),
      (props.map Prod.fst).Nodup → (k, v) ∈ props →
      props.lookup k = some v
  | [], k, v => by simp
  | (a, b) :: rest, k, v => by
    intro hnd hm
    rw [List.lookup_cons]
    rcases List.mem_cons.1 hm with heq | hm2
    · obtain ⟨h1, h2⟩ : k = a ∧ v = b := by simpa using heq
      rw [show (k == a) = true from beq_iff_eq.2 h1, h2]
    · have hnd2 : a ∉ rest.map Prod.fst ∧ (rest.map Prod.fst).Nodup := by
        rw [List.map_cons, List.nodup_cons] at hnd
        exact hnd
      have hk : k ≠ a := by
        intro hk
        have hka : a ∈ rest.map Prod.fst := by
          rw [← hk]
          exact List.mem_map_of_mem Prod.fst hm2
        exact hnd2.1 hka
      rw [show (k == a) = false from beq_eq_false_iff_ne.2 hk]
      exact mem_lookup_nodup rest k v hnd2.2 hm2

theorem setProp_lookup_self {α : Type _} :
    ∀ (props : List (String × Option α)) (k : String) (w v : Option α),
      props.lookup k = some w → (setProp props k v).lookup k = some v
  | [], k, w, v => by simp [List.lookup]
  | (a, b) :: rest, k, w, v => by
    intro h
    rw [List.lookup_cons] at h
    by_cases hk : k = a
    · show List.lookup k ((if a = k then (a, v) else (a, b)) ::
        setProp rest k v) = some v
      rw [if_pos hk.symm, List.lookup_cons,
        show (k == a) = true from beq_iff_eq.2 hk]
    · show List.lookup k ((if a = k then (a, v) else (a, b)) ::
        setProp rest k v) = some v
      rw [if_neg (fun hh => hk hh.symm), List.lookup_cons,
        show (k == a) = false from beq_eq_false_iff_ne.2 hk]
      rw [show (k == a) = false from beq_eq_false_iff_ne.2 hk] at h
      exact setProp_lookup_self rest k w v h

theorem setProp_lookup_other {α : Type _} :
    ∀ (props : List (String × Option α)) (k kk : String) (v : Option α),
      kk ≠ k → (setProp props k v).lookup kk = props.lookup kk
  | [], k, kk, v => by simp [setProp, List.lookup]
  | (a, b) :: rest, k, kk, v => by
    intro hne
    show List.lookup kk ((if a = k then (a, v) else (a, b)) ::
      setProp rest k v) = _
    by_cases ha : a = k
    · have hka : kk ≠ a := fun h => hne (h.trans ha)
      rw [if_pos ha, List.lookup_cons, List.lookup_cons,
        show (kk == a) = false from beq_eq_false_iff_ne.2 hka]
      exact setProp_lookup_other rest k kk v hne
    · rw [if_neg ha, List.lookup_cons, List.lookup_cons]
      by_cases hk : kk = a
      · rw [show (kk == a) = true from beq_iff_eq.2 hk]
      · rw [show (kk == a) = false from beq_eq_false_iff_ne.2 hk]
        exact setProp_lookup_other rest k kk v hne

theorem sba_of_unimp_false {α : Type _} (d : DiffL α)
    (h : d.unimportant = false) (m : Nat) :
    d.should_be_applied m = (m.land 1 != 0) := by
  simp [DiffL.should_be_applied, DiffL.is_unimportant, h, ite_self]

theorem sba_three {α : Type _} (d : DiffL α) :
    d.should_be_applied 3 = true := by
  have h2 : (((3 : Nat).land 2 != 0) : Bool) = true := by decide
  have h1 : (((3 : Nat).land 1 != 0) : Bool) = true := by decide
  simp [DiffL.should_be_applied, h2, h1, ite_self]

theorem flatMap_flattenD3 {α : Type _} :
    ∀ dl : List (DiffL α), dl.flatMap (fun d => d.flattenD 3) = dl
  | [] => rfl
  | d :: rest => by
    simp [DiffL.flattenD, sba_three]

theorem setProp_keys {α : Type _} (props : List (String × Option α))
    (k : String) (v : Option α) :
    (setProp props k v).map Prod.fst = props.map Prod.fst := by
  induction props with
  | nil => rfl
  | cons p rest ih =>
    simp only [setProp, List.map_cons] at ih ⊢
    by_cases hp : p.1 = k
    · rw [if_pos hp]
      simpa using ih
    · rw [if_neg hp]
      simpa using ih

/-- The diff list produced by `Comparable.diff`: each entry records a
property of `ps` whose value differs in `other`, in order; properties not
in the list are equal. -/
theorem diffProps_spec {α : Type _} [DecidableEq α] (other : Rec α) :
    ∀ (ps : List (String × Option α)) (t : Nat),
      (∀ k v, (k, v) ∈ ps → (other.props.lookup k).isSome) →
      ∃ dl t2, diffProps other ps t = Except.ok (dl, t2) ∧
        (∀ d ∈ dl, d.unimportant = false ∧ d.old ≠ d.new ∧
          (d.key, d.old) ∈ ps ∧ other.props.lookup d.key = some d.new) ∧
        (dl.map fun d => d.key).Sublist (ps.map Prod.fst) ∧
        (∀ k v, (k, v) ∈ ps → (∀ d ∈ dl, d.key ≠ k) →
          other.props.lookup k = some v)
  | [], t => by
    intro hlk
    exact ⟨[], t, rfl, by simp, by simp, by simp⟩
  | (k, v) :: rest, t => by
    intro hlk
    have hsome := hlk k v (List.mem_cons_self _ _)
    rcases hw : other.props.lookup k with _ | w
    · rw [hw] at hsome; simp at hsome
    · by_cases hvw : v = w
      · obtain ⟨dl, t2, heq, ha, hb, hc⟩ := diffProps_spec other rest t
          (fun k' v' hm => hlk k' v' (List.mem_cons_of_mem _ hm))
        refine ⟨dl, t2, ?_, ?_, ?_, ?_⟩
        · simp only [diffProps, dictGet, hw]
          simp [Bind.bind, Except.bind, hvw, heq]
        · intro d hd
          obtain ⟨h1, h2, h3, h4⟩ := ha d hd
          exact ⟨h1, h2, List.mem_cons_of_mem _ h3, h4⟩
        · refine hb.trans ?_
          simp only [List.map_cons]
          exact List.sublist_cons_self _ _
        · intro k' v' hm hnd
          rcases List.mem_cons.1 hm with heq2 | hm2
          · obtain ⟨e1, e2⟩ : k' = k ∧ v' = v := by simpa using heq2
            rw [e1, hw, e2, hvw]
          · exact hc k' v' hm2 hnd
      · obtain ⟨dl, t2, heq, ha, hb, hc⟩ := diffProps_spec other rest (t + 1)
          (fun k' v' hm => hlk k' v' (List.mem_cons_of_mem _ hm))
        refine ⟨⟨t, k, v, w, false, false⟩ :: dl, t2, ?_, ?_, ?_, ?_⟩
        · simp only [diffProps, dictGet, hw]
          simp [Bind.bind, Except.bind, hvw, heq]
        · intro d hd
          rcases List.mem_cons.1 hd with rfl | hd2
          · exact ⟨rfl, hvw, List.mem_cons_self _ _, hw⟩
          · obtain ⟨h1, h2, h3, h4⟩ := ha d hd2
            exact ⟨h1, h2, List.mem_cons_of_mem _ h3, h4⟩
        · simp only [List.map_cons]
          exact List.Sublist.cons₂ _ hb
        · intro k' v' hm hnd
          rcases List.mem_cons.1 hm with heq2 | hm2
          · obtain ⟨e1, e2⟩ : k' = k ∧ v' = v := by simpa using heq2
            exact absurd e1.symm
              (hnd ⟨t, k, v, w, false, false⟩ (List.mem_cons_self _ _))
          · exact hc k' v' hm2
              (fun d hd => hnd d (List.mem_cons_of_mem _ hd))

/-- Applying a diff list whose old values all match the record and whose
keys are distinct succeeds with no conflicts and assigns every new
value. -/
theorem applylist1_ok {α : Type _} [DecidableEq α] :
    ∀ (dl : List (DiffL α)) (r : Rec α),
      ((dl.map fun d => d.key).Nodup) →
      (∀ d ∈ dl, r.props.lookup d.key = some d.old ∧ d.old ≠ d.new ∧
        d.unimportant = false) →
      applylist 1 dl r = Except.ok (applyAll r dl, dl, [])
  | [], _ => by
    intro _ _
    rfl
  | d :: rest, r => by
    intro hnd hpre
    obtain ⟨hlk, hne, hunimp⟩ := hpre d (List.mem_cons_self _ _)
    have hsba : d.should_be_applied 1 = true := by
      rw [sba_of_unimp_false d hunimp]
      decide
    have happ : Comparable.apply r d.key (d.old, d.new) =
        Except.ok ({ r with props := setProp r.props d.key d.new },
          ApplyRet.okA) := by
      rw [Comparable.apply, if_pos (lookup_some_contains _ _ _ hlk), hlk]
      show (if d.old ≠ (d.old, d.new).1 ∧ d.old ≠ (d.old, d.new).2 then
          Except.ok (r, ApplyRet.conflictK d.key)
        else if d.old = (d.old, d.new).2 then
          Except.ok (r, ApplyRet.redundantA)
        else Except.ok ({ r with
            props := setProp r.props d.key (d.old, d.new).2 },
          ApplyRet.okA)) = _
      rw [if_neg
        (show ¬(d.old ≠ (d.old, d.new).1 ∧ d.old ≠ (d.old, d.new).2) from
          fun h => h.1 rfl)]
      rw [if_neg (show ¬d.old = (d.old, d.new).2 from hne)]
    have hstep : d.applyD 1 r =
        Except.ok ({ r with props := setProp r.props d.key d.new }, d,
          false) := by
      rw [DiffL.applyD, if_pos hsba]
      simp [Bind.bind, Except.bind, happ]
    have hnd1 : d.key ∉ rest.map fun x => x.key :=
      (List.nodup_cons.1 (by simpa using hnd)).1
    have hnd2 : (rest.map fun x => x.key).Nodup :=
      (List.nodup_cons.1 (by simpa using hnd)).2
    have hkey : ∀ d' ∈ rest, d'.key ≠ d.key := fun d' hd' he =>
      hnd1 (he ▸ List.mem_map_of_mem (fun x => x.key) hd')
    have hpre2 : ∀ d' ∈ rest,
        ({ r with props := setProp r.props d.key d.new } :
          Rec α).props.lookup d'.key = some d'.old ∧
          d'.old ≠ d'.new ∧ d'.unimportant = false := by
      intro d' hd'
      obtain ⟨h1, h2, h3⟩ := hpre d' (List.mem_cons_of_mem _ hd')
      refine ⟨?_, h2, h3⟩
      rw [show ({ r with props := setProp r.props d.key d.new } :
          Rec α).props = setProp r.props d.key d.new from rfl,
        setProp_lookup_other _ _ _ _ (hkey d' hd')]
      exact h1
    have ih := applylist1_ok rest _ hnd2 hpre2
    simp only [applylist]
    simp [Bind.bind, Except.bind, hstep, ih, applyAll, List.foldl_cons]

/-- With `APPLY_UNIMPORTANT` only, a list of important diffs is applied as
a no-op. -/
theorem applylist2_noop {α : Type _} [DecidableEq α] :
    ∀ (dl : List (DiffL α)) (r : Rec α),
      (∀ d ∈ dl, d.unimportant = false) →
      applylist 2 dl r = Except.ok (r, dl, [])
  | [], _ => by
    intro _
    rfl
  | d :: rest, r => by
    intro h
    have hsba : d.should_be_applied 2 = false := by
      rw [sba_of_unimp_false d (h d (List.mem_cons_self _ _))]
      decide
    have hstep : d.applyD 2 r = Except.ok (r, d, false) := by
      rw [DiffL.applyD, if_neg (by simp [hsba])]
    have ih := applylist2_noop rest r
      (fun d' hd' => h d' (List.mem_cons_of_mem _ hd'))
    simp only [applylist]
    simp [Bind.bind, Except.bind, hstep, ih]

theorem eqProps_ok {α : Type _} [DecidableEq α] (other : Rec α) :
    ∀ ps, (∀ k v, (k, v) ∈ ps → other.props.lookup k = some v) →
      eqProps other ps = Except.ok true
  | [] => by
    intro _
    rfl
  | (k, v) :: rest => by
    intro h
    have hk := h k v (List.mem_cons_self _ _)
    simp only [eqProps, dictGet, hk]
    simp [Bind.bind, Except.bind]
    exact eqProps_ok other rest
      (fun k' v' hm => h k' v' (List.mem_cons_of_mem _ hm))

theorem eqb_true_elim {α : Type _} [DecidableEq α] (self other : Rec α)
    (h : Comparable.eqb self other = Except.ok true) :
    self.keyword = other.keyword ∧
      eqProps other self.props = Except.ok true := by
  by_cases hkw : self.keyword = other.keyword
  · refine ⟨hkw, ?_⟩
    rw [Comparable.eqb, if_pos hkw] at h
    exact h
  · rw [Comparable.eqb, if_neg hkw] at h
    simp at h

/-- Two equal records produce the empty diff list. -/
theorem eqProps_diffProps_nil {α : Type _} [DecidableEq α] (other : Rec α) :
    ∀ ps t, eqProps other ps = Except.ok true →
      diffProps other ps t = Except.ok ([], t)
  | [], t => by
    intro _
    rfl
  | (k, v) :: rest, t => by
    intro h
    rcases hl : other.props.lookup k with _ | w
    · simp only [eqProps, dictGet, hl] at h
      simp [Bind.bind, Except.bind] at h
    · simp only [eqProps, dictGet, hl] at h
      simp only [Bind.bind, Except.bind] at h
      by_cases hvw : v = w
      · rw [if_pos hvw] at h
        simp only [diffProps, dictGet, hl]
        simp [Bind.bind, Except.bind, hvw]
        exact eqProps_diffProps_nil other rest t h
      · rw [if_neg hvw] at h
        simp at h

theorem applyAll_keyword {α : Type _} :
    ∀ (dl : List (DiffL α)) (r : Rec α),
      (applyAll r dl).keyword = r.keyword
  | [], _ => rfl
  | _ :: rest, _ => applyAll_keyword rest _

theorem applyAll_keys {α : Type _} :
    ∀ (dl : List (DiffL α)) (r : Rec α),
      (applyAll r dl).props.map Prod.fst = r.props.map Prod.fst
  | [], _ => rfl
  | d :: rest, r => by
    rw [show applyAll r (d :: rest) =
      applyAll { r with props := setProp r.props d.key d.new } rest from rfl]
    rw [applyAll_keys rest _]
    exact setProp_keys _ _ _

theorem applyAll_lookup_notin {α : Type _} :
    ∀ (dl : List (DiffL α)) (r : Rec α) (k : String),
      (∀ d ∈ dl, d.key ≠ k) →
      (applyAll r dl).props.lookup k = r.props.lookup k
  | [], _, _ => by
    intro _
    rfl
  | d :: rest, r, k => by
    intro h
    rw [show applyAll r (d :: rest) =
      applyAll { r with props := setProp r.props d.key d.new } rest from rfl]
    rw [applyAll_lookup_notin rest _ k
      (fun d' hd' => h d' (List.mem_cons_of_mem _ hd'))]
    exact setProp_lookup_other _ _ _ _
      (Ne.symm (h d (List.mem_cons_self _ _)))

theorem applyAll_lookup_mem {α : Type _} :
    ∀ (dl : List (DiffL α)) (r : Rec α),
      ((dl.map fun d => d.key).Nodup) →
      (∀ d ∈ dl, (r.props.lookup d.key).isSome) →
      ∀ d ∈ dl, (applyAll r dl).props.lookup d.key = some d.new
  | [], _ => by
    intro _ _ d hd
    simp at hd
  | d0 :: rest, r => by
    intro hnd hsome d hd
    have hnd1 : d0.key ∉ rest.map fun x => x.key :=
      (List.nodup_cons.1 (by simpa using hnd)).1
    have hnd2 : (rest.map fun x => x.key).Nodup :=
      (List.nodup_cons.1 (by simpa using hnd)).2
    rw [show applyAll r (d0 :: rest) =
      applyAll { r with props := setProp r.props d0.key d0.new } rest from
      rfl]
    rcases List.mem_cons.1 hd with rfl | hd2
    · rw [applyAll_lookup_notin rest _ d.key (fun d' hd' he =>
        hnd1 (he ▸ List.mem_map_of_mem (fun x => x.key) hd'))]
      have hs := hsome d (List.mem_cons_self _ _)
      rcases hw : r.props.lookup d.key with _ | w
      · rw [hw] at hs; simp at hs
      · exact setProp_lookup_self _ _ _ _ hw
    · refine applyAll_lookup_mem rest _ hnd2 ?_ d hd2
      intro d' hd'
      have hne : d'.key ≠ d0.key := fun he =>
        hnd1 (he ▸ List.mem_map_of_mem (fun x => x.key) hd')
      rw [show ({ r with props := setProp r.props d0.key d0.new } :
          Rec α).props = setProp r.props d0.key d0.new from rfl,
        setProp_lookup_other _ _ _ _ hne]
      exact hsome d' (List.mem_cons_of_mem _ hd')

/-- C1: if `theirs` equals `base` (the code's own `==`), the three-way
merge of a same-class default-`Comparable` record (same `KEYWORD`, same
`PROPS`) returns no conflict pairs, and the updated base equals `ours`:
every ours diff was applied as a safe diff. -/
theorem threeway_ours_only {α : Type} [DecidableEq α]
    (base ours theirs : Rec α)
    (hkw : ours.keyword = base.keyword)
    (hkeys : ours.props.map Prod.fst = base.props.map Prod.fst)
    (hnodup : (base.props.map Prod.fst).Nodup)
    (hth : Comparable.eqb base theirs = Except.ok true) :
    ∃ r', threeway base ours theirs = Except.ok ([], r') ∧
      Comparable.eqb r' ours = Except.ok true := by
  have hlkours : ∀ k v, (k, v) ∈ base.props →
      (ours.props.lookup k).isSome := by
    intro k v hm
    refine keys_mem_lookup_isSome _ _ ?_
    rw [hkeys]
    exact List.mem_map_of_mem Prod.fst hm
  obtain ⟨dl, t2, hdp, ha, hb, hc⟩ := diffProps_spec ours base.props 0 hlkours
  have hdlnodup : (dl.map fun d => d.key).Nodup := hnodup.sublist hb
  have hpre : ∀ d ∈ dl, base.props.lookup d.key = some d.old ∧
      d.old ≠ d.new ∧ d.unimportant = false := by
    intro d hd
    obtain ⟨h1, h2, h3, h4⟩ := ha d hd
    exact ⟨mem_lookup_nodup _ _ _ hnodup h3, h2, h1⟩
  have hal1 : applylist 1 dl base = Except.ok (applyAll base dl, dl, []) :=
    applylist1_ok dl base hdlnodup hpre
  have hal2 : ∀ r : Rec α, applylist 2 dl r = Except.ok (r, dl, []) :=
    fun r => applylist2_noop dl r (fun d hd => (ha d hd).1)
  obtain ⟨hkwt, hept⟩ := eqb_true_elim base theirs hth
  have hd1 : Comparable.diff base ours = Except.ok (some dl) := by
    rw [Comparable.diff,
      if_neg (show ¬base.keyword ≠ ours.keyword from fun h => h hkw.symm)]
    simp [Bind.bind, Except.bind, hdp]
  have hd2 : Comparable.diff base theirs = Except.ok (some []) := by
    rw [Comparable.diff, if_neg (fun h => h hkwt)]
    simp [Bind.bind, Except.bind,
      eqProps_diffProps_nil theirs base.props 0 hept]
  refine ⟨applyAll base dl, ?_, ?_⟩
  · simp only [threeway]
    rw [hd1, hd2]
    simp [Bind.bind, Except.bind, flatMap_flattenD3, hal1, hal2,
      applylist, applylists3, detAssoc, detLoop, pairsToDiffs,
      List.filter_true]
  · rw [Comparable.eqb,
      if_pos (show (applyAll base dl).keyword = ours.keyword by
        rw [applyAll_keyword]; exact hkw.symm)]
    refine eqProps_ok ours _ ?_
    intro k v hm
    have hkeys2 : (applyAll base dl).props.map Prod.fst =
        base.props.map Prod.fst := applyAll_keys dl base
    have hnodup2 : ((applyAll base dl).props.map Prod.fst).Nodup := by
      rw [hkeys2]
      exact hnodup
    have hlk : (applyAll base dl).props.lookup k = some v :=
      mem_lookup_nodup _ _ _ hnodup2 hm
    by_cases hdk : ∃ d ∈ dl, d.key = k
    · obtain ⟨d, hd, hdkey⟩ := hdk
      have hsome : ∀ d' ∈ dl, (base.props.lookup d'.key).isSome := by
        intro d' hd'
        rw [(hpre d' hd').1]
        rfl
      have h2 := applyAll_lookup_mem dl base hdlnodup hsome d hd
      rw [hdkey] at h2
      rw [h2] at hlk
      have hv : v = d.new := by simpa using hlk.symm
      obtain ⟨-, -, -, h4⟩ := ha d hd
      rw [hv, ← hdkey]
      exact h4
    · push_neg at hdk
      rw [applyAll_lookup_notin dl base k hdk] at hlk
      exact hc k v (lookup_some_mem _ _ _ hlk) hdk

/-- C1, witness: merging an ours that adds one property value and changes
another, against an unchanged theirs, applies both safely. -/
theorem threeway_ours_only_witness :
    ∃ r', threeway twBase twOurs twBase = Except.ok ([], r') ∧
      Comparable.eqb r' twOurs = Except.ok true :=
  threeway_ours_only twBase twOurs twBase rfl rfl (by decide) rfl

/-! ### Variable expansion: the context walk -/

theorem rpartitionSlash_length_lt (c : String) (h : c ≠ "") :
    (rpartitionSlash c).length < c.length := by
  have hcd : c.data ≠ [] := by
    intro hnil
    apply h
    cases c with
    | mk data =>
      simp only [String.data] at hnil
      rw [hnil]
  have hp : 0 < c.data.length := List.length_pos.2 hcd
  rw [rpartitionSlash]
  rcases hdw : c.data.reverse.dropWhile (fun x => x != '/') with _ | ⟨x, rest⟩
  · show (0 : Nat) < c.data.length
    omega
  · have hlen : (c.data.reverse.dropWhile (fun x => x != '/')).length ≤
        c.data.reverse.length :=
      (List.dropWhile_sublist _).length_le
    rw [hdw] at hlen
    simp only [List.length_cons, List.length_reverse] at hlen
    show rest.reverse.length < c.data.length
    simp only [List.length_reverse]
    omega

theorem string_len_zero_eq (c : String) (h : c.length = 0) : c = "" := by
  cases c with
  | mk data =>
    have hd : data = [] := List.length_eq_zero.1 (by simpa [String.length] using h)
    rw [hd]

theorem ctxChainF_congr :
    ∀ (n m : Nat) (c : String), c.length ≤ n → c.length ≤ m →
      ctxChainF n c = ctxChainF m c
  | 0, m, c => by
    intro hn _
    have hc : c = "" := string_len_zero_eq c (Nat.le_zero.1 hn)
    subst hc
    cases m with
    | zero => rfl
    | succ m => simp [ctxChainF]
  | n + 1, m, c => by
    intro hn hm
    by_cases hc : c = ""
    · subst hc
      cases m with
      | zero => simp [ctxChainF]
      | succ m => simp [ctxChainF]
    · have hlen : 1 ≤ c.length := by
        rcases Nat.eq_zero_or_pos c.length with h0 | h1
        · exact absurd (string_len_zero_eq c h0) hc
        · exact h1
      cases m with
      | zero => omega
      | succ m =>
        rw [show ctxChainF (n + 1) c =
            c :: ctxChainF n (rpartitionSlash c) from by
          rw [ctxChainF, if_neg hc]]
        rw [show ctxChainF (m + 1) c =
            c :: ctxChainF m (rpartitionSlash c) from by
          rw [ctxChainF, if_neg hc]]
        have hplt := rpartitionSlash_length_lt c hc
        rw [ctxChainF_congr n m (rpartitionSlash c) (by omega) (by omega)]

theorem ctxChain_head (c : String) : c ∈ ctxChain c := by
  rw [ctxChain]
  by_cases hc : c = ""
  · subst hc
    exact List.mem_singleton.2 rfl
  · have hlen : 1 ≤ c.length := by
      rcases Nat.eq_zero_or_pos c.length with h0 | h1
      · exact absurd (string_len_zero_eq c h0) hc
      · exact h1
    rcases hn : c.length with _ | n
    · omega
    · rw [ctxChainF, if_neg hc]
      exact List.mem_cons_self _ _

theorem ctxChain_parent_sub (c : String) (hc : c ≠ "") :
    ∀ a ∈ ctxChain (rpartitionSlash c), a ∈ ctxChain c := by
  intro a ha
  rw [ctxChain]
  have hlen : 1 ≤ c.length := by
    rcases Nat.eq_zero_or_pos c.length with h0 | h1
    · exact absurd (string_len_zero_eq c h0) hc
    · exact h1
  rcases hn : c.length with _ | n
  · omega
  · rw [ctxChainF, if_neg hc]
    refine List.mem_cons_of_mem _ ?_
    have hplt := rpartitionSlash_length_lt c hc
    rw [ctxChainF_congr n (rpartitionSlash c).length (rpartitionSlash c)
      (by omega) (le_refl _)]
    exact ha

/-- The context walk of `resolve` for a variable with no binding anywhere
along the ancestor chain: always returns `orig_variable`, whatever the
incoming history. -/
theorem loopF_unresolved (tbl : VTable) (name : String) :
    ∀ (n : Nat) (c : String), c.length ≤ n →
      (∀ a ∈ ctxChain c, vardictGet ((tbl.lookup a).getD []) name = none) →
      ∀ (orig : Option String) (hist : List (String × String)),
        ∃ hist2, loopF tbl (n + 1) c name orig hist = Except.ok (orig, hist2)
  | 0, c => by
    intro hn hnone orig hist
    have hc : c = "" := string_len_zero_eq c (Nat.le_zero.1 hn)
    subst hc
    rw [loopF]
    by_cases hmem : (("" : String), name) ∈ hist
    · rw [if_pos hmem, if_pos rfl]
      exact ⟨hist, rfl⟩
    · rw [if_neg hmem]
      have h0 := hnone "" (ctxChain_head "")
      refine ⟨(("" : String), name) :: hist, ?_⟩
      simp only [h0]
      simp
  | n + 1, c => by
    intro hn hnone orig hist
    by_cases hc : c = ""
    · subst hc
      rw [loopF]
      by_cases hmem : (("" : String), name) ∈ hist
      · rw [if_pos hmem, if_pos rfl]
        exact ⟨hist, rfl⟩
      · rw [if_neg hmem]
        have h0 := hnone "" (ctxChain_head "")
        refine ⟨(("" : String), name) :: hist, ?_⟩
        simp only [h0]
        simp
    · have hplt := rpartitionSlash_length_lt c hc
      have hsub : ∀ a ∈ ctxChain (rpartitionSlash c),
          vardictGet ((tbl.lookup a).getD []) name = none :=
        fun a ha => hnone a (ctxChain_parent_sub c hc a ha)
      have ih := loopF_unresolved tbl name n (rpartitionSlash c)
        (by omega) hsub orig
      rw [loopF]
      by_cases hmem : (c, name) ∈ hist
      · rw [if_pos hmem, if_neg hc]
        exact ih hist
      · rw [if_neg hmem]
        have h0 := hnone c (ctxChain_head c)
        obtain ⟨h2, hh⟩ := ih ((c, name) :: hist)
        refine ⟨h2, ?_⟩
        simp only [h0]
        rw [if_neg hc]
        exact hh

/-- C9: `resolve` called with a plain string variable name that has no
binding in the resolved context or any of its ancestors returns None
(`orig_variable` stays None for strings); the same unresolved reference
arriving as a `RE_VAR` match object (the `expand` path) comes back as its
own original text instead. -/
theorem resolve_plain_string_none :
    ∀ (tbl : VTable) (c c2 name : String),
      resolveContext tbl c = Except.ok c2 →
      ¬name.data.contains ':' →
      (∀ a ∈ ctxChain c2, vardictGet ((tbl.lookup a).getD []) name = none) →
      (∀ hist, ∃ hist2,
        resolveF tbl (c2.length + 1 + 1) c (VarIn.strV name) hist =
          Except.ok (none, hist2)) ∧
      (∀ m0 hist, ∃ hist2,
        resolveF tbl (c2.length + 1 + 1) c (VarIn.matchV m0 none name)
          hist = Except.ok (some m0, hist2)) := by
  intro tbl c c2 name hrc hcolon hnone
  have hcolon2 : name.data.contains ':' = false := by
    simpa using hcolon
  constructor
  · intro hist
    have hstep : resolveF tbl (c2.length + 1 + 1) c (VarIn.strV name)
        hist = loopF tbl (c2.length + 1) c2 name none hist := by
      rw [resolveF]
      show (if name.data.contains ':' = true then _ else _) = _
      rw [hcolon2]
      simp only [Bool.false_eq_true, if_false]
      rw [hrc]
    obtain ⟨h2, hh⟩ := loopF_unresolved tbl name c2.length c2 (le_refl _)
      hnone none hist
    exact ⟨h2, by rw [hstep]; exact hh⟩
  · intro m0 hist
    have hstep : resolveF tbl (c2.length + 1 + 1) c
        (VarIn.matchV m0 none name) hist =
        loopF tbl (c2.length + 1) c2 name (some m0) hist := by
      rw [resolveF]
      show (match resolveContext tbl c with
        | Except.error e => Except.error e
        | Except.ok context2 =>
          loopF tbl (c2.length + 1) context2 name (some m0) hist) = _
      rw [hrc]
    obtain ⟨h2, hh⟩ := loopF_unresolved tbl name c2.length c2 (le_refl _)
      hnone (some m0) hist
    exact ⟨h2, by rw [hstep]; exact hh⟩

/-- C9, witness: resolving the undefined name `B` as a plain string gives
None; the same name as a match object gives back its reference text. -/
theorem resolve_plain_string_none_witness :
    (∃ hist2,
      resolveF tblSelfA ("".length + 1 + 1) "" (VarIn.strV "B") [] =
        Except.ok (none, hist2)) ∧
    (∃ hist2,
      resolveF tblSelfA ("".length + 1 + 1) ""
        (VarIn.matchV "$\x7bB\x7d" none "B") [] =
        Except.ok (some "$\x7bB\x7d", hist2)) :=
  have h := resolve_plain_string_none tblSelfA "" "" "B" rfl (by decide)
    (by decide)
  ⟨h.1 [], h.2 "$\x7bB\x7d" []⟩

/-- C4, counterexample: expanding a reference whose 36-character scope
matches no known context raises `ValueError` (`min()` over an empty
sequence in `_resolve_context`, kicad/19623) instead of leaving the
reference text unchanged. -/
theorem expand_scope_valueerror_counterexample :
    varExpand ([] : VTable) 10 "" badScopeText =
      Except.error VErr.valueError := rfl

/-- C4 (amended): expansion of a self-referential global (`A = "${A}"`,
or the two-step cycle `A = "${B}"`, `B = "${A}"`) terminates and yields
the reference text `${A}` unchanged; a `(context, name)` pair already in
the history drops the walk to the parent context; and a reference (with
no 36-character scope pathology, i.e. whose context resolves) that has no
binding anywhere along the ancestor chain expands to its own original
text. -/
theorem variables_cycle_amended :
    varExpand tblSelfA 20 "" "$\x7bA\x7d" =
      Except.ok ("$\x7bA\x7d", []) ∧
    varExpand tblAB 20 "" "$\x7bA\x7d" =
      Except.ok ("$\x7bA\x7d", []) ∧
    (∀ (tbl : VTable) (fuel : Nat) (c v : String) (orig : Option String)
      (hist : List (String × String)), (c, v) ∈ hist → c ≠ "" →
      loopF tbl (fuel + 1) c v orig hist =
        loopF tbl fuel (rpartitionSlash c) v orig hist) ∧
    (∀ (tbl : VTable) (c c2 m0 name : String)
      (hist : List (String × String)),
      resolveContext tbl c = Except.ok c2 →
      (∀ a ∈ ctxChain c2, vardictGet ((tbl.lookup a).getD []) name =
        none) →
      ∃ hist2, resolveF tbl (c2.length + 1 + 1) c
        (VarIn.matchV m0 none name) hist = Except.ok (some m0, hist2)) := by
  refine ⟨rfl, rfl, ?_, ?_⟩
  · intro tbl fuel c v orig hist hmem hc
    rw [loopF, if_pos hmem, if_neg hc]
  · intro tbl c c2 m0 name hist hrc hnone
    have hstep : resolveF tbl (c2.length + 1 + 1) c
        (VarIn.matchV m0 none name) hist =
        loopF tbl (c2.length + 1) c2 name (some m0) hist := by
      rw [resolveF]
      show (match resolveContext tbl c with
        | Except.error e => Except.error e
        | Except.ok context2 =>
          loopF tbl (c2.length + 1) context2 name (some m0) hist) = _
      rw [hrc]
    obtain ⟨h2, hh⟩ := loopF_unresolved tbl name c2.length c2 (le_refl _)
      hnone (some m0) hist
    exact ⟨h2, by rw [hstep]; exact hh⟩

/-- C4, witness: the drop-to-parent step on a concrete revisited pair,
and the unresolved name `B` expanding to its own reference text. -/
theorem variables_cycle_amended_witness :
    loopF tblSelfA 7 "p/q" "V" none [("p/q", "V")] =
      loopF tblSelfA 6 (rpartitionSlash "p/q") "V" none [("p/q", "V")] ∧
    ∃ hist2, resolveF tblSelfA ("".length + 1 + 1) ""
      (VarIn.matchV "$\x7bB\x7d" none "B") [] =
      Except.ok (some "$\x7bB\x7d", hist2) :=
  ⟨variables_cycle_amended.2.2.1 tblSelfA 6 "p/q" "V" none [("p/q", "V")]
      (by decide) (by decide),
    variables_cycle_amended.2.2.2 tblSelfA "" "" "$\x7bB\x7d" "B" [] rfl
      (by decide)⟩

/-- C10, witness: a label-only net formats to `""`, a single-pin net with a
no-connect marker formats to `""` and is dropped from the generated
netlist, and a node list computed over a `#`-refdes pin omits it. -/
theorem net_fmt_empty_and_hash_excluded_witness :
    Net.fmt ⟨[entLbl], []⟩ 2 = some "" ∧
    Net.fmt ⟨[entR1], ["i"]⟩ 0 = some "" ∧
    generate_netlist [⟨[entR1], ["i"]⟩] 0 = generate_netlist [] 0 ∧
    nodesShort [["#PWR01", "~", "1"], ["R1", "~", "1"]] = some ["R1.1"] ∧
    (∀ s ∈ ["R1.1"], pyStartsWith s "#" = false) := by
  obtain ⟨hA, hB, -⟩ := net_fmt_empty_and_hash_excluded
  refine ⟨(hA [entLbl] [] 2 (by decide)).1 (by decide),
    (hA [entR1] ["i"] 0 (by decide)).2.1 (by decide) (by decide),
    (hA [entR1] ["i"] 0 (by decide)).2.2 [] []
      (Or.inr ⟨by decide, by decide⟩),
    by decide,
    hB [["#PWR01", "~", "1"], ["R1", "~", "1"]] ["R1.1"] (by decide)⟩

end KVD
